import Mathlib

/-!
# ciNanoGui: the `nanogui::Widget` tree

A shallow embedding of `src/gui/nanogui/widget.h` and `src/gui/nanogui/widget.cpp`, and
of the helper functions of `src/gui/nanogui/common.h`.

* A C++ `Widget *` is an address (`Nat`); `nullptr` is `none`.
* The program state is a `Heap`, a map from addresses to `Widget` records.
  Member functions that mutate objects are state transformers on the heap and
  perform their writes one after the other, so aliasing (for instance a widget
  that is added to itself) behaves as in the source.
* A C++ `int` is an `Int`; the arithmetic of `ivec2` wraps to 32 bits
  (`wrapInt32`).
* Recursion along pointers (children, parent chain) carries a fuel argument;
  `none` means the fuel ran out, never a result of the program.
* Code that is not part of the sources (`Layout`, `Theme`, `Screen::updateFocus`, the
  overrides of virtual members in subclasses) enters as a parameter.
* The event handlers record the calls they make in a list of `Event`s.
* The rendering context of `draw` is a translation offset and a record of the draw calls.
* Sequences of tree operations run in a `World`, which records beside the heap the
  widgets that were destroyed when their last reference was released.
-/

namespace nanogui

/-! ## Values -/

/-- Two's complement wrap of an integer to the 32 bit range of `int`. -/
def wrapInt32 (z : Int) : Int := (z + 2147483648) % 4294967296 - 2147483648

/-- The integer is representable as a 32 bit `int`. -/
def InInt32 (z : Int) : Prop := -2147483648 ≤ z ∧ z < 2147483648

instance (z : Int) : Decidable (InInt32 z) := by
  unfold InInt32; infer_instance

/-- The type `ci::ivec2` (`glm::ivec2`): two `int` components. -/
structure ivec2 where
  x : Int
  y : Int
deriving DecidableEq, Repr

/-- Component-wise `operator+` of `ivec2`. -/
def ivec2.add (a b : ivec2) : ivec2 := ⟨wrapInt32 (a.x + b.x), wrapInt32 (a.y + b.y)⟩

/-- Component-wise `operator-` of `ivec2`. -/
def ivec2.sub (a b : ivec2) : ivec2 := ⟨wrapInt32 (a.x - b.x), wrapInt32 (a.y - b.y)⟩

instance : Add ivec2 := ⟨ivec2.add⟩
instance : Sub ivec2 := ⟨ivec2.sub⟩

/-! ## Data model -/

/-- The data members of `class Widget : public Object` (widget.h, `protected:` section),
together with the reference count of its `Object` base. -/
structure Widget where
  /-- Reference count of the `Object` base class. -/
  refCount : Int
  mParent : Option Nat
  mTheme : Option Nat
  mLayout : Option Nat
  mId : String
  mChildren : List Nat
  mPos : ivec2
  mSize : ivec2
  mFixedSize : ivec2
  mVisible : Bool
  mEnabled : Bool
  mFocused : Bool
  mMouseFocus : Bool
  mTooltip : String
  mFontSize : Int
deriving DecidableEq, Repr

/-- The program state: the widget object stored at every address. -/
abbrev Heap := Nat → Widget

/-- Overwrite the object at address `a`. -/
def Heap.set (h : Heap) (a : Nat) (w : Widget) : Heap := fun b => if b = a then w else h b

/-! ## `Object` reference counting -/

/-- Modelled from the spec: `Object::incRef` is declared in object.h, which is not part
of the sources. The spec gives an Object a reference count that any holder may
increment; the count is incremented by one. -/
def incRef (h : Heap) (a : Nat) : Heap := h.set a { h a with refCount := (h a).refCount + 1 }

/-- Modelled from the spec: `Object::decRef` is declared in object.h, which is not part
of the sources. The count is decremented by one; the spec destroys the object when
the count reaches 0, which the heap records as a count of 0. -/
def decRef (h : Heap) (a : Nat) : Heap := h.set a { h a with refCount := (h a).refCount - 1 }

/-! ## Accessors of widget.h -/

/-- The member `Widget::setParent`. -/
def setParent (h : Heap) (self : Nat) (parent : Option Nat) : Heap :=
  h.set self { h self with mParent := parent }

/-- The member `Widget::childCount`. -/
def childCount (h : Heap) (self : Nat) : Int := ((h self).mChildren.length : Int)

/-- The member `Widget::setSize`. -/
def setSize (h : Heap) (self : Nat) (size : ivec2) : Heap :=
  h.set self { h self with mSize := size }

/-- The member `Widget::contains`. -/
def Widget.contains (w : Widget) (p : ivec2) : Bool :=
  let d := p - w.mPos
  (decide (d.x ≥ 0) && decide (d.y ≥ 0)) && (decide (d.x < w.mSize.x) && decide (d.y < w.mSize.y))

/-- The member `Widget::absolutePosition`; recursion along the parent pointers. -/
def absolutePosition : Nat → Heap → Nat → Option ivec2
  | 0, _, _ => none
  | fuel + 1, h, self =>
    match (h self).mParent with
    | some parent => (absolutePosition fuel h parent).map (fun a => a + (h self).mPos)
    | none => some (h self).mPos

/-- The `while (widget)` loop of `Widget::visibleRecursive`. -/
def visibleRecursiveLoop : Nat → Heap → Bool → Option Nat → Option Bool
  | _, _, visible, none => some visible
  | 0, _, _, some _ => none
  | fuel + 1, h, visible, some widget =>
    visibleRecursiveLoop fuel h (visible && (h widget).mVisible) (h widget).mParent

/-- The member `Widget::visibleRecursive`. -/
def visibleRecursive (fuel : Nat) (h : Heap) (self : Nat) : Option Bool :=
  visibleRecursiveLoop fuel h true (some self)

/-! ## Tree composition (widget.cpp) -/

/-- The member `Widget::addChild`. -/
def addChild (h : Heap) (self widget : Nat) : Heap :=
  let h1 := h.set self { h self with mChildren := (h self).mChildren ++ [widget] }
  let h2 := incRef h1 widget
  setParent h2 widget (some self)

/-- The member `Widget::removeChild (const Widget *)`: `std::remove` moves every entry
different from `widget` to the front, keeping their order, and `erase` cuts off the
rest; then the reference is released. -/
def removeChild (h : Heap) (self widget : Nat) : Heap :=
  let h1 := h.set self { h self with mChildren := (h self).mChildren.filter (fun c => c != widget) }
  decRef h1 widget

/-- The member `Widget::removeChild (int)`. Indexing `mChildren[index]` outside of the
vector is undefined behaviour, for which the result is `none`. -/
def removeChildAt (h : Heap) (self : Nat) (index : Int) : Option Heap :=
  if 0 ≤ index ∧ index < childCount h self then
    match (h self).mChildren.get? index.toNat with
    | some widget =>
      let h1 := h.set self { h self with mChildren := (h self).mChildren.eraseIdx index.toNat }
      some (decRef h1 widget)
    | none => none
  else none

/-- The member initialiser list of the constructor `Widget::Widget`; the reference
count of a new `Object` is 0. -/
def Widget.initial : Widget :=
  { refCount := 0, mParent := none, mTheme := none, mLayout := none, mId := "",
    mChildren := [], mPos := ⟨0, 0⟩, mSize := ⟨0, 0⟩, mFixedSize := ⟨0, 0⟩,
    mVisible := true, mEnabled := true, mFocused := false, mMouseFocus := false,
    mTooltip := "", mFontSize := -1 }

/-- The constructor `Widget::Widget (Widget * parent)`, run on the storage at `self`. -/
def Widget.ctor (h : Heap) (self : Nat) (parent : Option Nat) : Heap :=
  let h0 := h.set self Widget.initial
  match parent with
  | some p =>
    let h1 := addChild h0 p self
    h1.set self { h1 self with mTheme := (h1 p).mTheme }
  | none => h0

/-! ## Hit testing (widget.cpp) -/

/-- The test of the loop in `Widget::findWidget`: the child is visible and contains the
point translated into the coordinates of `self`. -/
def hitTest (h : Heap) (self : Nat) (p : ivec2) (child : Nat) : Bool :=
  (h child).mVisible && (h child).contains (p - (h self).mPos)

/-- The member `Widget::findWidget`: the children are scanned from the last to the
first, the first hit is recursed into. The inner `Option` is the returned pointer. -/
def findWidget : Nat → Heap → Nat → ivec2 → Option (Option Nat)
  | 0, _, _, _ => none
  | fuel + 1, h, self, p =>
    match (h self).mChildren.reverse.find? (hitTest h self p) with
    | some child => findWidget fuel h child (p - (h self).mPos)
    | none => some (if (h self).contains p then some self else none)

/-! ## Layout delegation (widget.cpp) -/

/-- The abstract class `Layout` (layout.h) is not part of the sources; its two virtual
members are parameters, indexed by the address of the layout object. A run of
`Layout::performLayout` that does not return is `none`. -/
structure LayoutOps where
  preferredSize : Nat → Heap → Nat → ivec2
  performLayout : Nat → Heap → Nat → Option Heap

/-- The member `Widget::preferredSize`. -/
def preferredSize (L : LayoutOps) (h : Heap) (self : Nat) : ivec2 :=
  match (h self).mLayout with
  | some l => L.preferredSize l h self
  | none => (h self).mSize

/-- The size that the loop of `Widget::performLayout` gives to a child with fixed size
`fix` and preferred size `pref`. -/
def layoutSize (fix pref : ivec2) : ivec2 :=
  ⟨if fix.x ≠ 0 then fix.x else pref.x, if fix.y ≠ 0 then fix.y else pref.y⟩

/-- The member `Widget::performLayout`. -/
def performLayout (L : LayoutOps) : Nat → Heap → Nat → Option Heap
  | 0, _, _ => none
  | fuel + 1, h, self =>
    match (h self).mLayout with
    | some l => L.performLayout l h self
    | none =>
      (h self).mChildren.foldlM
        (fun g c =>
          let pref := preferredSize L g c
          let fix := (g c).mFixedSize
          performLayout L fuel (setSize g c (layoutSize fix pref)) c)
        h

/-- The body of the loop of `Widget::performLayout` for the child `c`, run with the
fuel of the recursive call. -/
def layoutChild (L : LayoutOps) (fuel : Nat) (g : Heap) (c : Nat) : Option Heap :=
  performLayout L fuel (setSize g c (layoutSize (g c).mFixedSize (preferredSize L g c))) c

/-! ## Vocabulary of the statements -/

/-- The list `new` is `old` with its single entry `w` taken out: `w` is gone, the length
dropped by one and the other entries kept their order. -/
def RemovedFrom (w : Nat) (old new : List Nat) : Prop :=
  w ∉ new ∧ (new.length : Int) = (old.length : Int) - 1 ∧
    ∃ pre post, old = pre ++ w :: post ∧ new = pre ++ post

/-- The list is the parent chain `a0, a1, ..., ak` of its head: every entry has the
next one as parent, the last one has no parent. -/
def IsParentChain (h : Heap) : List Nat → Prop
  | [] => False
  | [a] => (h a).mParent = none
  | a :: b :: rest => (h a).mParent = some b ∧ IsParentChain h (b :: rest)

/-- The sum `position(a0) + position(a1) + ... + position(ak)` over a list of widgets,
with the addition of `ivec2`, read from the left. -/
def sumPositions (h : Heap) : List Nat → ivec2
  | [] => ⟨0, 0⟩
  | a :: rest => rest.foldl (fun acc b => acc + (h b).mPos) (h a).mPos

/-- The children lists have no cycle and finite depth: `rank` drops from a widget to
each of its children. -/
def WellRanked (h : Heap) (rank : Nat → Nat) : Prop :=
  ∀ P c, c ∈ (h P).mChildren → rank c < rank P

/-- Parent pointers agree with the children lists: each entry of `P.children()` has
parent pointer `P`. -/
def ChildrenHaveParent (h : Heap) : Prop :=
  ∀ P c, c ∈ (h P).mChildren → (h c).mParent = some P

/-- The widget `w` is in the subtree of `r`: it is reached from `r` along children lists. -/
inductive InSubtree (h : Heap) (r : Nat) : Nat → Prop
  | root : InSubtree h r r
  | child (P c : Nat) : InSubtree h r P → c ∈ (h P).mChildren → InSubtree h r c

/-- The last child of `self`, in insertion order, that is visible and contains the
point `p - self.position`. -/
def lastHit (h : Heap) (self : Nat) (p : ivec2) : Option Nat :=
  ((h self).mChildren.filter (hitTest h self p)).getLast?

/-- The two heaps hold the same tree and the same layout assignments. -/
def SameShape (g g' : Heap) : Prop :=
  ∀ x, (g' x).mChildren = (g x).mChildren ∧ (g' x).mLayout = (g x).mLayout

/-- The widget `x` is a child of `v` or in the subtree of a child of `v`. -/
def StrictlyBelow (h : Heap) (v x : Nat) : Prop :=
  ∃ c, c ∈ (h v).mChildren ∧ InSubtree h c x

/-- What is assumed of the `Layout` objects, whose classes are not part of the
sources: arranging a widget changes only widgets strictly below it and keeps the tree
and the layout assignments; the preferred size computed for a widget depends only on
the widgets of its subtree. -/
structure LayoutContract (L : LayoutOps) : Prop where
  arranges : ∀ l g v g', L.performLayout l g v = some g' →
    SameShape g g' ∧ ∀ x, ¬ StrictlyBelow g v x → g' x = g x
  measures : ∀ l g g' v, (∀ x, InSubtree g v x → g' x = g x) →
    L.preferredSize l g' v = L.preferredSize l g v

/-! ## Sequences of tree operations -/

/-- The destructor `Widget::~Widget`, run on the widget at `self`: its body is empty, so
no child is released or detached and no object changes. -/
def Widget.dtor (h : Heap) (_self : Nat) : Heap := h

/-- The widgets constructed so far: they live at the addresses below `count`, the next
constructor call runs on the storage at address `count`. The list `destroyed` records
the widgets that were destroyed; the heap keeps what their storage held. -/
structure World where
  heap : Heap
  count : Nat
  destroyed : List Nat

/-- The widget at address `a` is constructed and not destroyed. -/
def Live (σ : World) (a : Nat) : Prop := a < σ.count ∧ a ∉ σ.destroyed

instance (σ : World) (a : Nat) : Decidable (Live σ a) := by
  unfold Live; infer_instance

/-- Modelled from the spec: `Object::decRef` is declared in object.h, which is not part
of the sources. The spec destroys an Object exactly when its reference count
transitions to 0: after the `decRef` on `w` that led to the heap `g`, the widget `w` is
destroyed if its count is 0 there, which runs `Widget::~Widget`. -/
def release (σ : World) (g : Heap) (w : Nat) : World :=
  if (g w).refCount = 0 then ⟨Widget.dtor g w, σ.count, w :: σ.destroyed⟩
  else ⟨g, σ.count, σ.destroyed⟩

/-- The operations on the tree: `new Widget (parent)`, `P->addChild (w)`,
`P->removeChild (w)` and `P->removeChild (index)`. -/
inductive Op where
  | construct (parent : Option Nat)
  | addChild (P w : Nat)
  | removeChild (P w : Nat)
  | removeChildAt (P : Nat) (index : Int)
deriving DecidableEq, Repr

/-- The operation is one of the two `removeChild` overloads. -/
def Op.isRemoval : Op → Bool
  | .removeChild _ _ => true
  | .removeChildAt _ _ => true
  | _ => false

/-- The widget `w` is owned: it occurs in the children of a live widget. -/
def owned (σ : World) (w : Nat) : Bool :=
  (List.range σ.count).any (fun Q => decide (Live σ Q ∧ w ∈ (σ.heap Q).mChildren))

/-- One operation. The result is `none` when the operation is outside of the calls
considered: it names a widget that is not constructed or is destroyed (a call on a
destroyed object is undefined), adds a widget that a live widget owns, or removes at an
index out of range. After a `removeChild` call the widget released is destroyed if that
was its last reference. -/
def applyOp (σ : World) : Op → Option World
  | .construct none => some ⟨Widget.ctor σ.heap σ.count none, σ.count + 1, σ.destroyed⟩
  | .construct (some p) =>
    if Live σ p then
      some ⟨Widget.ctor σ.heap σ.count (some p), σ.count + 1, σ.destroyed⟩
    else none
  | .addChild P w =>
    if Live σ P ∧ Live σ w ∧ owned σ w = false then
      some ⟨addChild σ.heap P w, σ.count, σ.destroyed⟩
    else none
  | .removeChild P w =>
    if Live σ P ∧ Live σ w then some (release σ (removeChild σ.heap P w) w)
    else none
  | .removeChildAt P index =>
    if Live σ P then
      match (σ.heap P).mChildren.get? index.toNat with
      | some b =>
        if Live σ b then (removeChildAt σ.heap P index).map (fun g => release σ g b)
        else none
      | none => none
    else none

/-- A sequence of operations, from the left. -/
def run (σ : World) : List Op → Option World
  | [] => some σ
  | op :: ops => (applyOp σ op).bind (fun σ' => run σ' ops)

/-- The calls of the sequence keep to the references held: every `addChild (w)` call
is made for a widget on which no reference is held, and every `removeChild (w)` call on
a widget that lists `w` among its children at that moment. -/
def regularCalls : World → List Op → Bool
  | _, [] => true
  | σ, op :: ops =>
    (match op with
      | .addChild _ w => decide ((σ.heap w).refCount = 0)
      | .removeChild P w => decide (w ∈ (σ.heap P).mChildren)
      | _ => true) &&
    (match applyOp σ op with
      | some σ' => regularCalls σ' ops
      | none => true)

/-- All constructed widgets are as new: none destroyed, no reference taken, no parent,
no children. -/
def Fresh (σ : World) : Prop :=
  σ.destroyed = [] ∧ ∀ a, a < σ.count →
    (σ.heap a).refCount = 0 ∧ (σ.heap a).mParent = none ∧ (σ.heap a).mChildren = []

/-- Every widget in the children of a live widget `P` is live and has parent pointer
`P`. -/
def ChildrenOwned (σ : World) : Prop :=
  ∀ P, Live σ P → ∀ c, c ∈ (σ.heap P).mChildren → Live σ c ∧ (σ.heap c).mParent = some P

/-- Every live widget with parent pointer `P` occurs in the children of `P`, and `P` is
a live widget. -/
def ParentsListed (σ : World) : Prop :=
  ∀ w, Live σ w → ∀ P, (σ.heap w).mParent = some P → Live σ P ∧ w ∈ (σ.heap P).mChildren

/-- Every live widget whose parent pointer is a live widget `P` occurs in the children
of `P`; a parent pointer that is not live is that of a destroyed widget. -/
def LiveParentsListed (σ : World) : Prop :=
  ∀ w, Live σ w → ∀ P, (σ.heap w).mParent = some P →
    (Live σ P → w ∈ (σ.heap P).mChildren) ∧ (¬ Live σ P → P ∈ σ.destroyed)

/-- The invariant of the operations: every entry of a children sequence is live and has
that parent pointer, no children sequence has an entry twice, every live widget is
among the children of the widget that its parent pointer names, a live widget holds one
reference if it has a parent pointer and none otherwise, and the destroyed widgets were
constructed. -/
structure Consistent (σ : World) : Prop where
  listed : ∀ P, P < σ.count → ∀ c, c ∈ (σ.heap P).mChildren →
    Live σ c ∧ (σ.heap c).mParent = some P
  nodup : ∀ P, P < σ.count → (σ.heap P).mChildren.Nodup
  parents : ∀ w, Live σ w → ∀ P, (σ.heap w).mParent = some P →
    P < σ.count ∧ w ∈ (σ.heap P).mChildren
  counts : ∀ w, Live σ w →
    (σ.heap w).refCount = if (σ.heap w).mParent = none then 0 else 1
  constructed : ∀ w, w ∈ σ.destroyed → w < σ.count

/-! ## A concrete widget tree

Widget 0 is a root of size 100 x 100 with the children 1 and 2, which overlap;
widget 3 is the only child of widget 2. -/

/-- A heap holding a root (address 0), two overlapping children (1 and 2) and a
grandchild (3, inside 2); every other address holds a new widget. -/
def exTree : Heap := fun a =>
  match a with
  | 0 => { Widget.initial with mChildren := [1, 2], mSize := ⟨100, 100⟩ }
  | 1 => { Widget.initial with refCount := 1, mParent := some 0, mPos := ⟨10, 10⟩,
                               mSize := ⟨50, 50⟩ }
  | 2 => { Widget.initial with refCount := 1, mParent := some 0, mPos := ⟨20, 20⟩,
                               mSize := ⟨50, 50⟩, mChildren := [3] }
  | 3 => { Widget.initial with refCount := 1, mParent := some 2, mPos := ⟨5, 5⟩,
                               mSize := ⟨10, 10⟩, mVisible := false }
  | _ => Widget.initial

/-- A rank for `exTree`: the height above the deepest level. -/
def exRank (a : Nat) : Nat := 3 - a

/-- A parent (address 0) without layout and its two children: widget 1 has the fixed
size (50,0) and the size (30,20); widget 2 has no fixed size and the layout object 0. -/
def exLayoutHeap : Heap := fun a =>
  match a with
  | 0 => { Widget.initial with mChildren := [1, 2], mSize := ⟨100, 100⟩ }
  | 1 => { Widget.initial with refCount := 1, mParent := some 0, mFixedSize := ⟨50, 0⟩,
                               mSize := ⟨30, 20⟩ }
  | 2 => { Widget.initial with refCount := 1, mParent := some 0, mLayout := some 0,
                               mSize := ⟨1, 1⟩ }
  | _ => Widget.initial

/-- Layout objects that report the preferred size (40,15) and arrange nothing. -/
def exLayouts : LayoutOps :=
  { preferredSize := fun _ _ _ => ⟨40, 15⟩, performLayout := fun _ g _ => some g }

/-- The world before any constructor call. -/
def exEmpty : World := ⟨fun _ => Widget.initial, 0, []⟩

/-- A root, a child of the root and a grandchild are constructed; then the child is
removed from the root. -/
def exRemoval : List Op :=
  [.construct none, .construct (some 0), .construct (some 1), .removeChild 0 1]

/-- A root 0 with two children 1 and 2 and a widget 3 without parent are constructed;
widget 3 is added to widget 1 and the second child is removed from the root. -/
def exBuild : List Op :=
  [.construct none, .construct (some 0), .construct (some 0), .construct none,
    .addChild 1 3, .removeChildAt 0 1]

/-- A root 0, its child 1 and a separate widget 2 are constructed; then
`removeChild (1)` is called on widget 2, which does not list widget 1. -/
def exForeign : List Op :=
  [.construct none, .construct (some 0), .construct none, .removeChild 2 1]

/-- The operations `exRemoval`, after which the grandchild 2 has lost its parent; then
widget 2 is added to the root and removed from it again. -/
def exReadd : List Op := exRemoval ++ [.addChild 0 2, .removeChild 0 2]

/-! ## Icon identifiers (common.h) -/

/-- The function `nvgIsImageIcon`. -/
def nvgIsImageIcon (value : Int) : Bool := decide (value < 1024)

/-- The function `nvgIsFontIcon`. -/
def nvgIsFontIcon (value : Int) : Bool := decide (value ≥ 1024)

/-! ## Font size and enclosing window (widget.h, widget.cpp) -/

/-- The member `Widget::hasFontSize`. -/
def Widget.hasFontSize (w : Widget) : Bool := decide (w.mFontSize > 0)

/-- What a call of `Widget::window` does: it returns a pointer or throws
`std::runtime_error`. -/
inductive WindowResult where
  | returned (window : Nat)
  | thrown (what : String)
deriving DecidableEq, Repr

/-- The `while (true)` loop of `Widget::window`. The class `Window` is not part of the
sources: `isWindow a` says whether `dynamic_cast<Window *>` succeeds on the object at
address `a`. -/
def windowLoop (isWindow : Nat → Bool) : Nat → Heap → Option Nat → Option WindowResult
  | _, _, none => some (.thrown "Widget:internal error (could not find parent window)")
  | 0, _, some _ => none
  | fuel + 1, h, some widget =>
    if isWindow widget then some (.returned widget)
    else windowLoop isWindow fuel h (h widget).mParent

/-- The member `Widget::window`. -/
def window (isWindow : Nat → Bool) (fuel : Nat) (h : Heap) (self : Nat) : Option WindowResult :=
  windowLoop isWindow fuel h (some self)

/-! ## More concrete inputs -/

/-- A heap in which widget 0 lists widget 1 twice: widgets 1, 2 and 1 again were added
to widget 0. -/
def exDup : Heap := addChild (addChild (addChild (fun _ => Widget.initial) 0 1) 0 2) 0 1

/-- The dynamic types for `exTree`: only widget 2 is a `Window`. -/
def exIsWindow (a : Nat) : Bool := a == 2

/-! ## Paths in the tree -/

/-- The list is a path down the tree: every entry after the first is a child of the
entry before it. -/
def IsChildPath (h : Heap) : List Nat → Prop
  | a :: b :: rest => b ∈ (h a).mChildren ∧ IsChildPath h (b :: rest)
  | _ => True

/-! ## The function `utf8` (common.h) -/

/-- The assignment `seq[i] = v` on the buffer `std::array<char, 8> seq`, whose entries
are `none` until they are written. The conversion of the `int` to `char` keeps the low
8 bits. A write outside of the array is undefined behaviour: `none`. -/
def storeChar (seq : Option (List (Option Nat))) (i : Nat) (v : Int) :
    Option (List (Option Nat)) :=
  match seq with
  | none => none
  | some s => if i < s.length then some (s.set i (some (v % 256).toNat)) else none

/-- The length `n` that `utf8` computes for the code point `c`. -/
def utf8Length (c : Int) : Nat :=
  if c < 0x80 then 1
  else if c < 0x800 then 2
  else if c < 0x10000 then 3
  else if c < 0x200000 then 4
  else if c < 0x4000000 then 5
  else if c ≤ 0x7fffffff then 6
  else 0

/-- The label `case 1` of the switch in `utf8`. -/
def utf8Case1 (seq : Option (List (Option Nat))) (c : Int) : Option (List (Option Nat)) :=
  storeChar seq 0 c

/-- The label `case 2` of the switch in `utf8`, falling through to `case 1`. -/
def utf8Case2 (seq : Option (List (Option Nat))) (c : Int) : Option (List (Option Nat)) :=
  utf8Case1 (storeChar seq 1 (Int.lor 0x80 (Int.land c 0x3f))) (Int.lor (c >>> 6) 0xc0)

/-- The label `case 3` of the switch in `utf8`, falling through to `case 2`. -/
def utf8Case3 (seq : Option (List (Option Nat))) (c : Int) : Option (List (Option Nat)) :=
  utf8Case2 (storeChar seq 2 (Int.lor 0x80 (Int.land c 0x3f))) (Int.lor (c >>> 6) 0x800)

/-- The label `case 4` of the switch in `utf8`, falling through to `case 3`. -/
def utf8Case4 (seq : Option (List (Option Nat))) (c : Int) : Option (List (Option Nat)) :=
  utf8Case3 (storeChar seq 3 (Int.lor 0x80 (Int.land c 0x3f))) (Int.lor (c >>> 6) 0x10000)

/-- The label `case 5` of the switch in `utf8`, falling through to `case 4`. -/
def utf8Case5 (seq : Option (List (Option Nat))) (c : Int) : Option (List (Option Nat)) :=
  utf8Case4 (storeChar seq 4 (Int.lor 0x80 (Int.land c 0x3f))) (Int.lor (c >>> 6) 0x200000)

/-- The label `case 6` of the switch in `utf8`, falling through to `case 5`. -/
def utf8Case6 (seq : Option (List (Option Nat))) (c : Int) : Option (List (Option Nat)) :=
  utf8Case5 (storeChar seq 5 (Int.lor 0x80 (Int.land c 0x3f))) (Int.lor (c >>> 6) 0x4000000)

/-- The function `utf8`: the buffer it returns, `none` if it wrote outside of it. -/
def utf8 (c : Int) : Option (List (Option Nat)) :=
  let n := utf8Length c
  let seq := storeChar (some (List.replicate 8 none)) n 0
  match n with
  | 6 => utf8Case6 seq c
  | 5 => utf8Case5 seq c
  | 4 => utf8Case4 seq c
  | 3 => utf8Case3 seq c
  | 2 => utf8Case2 seq c
  | 1 => utf8Case1 seq c
  | _ => seq

/-- The bytes of a list of buffer entries, if all of them were written. -/
def writtenBytes : List (Option Nat) → Option (List Nat)
  | [] => some []
  | none :: _ => none
  | some b :: rest => (writtenBytes rest).map (fun bs => b :: bs)

/-- The data bytes of `utf8 (c)`: the entries of the buffer before the terminator
position. -/
def utf8Data (c : Int) : Option (List Nat) :=
  (utf8 c).bind (fun seq => writtenBytes (seq.take (utf8Length c)))

/-- The lead byte of the 1-to-6-byte UTF-8 scheme: the number of continuation bytes that
follow it and the bits it carries. -/
def utf8Lead (b : Nat) : Option (Nat × Nat) :=
  if b < 0x80 then some (0, b)
  else if b < 0xC0 then none
  else if b < 0xE0 then some (1, b - 0xC0)
  else if b < 0xF0 then some (2, b - 0xE0)
  else if b < 0xF8 then some (3, b - 0xF0)
  else if b < 0xFC then some (4, b - 0xF8)
  else if b < 0xFE then some (5, b - 0xFC)
  else none

/-- The continuation bytes `10xxxxxx` of the UTF-8 scheme, each adding 6 bits. -/
def utf8Continue : Nat → List Nat → Option Nat
  | acc, [] => some acc
  | acc, b :: bs =>
    if 0x80 ≤ b ∧ b < 0xC0 then utf8Continue (acc * 64 + (b - 0x80)) bs else none

/-- The least code point that needs `k` continuation bytes. -/
def utf8Least : Nat → Nat
  | 0 => 0
  | 1 => 0x80
  | 2 => 0x800
  | 3 => 0x10000
  | 4 => 0x200000
  | _ => 0x4000000

/-- A decoder for one code point in the original 1-to-6-byte UTF-8 scheme; it is the
reference for the round trip and not part of the sources. It rejects a wrong lead byte,
a wrong number of continuation bytes, a byte that is not a continuation byte and an
encoding that is longer than needed. -/
def utf8Decode : List Nat → Option Nat
  | [] => none
  | b :: bs =>
    match utf8Lead b with
    | none => none
    | some (k, bits) =>
      if bs.length = k then
        (utf8Continue bits bs).bind (fun v => if utf8Least k ≤ v then some v else none)
      else none
/-- The byte `b` is a lead byte for a sequence of `n` bytes: `0xxxxxxx`, `110xxxxx`,
`1110xxxx`, `11110xxx`, `111110xx` or `1111110x`. -/
def IsLeadByte (n b : Nat) : Prop :=
  (n = 1 ∧ b < 0x80) ∨ (n = 2 ∧ 0xC0 ≤ b ∧ b < 0xE0) ∨ (n = 3 ∧ 0xE0 ≤ b ∧ b < 0xF0) ∨
    (n = 4 ∧ 0xF0 ≤ b ∧ b < 0xF8) ∨ (n = 5 ∧ 0xF8 ≤ b ∧ b < 0xFC) ∨
    (n = 6 ∧ 0xFC ≤ b ∧ b < 0xFE)

/-- The buffer holds a sequence of `n` bytes and its terminator: it has 8 entries, entry
0 is a lead byte for `n` bytes, the entries 1 to `n - 1` have the form `10xxxxxx`, entry
`n` is zero and the entries after it were never written. -/
def IsUtf8Buffer (n : Nat) (seq : List (Option Nat)) : Prop :=
  seq.length = 8 ∧
    (∃ b, seq.get? 0 = some (some b) ∧ IsLeadByte n b) ∧
    (∀ i, 0 < i → i < n → ∃ b, seq.get? i = some (some b) ∧ 0x80 ≤ b ∧ b < 0xC0) ∧
    seq.get? n = some (some 0) ∧
    (∀ j, n < j → j < 8 → seq.get? j = some none)

/-! ## Input event dispatch (widget.cpp) -/

/-- The macro `MOUSE_BUTTON_1` of common.h. -/
def MOUSE_BUTTON_1 : Int := 0

/-- The calls that the event handlers of the base class make, in the order in which they
are made: `child->mouseButtonEvent (p, ...)` with the value it returned,
`requestFocus ()` on a widget, and `child->mouseEnterEvent (p, enter)`. -/
inductive Event where
  | dispatch (child : Nat) (p : ivec2) (consumed : Bool)
  | requestFocus (self : Nat)
  | mouseEnter (child : Nat) (p : ivec2) (enter : Bool)
deriving DecidableEq, Repr

/-- The event is a call of `mouseButtonEvent` that returned true. -/
def Event.isConsumed : Event → Bool
  | .dispatch _ _ true => true
  | _ => false

/-- The child of a `mouseButtonEvent` call. -/
def Event.dispatchedChild : Event → Option Nat
  | .dispatch child _ _ => some child
  | _ => none

/-- The code that the event handlers call and that is not part of the sources, or
depends on the dynamic type of a widget: the virtual call
`widget->mouseButtonEvent (p, button, down, modifiers)` on the widget at an address
(for a widget of the base class this is `Widget::mouseButtonEvent`), and
`Screen::updateFocus (widget)` on the screen at an address. A call that does not return
is `none`. -/
structure Virtuals where
  mouseButtonEvent : Nat → Heap → ivec2 → Int → Bool → Int → Option (Heap × Bool)
  updateFocus : Nat → Heap → Nat → Option Heap

/-- The loop `while (widget->parent ()) widget = widget->parent ();` of
`Widget::requestFocus`. -/
def rootLoop : Nat → Heap → Nat → Option Nat
  | 0, _, _ => none
  | fuel + 1, h, widget =>
    match (h widget).mParent with
    | some parent => rootLoop fuel h parent
    | none => some widget

/-- The member `Widget::requestFocus`. -/
def requestFocus (V : Virtuals) (fuel : Nat) (h : Heap) (self : Nat) : Option Heap :=
  (rootLoop fuel h self).bind (fun root => V.updateFocus root h self)

/-- The loop of `Widget::mouseButtonEvent` over the children that are left to try. The
Boolean of the result says whether the loop left the function with `return true`. -/
def buttonLoop (V : Virtuals) (self : Nat) (p : ivec2) (button : Int) (down : Bool)
    (modifiers : Int) : List Nat → Heap → List Event → Option (Heap × List Event × Bool)
  | [], h, log => some (h, log, false)
  | child :: rest, h, log =>
    if hitTest h self p child then
      match V.mouseButtonEvent child h (p - (h self).mPos) button down modifiers with
      | none => none
      | some (h1, true) =>
        some (h1, log ++ [Event.dispatch child (p - (h self).mPos) true], true)
      | some (h1, false) =>
        buttonLoop V self p button down modifiers rest h1
          (log ++ [Event.dispatch child (p - (h self).mPos) false])
    else buttonLoop V self p button down modifiers rest h log

/-- The member `Widget::mouseButtonEvent`: the final heap, the calls made and the
returned value. The fuel is that of `requestFocus`. -/
def mouseButtonEvent (V : Virtuals) (fuel : Nat) (h : Heap) (self : Nat) (p : ivec2)
    (button : Int) (down : Bool) (modifiers : Int) : Option (Heap × List Event × Bool) :=
  match buttonLoop V self p button down modifiers (h self).mChildren.reverse h [] with
  | none => none
  | some (h1, log, true) => some (h1, log, true)
  | some (h1, log, false) =>
    if button = MOUSE_BUTTON_1 ∧ down = true ∧ (h1 self).mFocused = false then
      (requestFocus V fuel h1 self).map (fun h2 => (h2, log ++ [Event.requestFocus self], false))
    else some (h1, log, false)
/-- Virtual calls for `exTree`: widget 2 consumes every button event, the other widgets
do not; `updateFocus` sets the focus flag of the widget. -/
def exVirtuals : Virtuals :=
  { mouseButtonEvent := fun c g _ _ _ _ => some (g, c == 2),
    updateFocus := fun _ g w => some (g.set w { g w with mFocused := true }) }

/-- The member `Widget::mouseEnterEvent` of the base class: the heap after the call and
the returned value. -/
def mouseEnterEvent (h : Heap) (self : Nat) (_p : ivec2) (enter : Bool) : Heap × Bool :=
  (h.set self { h self with mMouseFocus := enter }, false)

/-- The statement `if (contained != prevContained) child->mouseEnterEvent (p, contained);`
of `Widget::mouseMotionEvent` for a child of the base class: the heap and the calls
made after it. -/
def enterStep (h : Heap) (log : List Event) (child : Nat) (p : ivec2)
    (contained prevContained : Bool) : Heap × List Event :=
  if contained != prevContained then
    ((mouseEnterEvent h child p contained).1, log ++ [Event.mouseEnter child p contained])
  else (h, log)

/-- The loop of `Widget::mouseMotionEvent` over the children that are left to visit;
`call` is the call `child->mouseMotionEvent (p - mPos, rel, button, modifiers)`. -/
def motionLoop (call : Heap → List Event → Nat → ivec2 → Option (Heap × List Event × Bool))
    (self : Nat) (p rel : ivec2) :
    List Nat → Heap → List Event → Option (Heap × List Event × Bool)
  | [], h, log => some (h, log, false)
  | child :: rest, h, log =>
    if (h child).mVisible = false then motionLoop call self p rel rest h log
    else
      let contained := (h child).contains (p - (h self).mPos)
      let prevContained := (h child).contains (p - (h self).mPos - rel)
      let s := enterStep h log child p contained prevContained
      if (contained || prevContained) = true then
        match call s.1 s.2 child (p - (s.1 self).mPos) with
        | none => none
        | some (h2, log2, true) => some (h2, log2, true)
        | some (h2, log2, false) => motionLoop call self p rel rest h2 log2
      else motionLoop call self p rel rest s.1 s.2

/-- The member `Widget::mouseMotionEvent` in a tree of widgets of the base class: the
final heap, the calls of `mouseEnterEvent` made (appended to `log`) and the returned
value. -/
def mouseMotionEvent : Nat → Heap → List Event → Nat → ivec2 → ivec2 → Int → Int →
    Option (Heap × List Event × Bool)
  | 0, _, _, _, _, _, _, _ => none
  | fuel + 1, h, log, self, p, rel, button, modifiers =>
    motionLoop (fun g lg child q => mouseMotionEvent fuel g lg child q rel button modifiers)
      self p rel (h self).mChildren.reverse h log

/-- The event is a call `c->mouseEnterEvent (_, enter)`. -/
def Event.isEnter (c : Nat) (enter : Bool) : Event → Bool
  | .mouseEnter child _ e => child == c && e == enter
  | _ => false

/-- The heap `g'` differs from `g` at most in mouse-focus flags. -/
def OnlyMouseFocus (g g' : Heap) : Prop :=
  ∀ x, g' x = { g x with mMouseFocus := (g' x).mMouseFocus }
/-- The effect of event handling that started in the heap `g` with the calls `lg` and
ended in `res`, seen against the tree of `g0`: the returned value is false, only
mouse-focus flags differ from `g0`, the widgets in `keep` are as in `g`, and the calls
added are calls of `mouseEnterEvent` on widgets in `touched`. -/
def MotionEffect (g0 : Heap) (keep touched : Nat → Prop) (g : Heap) (lg : List Event)
    (res : Heap × List Event × Bool) : Prop :=
  res.2.2 = false ∧ OnlyMouseFocus g0 res.1 ∧ (∀ x, keep x → res.1 x = g x) ∧
    ∃ new, res.2.1 = lg ++ new ∧ ∀ e ∈ new, ∃ x q f, e = Event.mouseEnter x q f ∧ touched x

/-! ## Font size and theme (widget.h, widget.cpp) -/

/-- The member `Widget::setFontSize`. -/
def setFontSize (h : Heap) (self : Nat) (fontSize : Int) : Heap :=
  h.set self { h self with mFontSize := fontSize }

/-- The member `Widget::fontSize`. The class `Theme` (theme.h) is not part of the
sources: `standardFontSize t` is the member `mStandardFontSize` of the theme object at
address `t`. Without a theme, `mTheme->` dereferences a null reference, which is
undefined behaviour (`none`). -/
def fontSize (standardFontSize : Nat → Int) (h : Heap) (self : Nat) : Option Int :=
  if (h self).mFontSize < 0 then (h self).mTheme.map standardFontSize
  else some (h self).mFontSize

/-- A heap in which widget 1 has the theme object 7. -/
def exThemed : Heap := fun a =>
  match a with
  | 1 => { Widget.initial with mTheme := some 7 }
  | _ => Widget.initial

/-- Themes with the standard font size 16. -/
def exStandardFontSize (_ : Nat) : Int := 16

/-! ## Calls on one parent -/

/-- The calls of the tree composition members on one parent `P`: `P->addChild (w)`,
`P->removeChild (w)` and `P->removeChild (index)`. -/
inductive ChildCall where
  | add (w : Nat)
  | remove (w : Nat)
  | removeAt (index : Int)
deriving DecidableEq, Repr

/-- One call on the parent `P`; `none` is the undefined behaviour of `removeChild (int)`
with an index out of range. -/
def applyCall (P : Nat) (h : Heap) : ChildCall → Option Heap
  | .add w => some (addChild h P w)
  | .remove w => some (removeChild h P w)
  | .removeAt index => removeChildAt h P index

/-- A sequence of calls on the parent `P`, from the left. -/
def applyCalls (P : Nat) : Heap → List ChildCall → Option Heap
  | h, [] => some h
  | h, c :: cs => (applyCall P h c).bind (fun g => applyCalls P g cs)

/-- Every `removeChild (w)` call of the sequence is made when `w` occurs exactly once
among the children of `P`. -/
def removesListedOnce (P : Nat) : Heap → List ChildCall → Bool
  | _, [] => true
  | h, c :: cs =>
    (match c with
      | .remove w => decide ((h P).mChildren.count w = 1)
      | _ => true) &&
    (match applyCall P h c with
      | some g => removesListedOnce P g cs
      | none => true)

/-- The number of references that the calls leading from the heap `h` to the heap `g`
have taken on the widget `w`: the increments minus the decrements of its count. -/
def netReferences (h g : Heap) (w : Nat) : Int := (g w).refCount - (h w).refCount

/-- The number of occurrences of `w` among the children of `P`. -/
def occurrences (h : Heap) (P w : Nat) : Int := ((h P).mChildren.count w : Int)

/-- Calls on a parent without children: widgets 1, 2 and 1 again are added, the first
entry is removed by index, widgets 2 and 1 are removed by value and widget 3 is added. -/
def exCalls : List ChildCall :=
  [.add 1, .add 2, .add 1, .removeAt 0, .remove 2, .remove 1, .add 3]

/-! ## Trees without layouts -/

/-- No widget has a `Layout` assigned. -/
def NoLayouts (h : Heap) : Prop := ∀ x, (h x).mLayout = none

/-- The widget after the loop body of `Widget::performLayout` ran for it as a child
without layout: its size is, on each axis, the fixed size if that is nonzero and its
previous size otherwise. -/
def Widget.laidOut (w : Widget) : Widget := { w with mSize := layoutSize w.mFixedSize w.mSize }

/-- The heap `g` differs from the heap `h` at most in the sizes of the widgets. -/
def OnlySizes (h g : Heap) : Prop := ∀ x, g x = { h x with mSize := (g x).mSize }

/-- What a run of `performLayout` on `v` makes of the heap `h` when there are no
layouts: the widgets strictly below `v` are laid out, the others are as before. -/
def LaidOutBelow (h : Heap) (v : Nat) (g : Heap) : Prop :=
  ∀ x, (StrictlyBelow h v x → g x = (h x).laidOut) ∧ (¬ StrictlyBelow h v x → g x = h x)

/-- The tree `exTree` with the fixed size (30,0) for widget 1 and (0,7) for widget 3. -/
def exFixed : Heap := fun a =>
  match a with
  | 1 => { exTree 1 with mFixedSize := ⟨30, 0⟩ }
  | 3 => { exTree 3 with mFixedSize := ⟨0, 7⟩ }
  | a => exTree a

/-! ## Draw traversal (widget.cpp) -/

/-- The record of one call `child->draw (ctx)`: the widget whose `draw` makes the call,
the widget drawn, and the translation offset of the context at the call. -/
structure DrawCall where
  caller : Nat
  widget : Nat
  tx : Int
  ty : Int
deriving DecidableEq, Repr

/-- Modelled from the spec: the rendering context `NVGcontext` (nanovg.h) is not part
of the sources. The spec gives it a coordinate origin that is translated; the context is
its current translation offset, kept as exact integers, and the record of the draw
calls made on it. -/
structure NVGcontext where
  tx : Int
  ty : Int
  calls : List DrawCall
deriving DecidableEq, Repr

/-- Modelled from the spec: `nvgTranslate` (nanovg.h) is not part of the sources. The
spec has it translate the coordinate origin of the context by the offset given. -/
def nvgTranslate (ctx : NVGcontext) (x y : Int) : NVGcontext :=
  { ctx with tx := ctx.tx + x, ty := ctx.ty + y }

/-- The member `Widget::draw` for a tree of default widgets, in which the virtual call
`child->draw (ctx)` runs `Widget::draw`; the call is recorded in the context. The
block under `NANOGUI_SHOW_WIDGET_BOUNDS` is not compiled (common.h leaves the macro
undefined). The arguments `-mPos.x` and `-mPos.y` are negated as `int`. -/
def draw : Nat → Heap → Nat → NVGcontext → Option NVGcontext
  | 0, _, _, _ => none
  | fuel + 1, h, self, ctx =>
    if (h self).mChildren.isEmpty then some ctx
    else
      let ctx1 := nvgTranslate ctx (h self).mPos.x (h self).mPos.y
      let ctx2 := (h self).mChildren.foldlM
        (fun c child =>
          if (h child).mVisible then
            draw fuel h child { c with calls := c.calls ++ [⟨self, child, c.tx, c.ty⟩] }
          else some c)
        ctx1
      ctx2.map (fun c =>
        nvgTranslate c (wrapInt32 (-(h self).mPos.x)) (wrapInt32 (-(h self).mPos.y)))

/-- The body of the loop of `Widget::draw` for `child`, run with the fuel of the
recursive call. -/
def drawChild (fuel : Nat) (h : Heap) (self : Nat) (c : NVGcontext) (child : Nat) :
    Option NVGcontext :=
  if (h child).mVisible then
    draw fuel h child { c with calls := c.calls ++ [⟨self, child, c.tx, c.ty⟩] }
  else some c

/-- The negations `-mPos.x` and `-mPos.y` in `draw` do not overflow for the widget. -/
def NegatablePos (w : Widget) : Prop := InInt32 (-w.mPos.x) ∧ InInt32 (-w.mPos.y)

instance (w : Widget) : Decidable (NegatablePos w) := by
  unfold NegatablePos; infer_instance

/-- The draw call `e` was made in the traversal below `W`: its caller is in the
subtree of `W`, and a path leads from `W` down to the widget drawn on which every
widget after `W` is visible. -/
def DrawnBelow (h : Heap) (W : Nat) (e : DrawCall) : Prop :=
  InSubtree h W e.caller ∧
    ∃ below, IsChildPath h (W :: below) ∧ (W :: below).getLast? = some e.widget ∧
      ∀ a ∈ below, (h a).mVisible = true

/-- The tree `exTree` with its root at position (3,4) and a visible child 4 of widget
1, at position (1,1). -/
def exMoved : Heap := fun a =>
  match a with
  | 0 => { exTree 0 with mPos := ⟨3, 4⟩ }
  | 1 => { exTree 1 with mChildren := [4] }
  | 4 => { Widget.initial with refCount := 1, mParent := some 1, mPos := ⟨1, 1⟩,
                               mSize := ⟨5, 5⟩ }
  | a => exTree a

/-- A rank for `exMoved`. -/
def exMovedRank (a : Nat) : Nat := if a = 0 then 2 else if a = 1 ∨ a = 2 then 1 else 0

/-- What a run of `draw` on `W` makes of the context `ctx`: the translation offset is
as before, and the draw calls `new` were recorded, of which those made by `W` itself
are the visible children of `W` in their order, each at the offset of `ctx` plus the
position of `W`. -/
def DrawEffect (h : Heap) (W : Nat) (ctx ctx' : NVGcontext) : Prop :=
  ctx'.tx = ctx.tx ∧ ctx'.ty = ctx.ty ∧
    ∃ new, ctx'.calls = ctx.calls ++ new ∧
      (new.filter (fun e => e.caller == W)).map DrawCall.widget =
        (h W).mChildren.filter (fun d => (h d).mVisible) ∧
      (∀ e ∈ new, e.caller = W →
        e.tx = ctx.tx + (h W).mPos.x ∧ e.ty = ctx.ty + (h W).mPos.y) ∧
      ∀ e ∈ new, DrawnBelow h W e

/-! # Theorems -/

/-! ## Arithmetic of `ivec2` -/

theorem wrapInt32_of_inInt32 (z : Int) (hz : InInt32 z) : wrapInt32 z = z := by
  unfold InInt32 at hz
  unfold wrapInt32
  omega

theorem sub_x (a b : ivec2) : (a - b).x = wrapInt32 (a.x - b.x) := rfl
theorem sub_y (a b : ivec2) : (a - b).y = wrapInt32 (a.y - b.y) := rfl
theorem add_x (a b : ivec2) : (a + b).x = wrapInt32 (a.x + b.x) := rfl
theorem add_y (a b : ivec2) : (a + b).y = wrapInt32 (a.y + b.y) := rfl

theorem ivec2_ext_iff (a b : ivec2) : a = b ↔ a.x = b.x ∧ a.y = b.y := by
  cases a; cases b; simp

theorem ivec2_add_comm (a b : ivec2) : a + b = b + a := by
  rw [ivec2_ext_iff]
  simp only [add_x, add_y, wrapInt32]
  constructor <;> (congr 2; omega)

theorem ivec2_add_right_comm (a b c : ivec2) : a + b + c = a + c + b := by
  rw [ivec2_ext_iff]
  simp only [add_x, add_y, wrapInt32]
  constructor <;> omega

theorem ivec2_sub_sub (p a c : ivec2) : p - a - c = p - (a + c) := by
  rw [ivec2_ext_iff]
  simp only [add_x, add_y, sub_x, sub_y, wrapInt32]
  constructor <;> omega

/-! ## Heap updates -/

@[simp] theorem heap_set_same (h : Heap) (a : Nat) (w : Widget) : h.set a w a = w := by
  simp [Heap.set]

@[simp] theorem heap_set_other (h : Heap) (a b : Nat) (w : Widget) (hb : b ≠ a) :
    h.set a w b = h b := by
  simp [Heap.set, hb]

/-! ## The concrete tree -/

theorem exTree_childrenHaveParent : ChildrenHaveParent exTree := by
  intro P c hc
  match P with
  | 0 =>
    simp [exTree] at hc
    rcases hc with rfl | rfl <;> rfl
  | 1 => simp [exTree, Widget.initial] at hc
  | 2 =>
    simp [exTree] at hc
    subst hc; rfl
  | 3 => simp [exTree, Widget.initial] at hc
  | n + 4 => simp [exTree, Widget.initial] at hc

theorem exTree_wellRanked : WellRanked exTree exRank := by
  intro P c hc
  match P with
  | 0 =>
    simp [exTree] at hc
    rcases hc with rfl | rfl <;> decide
  | 1 => simp [exTree, Widget.initial] at hc
  | 2 =>
    simp [exTree] at hc
    subst hc; decide
  | 3 => simp [exTree, Widget.initial] at hc
  | n + 4 => simp [exTree, Widget.initial] at hc

/-! ## `addChild` (C1) -/

theorem addChild_children (h : Heap) (P w : Nat) :
    (addChild h P w P).mChildren = (h P).mChildren ++ [w] := by
  by_cases hw : w = P
  · subst hw; simp [addChild, incRef, setParent]
  · have hP : P ≠ w := fun e => hw e.symm
    simp [addChild, incRef, setParent, hP]

theorem addChild_parent (h : Heap) (P w : Nat) : (addChild h P w w).mParent = some P := by
  simp [addChild, setParent]

theorem addChild_other (h : Heap) (P w c : Nat) (hw : c ≠ w) (hP : c ≠ P) :
    addChild h P w c = h c := by
  simp [addChild, incRef, setParent, hw, hP]

theorem addChild_refCount (h : Heap) (P w : Nat) :
    (addChild h P w w).refCount = (h w).refCount + 1 := by
  by_cases hw : w = P
  · subst hw; simp [addChild, incRef, setParent]
  · simp [addChild, incRef, setParent, hw]

/-- C1. For a widget `w` that is not among the children of `P`, after `P.addChild(w)`
the parent pointer of `w` is `P`, `w` is the last child of `P` and occurs exactly once,
the children of `P` are the previous children in their order followed by `w`, and no
widget other than `P` and `w` has changed. -/
theorem addChild_postcondition (h : Heap) (P w : Nat) (hnew : w ∉ (h P).mChildren) :
    (addChild h P w w).mParent = some P ∧
    (addChild h P w P).mChildren.getLast? = some w ∧
    (addChild h P w P).mChildren.count w = 1 ∧
    (addChild h P w P).mChildren = (h P).mChildren ++ [w] ∧
    (∀ c, c ≠ w → c ≠ P → addChild h P w c = h c) := by
  refine ⟨addChild_parent h P w, ?_, ?_, addChild_children h P w,
    fun c hw hP => addChild_other h P w c hw hP⟩
  · rw [addChild_children]; simp
  · rw [addChild_children, List.count_append, List.count_eq_zero_of_not_mem hnew]; simp

/-- Witness for C1: widget 3 is added to the root of `exTree`. -/
theorem addChild_postcondition_witness :
    3 ∉ (exTree 0).mChildren ∧ (addChild exTree 0 3 3).mParent = some 0 ∧
      (addChild exTree 0 3 0).mChildren = [1, 2, 3] ∧
      (addChild exTree 0 3 0).mChildren.count 3 = 1 :=
  ⟨by decide, (addChild_postcondition exTree 0 3 (by decide)).1,
    (addChild_postcondition exTree 0 3 (by decide)).2.2.2.1,
    (addChild_postcondition exTree 0 3 (by decide)).2.2.1⟩

/-! ## `removeChild` (C2) -/

theorem filter_ne_of_nodup (l : List Nat) (w : Nat) (hnd : l.Nodup) (hw : w ∈ l) :
    ∃ pre post, l = pre ++ w :: post ∧ l.filter (fun c => c != w) = pre ++ post := by
  obtain ⟨s, t, rfl⟩ := List.append_of_mem hw
  refine ⟨s, t, rfl, ?_⟩
  have hs : w ∉ s := fun hm => by
    have := (List.nodup_append.mp hnd).2.2
    exact this hm (List.mem_cons_self _ _)
  have ht : w ∉ t := by
    have := (List.nodup_append.mp hnd).2.1
    exact (List.nodup_cons.mp this).1
  have e1 : s.filter (fun c => c != w) = s :=
    List.filter_eq_self.mpr (fun a ha => by
      have : a ≠ w := fun e => hs (e ▸ ha)
      simpa using this)
  have e2 : t.filter (fun c => c != w) = t :=
    List.filter_eq_self.mpr (fun a ha => by
      have : a ≠ w := fun e => ht (e ▸ ha)
      simpa using this)
  simp [List.filter_append, List.filter_cons, e1, e2]

theorem eraseIdx_split (l : List Nat) (i : Nat) (w : Nat) (hi : l.get? i = some w) :
    ∃ pre post, l = pre ++ w :: post ∧ l.eraseIdx i = pre ++ post ∧ pre.length = i := by
  induction l generalizing i with
  | nil => simp at hi
  | cons a l ih =>
    cases i with
    | zero =>
      simp at hi
      subst hi
      exact ⟨[], l, rfl, rfl, rfl⟩
    | succ i =>
      simp at hi
      obtain ⟨pre, post, h1, h2, h3⟩ := ih i (by simpa using hi)
      exact ⟨a :: pre, post, by simp [h1], by simp [h2], by simp [h3]⟩

theorem removeChild_children (h : Heap) (P w : Nat) :
    (removeChild h P w P).mChildren = (h P).mChildren.filter (fun c => c != w) := by
  by_cases hw : w = P
  · subst hw; simp [removeChild, decRef]
  · have hP : P ≠ w := fun e => hw e.symm
    simp [removeChild, decRef, hP]

theorem removeChildAt_eq (h : Heap) (P : Nat) (i : Int) (w : Nat) (h0 : 0 ≤ i)
    (h1 : i < childCount h P) (hi : (h P).mChildren.get? i.toNat = some w) :
    removeChildAt h P i = some (decRef
      (h.set P { h P with mChildren := (h P).mChildren.eraseIdx i.toNat }) w) := by
  unfold removeChildAt
  rw [if_pos ⟨h0, h1⟩, hi]

theorem decRef_children (h : Heap) (a b : Nat) : (decRef h a b).mChildren = (h b).mChildren := by
  by_cases hb : b = a
  · subst hb; simp [decRef]
  · simp [decRef, hb]

theorem removedFrom_of_split (w : Nat) (old new pre post : List Nat) (hnd : old.Nodup)
    (h1 : old = pre ++ w :: post) (h2 : new = pre ++ post) : RemovedFrom w old new := by
  subst h1 h2
  refine ⟨?_, ?_, pre, post, rfl, rfl⟩
  · intro hm
    have hd := List.nodup_append.mp hnd
    rcases List.mem_append.mp hm with hm | hm
    · exact hd.2.2 hm (List.mem_cons_self _ _)
    · exact (List.nodup_cons.mp hd.2.1).1 hm
  · simp only [List.length_append, List.length_cons]
    push_cast
    omega

/-- C2. For a parent `P` whose children have no duplicates and a child `w` of it: after
`removeChild(w)` by value, and after `removeChild(i)` for every index `i` in range with
`children[i] = w` (which then returns), `w` no longer occurs among the children of `P`,
the number of children has dropped by exactly one and the other children are in their
original order. -/
theorem removeChild_postcondition (h : Heap) (P w : Nat) (hnd : (h P).mChildren.Nodup)
    (hw : w ∈ (h P).mChildren) :
    RemovedFrom w (h P).mChildren (removeChild h P w P).mChildren ∧
    (∀ i : Int, 0 ≤ i → i < childCount h P → (h P).mChildren.get? i.toNat = some w →
      ∃ h', removeChildAt h P i = some h' ∧
        RemovedFrom w (h P).mChildren (h' P).mChildren) := by
  constructor
  · obtain ⟨pre, post, h1, h2⟩ := filter_ne_of_nodup _ w hnd hw
    exact removedFrom_of_split w _ _ pre post hnd h1 (by rw [removeChild_children, h2])
  · intro i h0 h1 hi
    refine ⟨_, removeChildAt_eq h P i w h0 h1 hi, ?_⟩
    obtain ⟨pre, post, e1, e2, _⟩ := eraseIdx_split _ _ w hi
    refine removedFrom_of_split w _ _ pre post hnd e1 ?_
    rw [decRef_children]
    simp [e2]

/-- Witness for C2: child 1 of the root of `exTree` is removed by value and by index. -/
theorem removeChild_postcondition_witness :
    (exTree 0).mChildren.Nodup ∧ 1 ∈ (exTree 0).mChildren ∧
      RemovedFrom 1 (exTree 0).mChildren (removeChild exTree 0 1 0).mChildren ∧
      ∃ h', removeChildAt exTree 0 0 = some h' ∧
        RemovedFrom 1 (exTree 0).mChildren (h' 0).mChildren :=
  ⟨by decide, by decide, (removeChild_postcondition exTree 0 1 (by decide) (by decide)).1,
    (removeChild_postcondition exTree 0 1 (by decide) (by decide)).2 0 (by decide) (by decide)
      (by decide)⟩

/-! ## Fields after the tree operations -/

theorem addChild_children_at (h : Heap) (P w x : Nat) :
    (addChild h P w x).mChildren =
      if x = P then (h P).mChildren ++ [w] else (h x).mChildren := by
  by_cases hx : x = P
  · subst hx; rw [if_pos rfl]; exact addChild_children h x w
  · rw [if_neg hx]
    by_cases hw : x = w
    · subst hw; simp [addChild, incRef, setParent, hx]
    · simp [addChild, incRef, setParent, hx, hw]

theorem addChild_parent_at (h : Heap) (P w x : Nat) :
    (addChild h P w x).mParent = if x = w then some P else (h x).mParent := by
  by_cases hw : x = w
  · subst hw; rw [if_pos rfl]; exact addChild_parent h P x
  · rw [if_neg hw]
    by_cases hx : x = P
    · subst hx; simp [addChild, incRef, setParent, hw]
    · simp [addChild, incRef, setParent, hx, hw]

theorem decRef_parent (h : Heap) (a b : Nat) : (decRef h a b).mParent = (h b).mParent := by
  by_cases hb : b = a
  · subst hb; simp [decRef]
  · simp [decRef, hb]

theorem removeChild_children_at (h : Heap) (P w x : Nat) :
    (removeChild h P w x).mChildren =
      if x = P then (h P).mChildren.filter (fun c => c != w) else (h x).mChildren := by
  by_cases hx : x = P
  · subst hx; rw [if_pos rfl]; exact removeChild_children h x w
  · rw [if_neg hx]
    simp [removeChild, decRef_children, hx]

theorem removeChild_parent_at (h : Heap) (P w x : Nat) :
    (removeChild h P w x).mParent = (h x).mParent := by
  unfold removeChild
  rw [decRef_parent]
  by_cases hx : x = P
  · subst hx; simp
  · simp [hx]

theorem removeChildAt_fields (h : Heap) (P : Nat) (i : Int) (h' : Heap)
    (hr : removeChildAt h P i = some h') (x : Nat) :
    (h' x).mParent = (h x).mParent ∧
      (h' x).mChildren =
        if x = P then (h P).mChildren.eraseIdx i.toNat else (h x).mChildren := by
  unfold removeChildAt at hr
  split at hr
  · split at hr
    · rename_i widget _
      simp only [Option.some.injEq] at hr
      subst hr
      rw [decRef_parent, decRef_children]
      by_cases hx : x = P
      · subst hx; simp
      · simp [hx]
    · cases hr
  · cases hr

theorem ctor_none_at (h : Heap) (n x : Nat) :
    Widget.ctor h n none x = if x = n then Widget.initial else h x := by
  simp [Widget.ctor, Heap.set]

theorem ctor_some_children_at (h : Heap) (n p x : Nat) (hp : p ≠ n) :
    (Widget.ctor h n (some p) x).mChildren =
      if x = n then [] else if x = p then (h p).mChildren ++ [n] else (h x).mChildren := by
  have hn : n ≠ p := fun e => hp e.symm
  by_cases hx : x = n
  · subst hx
    simp [Widget.ctor, addChild_children_at, hn, Widget.initial]
  · by_cases hxp : x = p
    · subst hxp
      simp [Widget.ctor, addChild_children_at, hx]
    · simp [Widget.ctor, addChild_children_at, hx, hxp]

theorem ctor_some_parent_at (h : Heap) (n p x : Nat) :
    (Widget.ctor h n (some p) x).mParent = if x = n then some p else (h x).mParent := by
  by_cases hx : x = n
  · subst hx
    simp [Widget.ctor, addChild_parent_at]
  · simp [Widget.ctor, addChild_parent_at, hx]

theorem mem_eraseIdx_of_ne (l : List Nat) (i : Nat) (a b : Nat) (ha : a ∈ l)
    (hi : l.get? i = some b) (hab : a ≠ b) : a ∈ l.eraseIdx i := by
  obtain ⟨pre, post, h1, h2, _⟩ := eraseIdx_split l i b hi
  rw [h2]
  rw [h1] at ha
  rcases List.mem_append.mp ha with ha | ha
  · exact List.mem_append_left _ ha
  · rcases List.mem_cons.mp ha with ha | ha
    · exact absurd ha hab
    · exact List.mem_append_right _ ha

theorem removeChildAt_get (h : Heap) (P : Nat) (i : Int) (g : Heap)
    (hr : removeChildAt h P i = some g) : ∃ b, (h P).mChildren.get? i.toNat = some b := by
  unfold removeChildAt at hr
  split at hr
  · split at hr
    · rename_i widget hget
      exact ⟨widget, hget⟩
    · cases hr
  · cases hr

/-! ## `contains` (C4) -/

theorem contains_eq_true (w : Widget) (p : ivec2) :
    w.contains p = true ↔
      (0 ≤ (p - w.mPos).x ∧ 0 ≤ (p - w.mPos).y) ∧
        ((p - w.mPos).x < w.mSize.x ∧ (p - w.mPos).y < w.mSize.y) := by
  simp [Widget.contains]

/-- C4. When `p - position` does not overflow, `contains(p)` holds exactly if
`px <= x < px + sx` and `py <= y < py + sy`; a widget at (0,0) of size (10,10) contains
(0,0) and (9,9) but not (10,10); a widget with a zero or negative size component
contains no point. -/
theorem contains_half_open (w : Widget) (p : ivec2) :
    (InInt32 (p.x - w.mPos.x) → InInt32 (p.y - w.mPos.y) →
      (w.contains p = true ↔
        (w.mPos.x ≤ p.x ∧ p.x < w.mPos.x + w.mSize.x) ∧
        (w.mPos.y ≤ p.y ∧ p.y < w.mPos.y + w.mSize.y))) ∧
    (w.mPos = ⟨0, 0⟩ → w.mSize = ⟨10, 10⟩ →
      w.contains ⟨0, 0⟩ = true ∧ w.contains ⟨9, 9⟩ = true ∧ w.contains ⟨10, 10⟩ = false) ∧
    ((w.mSize.x ≤ 0 ∨ w.mSize.y ≤ 0) → w.contains p = false) := by
  refine ⟨?_, ?_, ?_⟩
  · intro hx hy
    rw [contains_eq_true, sub_x, sub_y, wrapInt32_of_inInt32 _ hx, wrapInt32_of_inInt32 _ hy]
    constructor
    · rintro ⟨⟨h1, h2⟩, h3, h4⟩
      exact ⟨⟨by omega, by omega⟩, by omega, by omega⟩
    · rintro ⟨⟨h1, h2⟩, h3, h4⟩
      exact ⟨⟨by omega, by omega⟩, by omega, by omega⟩
  · intro hp hs
    simp only [Widget.contains, hp, hs, sub_x, sub_y]
    decide
  · intro hs
    cases hc : w.contains p with
    | false => rfl
    | true =>
      rw [contains_eq_true] at hc
      omega

/-- Witness for C4: widget 1 of `exTree`, at (10,10) with size (50,50), and the corner
point (59,59). -/
theorem contains_half_open_witness :
    InInt32 (59 - (exTree 1).mPos.x) ∧ InInt32 (59 - (exTree 1).mPos.y) ∧
      ((exTree 1).contains ⟨59, 59⟩ = true ↔
        ((exTree 1).mPos.x ≤ 59 ∧ 59 < (exTree 1).mPos.x + (exTree 1).mSize.x) ∧
        ((exTree 1).mPos.y ≤ 59 ∧ 59 < (exTree 1).mPos.y + (exTree 1).mSize.y)) :=
  ⟨by decide, by decide,
    (contains_half_open (exTree 1) ⟨59, 59⟩).1 (by decide) (by decide)⟩

/-! ## `findWidget` (C5, C6, C7) -/

theorem find?_reverse_eq_getLast?_filter (q : Nat → Bool) (l : List Nat) :
    l.reverse.find? q = (l.filter q).getLast? := by
  induction l using List.reverseRecOn with
  | nil => rfl
  | append_singleton l a ih =>
    have e1 : (l ++ [a]).reverse = a :: l.reverse := by simp
    rw [e1, List.filter_append]
    cases hq : q a with
    | true =>
      have e2 : List.filter q [a] = [a] := by simp [hq]
      rw [List.find?_cons_of_pos _ hq, e2, List.getLast?_concat]
    | false =>
      have e2 : List.filter q [a] = [] := by simp [hq]
      rw [List.find?_cons_of_neg _ (by simp [hq]), e2, List.append_nil, ih]

theorem find?_hit_eq_lastHit (h : Heap) (W : Nat) (p : ivec2) :
    (h W).mChildren.reverse.find? (hitTest h W p) = lastHit h W p :=
  find?_reverse_eq_getLast?_filter _ _

theorem lastHit_mem (h : Heap) (W : Nat) (p : ivec2) (c : Nat) (hc : lastHit h W p = some c) :
    c ∈ (h W).mChildren ∧ hitTest h W p c = true := by
  unfold lastHit at hc
  have := List.mem_of_getLast?_eq_some hc
  simpa [List.mem_filter] using this

theorem lastHit_eq_none (h : Heap) (W : Nat) (p : ivec2) :
    lastHit h W p = none ↔ ∀ c ∈ (h W).mChildren, hitTest h W p c = false := by
  unfold lastHit
  rw [List.getLast?_eq_none_iff, List.filter_eq_nil_iff]
  simp

theorem findWidget_succ (fuel : Nat) (h : Heap) (W : Nat) (p : ivec2) :
    findWidget (fuel + 1) h W p =
      match lastHit h W p with
      | some child => findWidget fuel h child (p - (h W).mPos)
      | none => some (if (h W).contains p then some W else none) := by
  rw [← find?_hit_eq_lastHit]; rfl

theorem findWidget_mono (h : Heap) : ∀ (n : Nat) (W : Nat) (p : ivec2) (r : Option Nat),
    findWidget n h W p = some r → ∀ m, n ≤ m → findWidget m h W p = some r := by
  intro n
  induction n with
  | zero => intro W p r hr; simp [findWidget] at hr
  | succ n ih =>
    intro W p r hr m hm
    obtain ⟨m, rfl⟩ : ∃ k, m = k + 1 := ⟨m - 1, by omega⟩
    rw [findWidget_succ] at hr ⊢
    cases hl : lastHit h W p with
    | none => simpa [hl] using hr
    | some c =>
      simp only [hl] at hr ⊢
      exact ih c _ r hr m (by omega)

theorem findWidget_terminates (h : Heap) (rank : Nat → Nat) (hr : WellRanked h rank) :
    ∀ (n : Nat) (W : Nat) (p : ivec2), rank W < n → ∃ r, findWidget n h W p = some r := by
  intro n
  induction n with
  | zero => intro W p hW; omega
  | succ n ih =>
    intro W p hW
    rw [findWidget_succ]
    cases hl : lastHit h W p with
    | none => exact ⟨_, rfl⟩
    | some c =>
      have := hr W c (lastHit_mem h W p c hl).1
      exact ih c _ (by omega)

theorem findWidget_result (h : Heap) (rank : Nat → Nat) (hr : WellRanked h rank) (W : Nat)
    (p : ivec2) : ∃ r, ∀ fuel, rank W < fuel → findWidget fuel h W p = some r := by
  obtain ⟨r, hres⟩ := findWidget_terminates h rank hr (rank W + 1) W p (by omega)
  exact ⟨r, fun fuel hf => findWidget_mono h _ W p r hres fuel (by omega)⟩

theorem findWidget_ne_null (h : Heap) : ∀ (n : Nat) (W : Nat) (p : ivec2) (r : Option Nat),
    findWidget n h W p = some r → (h W).contains p = true → ∃ w, r = some w := by
  intro n
  induction n with
  | zero => intro W p r hr; simp [findWidget] at hr
  | succ n ih =>
    intro W p r hr hc
    rw [findWidget_succ] at hr
    cases hl : lastHit h W p with
    | none =>
      simp only [hl, hc, if_true, Option.some.injEq] at hr
      exact ⟨W, hr.symm⟩
    | some c =>
      simp only [hl] at hr
      have hhit := (lastHit_mem h W p c hl).2
      simp only [hitTest, Bool.and_eq_true] at hhit
      exact ih c _ r hr hhit.2

/-- C5. If some visible child of `W` contains `p - W.position` and `c` is the last such
child in insertion order, then `W.findWidget(p)` is `c.findWidget(p - W.position)`: the
two calls agree for every fuel, and in a tree of finite depth both return the same
result; if `c` is a leaf the result is `c`. In particular, of two visible leaf siblings
that both contain the translated point the one added later is returned. -/
theorem findWidget_topmost (h : Heap) (W : Nat) (p : ivec2) :
    (∀ c, lastHit h W p = some c →
      (∀ fuel, findWidget (fuel + 1) h W p = findWidget fuel h c (p - (h W).mPos)) ∧
      (∀ rank, WellRanked h rank → ∃ r,
        (∀ fuel, rank W < fuel → findWidget fuel h W p = some r) ∧
        (∀ fuel, rank c < fuel → findWidget fuel h c (p - (h W).mPos) = some r)) ∧
      ((h c).mChildren = [] → ∀ fuel, findWidget (fuel + 2) h W p = some (some c))) ∧
    (∀ a b, (h W).mChildren = [a, b] → hitTest h W p a = true → hitTest h W p b = true →
      (h b).mChildren = [] → ∀ fuel, findWidget (fuel + 2) h W p = some (some b)) := by
  have key : ∀ c, lastHit h W p = some c →
      (∀ fuel, findWidget (fuel + 1) h W p = findWidget fuel h c (p - (h W).mPos)) ∧
      ((h c).mChildren = [] → ∀ fuel, findWidget (fuel + 2) h W p = some (some c)) := by
    intro c hc
    have hstep : ∀ fuel,
        findWidget (fuel + 1) h W p = findWidget fuel h c (p - (h W).mPos) := by
      intro fuel; rw [findWidget_succ, hc]
    refine ⟨hstep, ?_⟩
    intro hleaf fuel
    rw [hstep, findWidget_succ]
    have hnone : lastHit h c (p - (h W).mPos) = none := by
      rw [lastHit_eq_none, hleaf]; simp
    have hhit := (lastHit_mem h W p c hc).2
    simp only [hitTest, Bool.and_eq_true] at hhit
    simp [hnone, hhit.2]
  constructor
  · intro c hc
    refine ⟨(key c hc).1, ?_, (key c hc).2⟩
    intro rank hr
    obtain ⟨r, hres⟩ := findWidget_result h rank hr c (p - (h W).mPos)
    refine ⟨r, ?_, hres⟩
    intro fuel hf
    have hlt := hr W c (lastHit_mem h W p c hc).1
    obtain ⟨k, rfl⟩ : ∃ k, fuel = k + 1 := ⟨fuel - 1, by omega⟩
    rw [(key c hc).1]
    exact hres k (by omega)
  · intro a b hch ha hb hleaf
    have hl : lastHit h W p = some b := by
      simp [lastHit, hch, List.filter, ha, hb]
    exact (key b hl).2 hleaf

/-- Witness for C5: the point (26,26) lies in both children of the root of `exTree`; the
later child, widget 2, is the one searched. -/
theorem findWidget_topmost_witness :
    lastHit exTree 0 ⟨26, 26⟩ = some 2 ∧
      (∀ fuel, findWidget (fuel + 1) exTree 0 ⟨26, 26⟩ =
        findWidget fuel exTree 2 (⟨26, 26⟩ - (exTree 0).mPos)) :=
  ⟨by decide, ((findWidget_topmost exTree 0 ⟨26, 26⟩).1 2 (by decide)).1⟩

theorem absolutePosition_mono (h : Heap) : ∀ (n : Nat) (w : Nat) (a : ivec2),
    absolutePosition n h w = some a → ∀ m, n ≤ m → absolutePosition m h w = some a := by
  intro n
  induction n with
  | zero => intro w a ha; simp [absolutePosition] at ha
  | succ n ih =>
    intro w a ha m hm
    obtain ⟨m, rfl⟩ : ∃ k, m = k + 1 := ⟨m - 1, by omega⟩
    simp only [absolutePosition] at ha ⊢
    cases hp : (h w).mParent with
    | none => simpa [hp] using ha
    | some P =>
      simp only [hp, Option.map_eq_some'] at ha ⊢
      obtain ⟨b, hb, hba⟩ := ha
      exact ⟨b, ih P b hb m (by omega), hba⟩

theorem inSubtree_of_child (h : Heap) (W c w : Nat) (hc : c ∈ (h W).mChildren)
    (hw : InSubtree h c w) : InSubtree h W w := by
  induction hw with
  | root => exact InSubtree.child W c InSubtree.root hc
  | child P d _ hd ih => exact InSubtree.child P d ih hd

theorem findWidget_inRect_aux (h : Heap) (hwf : ChildrenHaveParent h) :
    ∀ (n : Nat) (W : Nat) (q : ivec2) (w : Nat), findWidget n h W q = some (some w) →
      ∀ (m : Nat) (aW p : ivec2), absolutePosition m h W = some aW →
        q - (h W).mPos = p - aW →
        InSubtree h W w ∧ ∃ a, absolutePosition (m + n) h w = some a ∧
          ((0 ≤ (p - a).x ∧ (p - a).x < (h w).mSize.x) ∧
            (0 ≤ (p - a).y ∧ (p - a).y < (h w).mSize.y)) := by
  intro n
  induction n with
  | zero => intro W q w hr; simp [findWidget] at hr
  | succ n ih =>
    intro W q w hr m aW p ha hq
    rw [findWidget_succ] at hr
    cases hl : lastHit h W q with
    | none =>
      simp only [hl, Option.some.injEq] at hr
      cases hcont : (h W).contains q with
      | false => simp [hcont] at hr
      | true =>
        simp only [hcont, if_true, Option.some.injEq] at hr
        subst hr
        refine ⟨InSubtree.root, aW, absolutePosition_mono h m W aW ha _ (by omega), ?_⟩
        rw [contains_eq_true, hq] at hcont
        exact ⟨⟨hcont.1.1, hcont.2.1⟩, hcont.1.2, hcont.2.2⟩
    | some c =>
      simp only [hl] at hr
      have hmem := (lastHit_mem h W q c hl).1
      have hpar := hwf W c hmem
      have hac : absolutePosition (m + 1) h c = some (aW + (h c).mPos) := by
        simp [absolutePosition, hpar, ha]
      have hq2 : q - (h W).mPos - (h c).mPos = p - (aW + (h c).mPos) := by
        rw [hq, ivec2_sub_sub]
      obtain ⟨hsub, a, h1, h2⟩ := ih c _ w hr (m + 1) _ p hac hq2
      refine ⟨inSubtree_of_child h W c w hmem hsub, a, ?_, h2⟩
      rw [← h1]; congr 1; omega

/-- C6. In a heap whose children all point back to their parent, for a root `R` without
parent: if `R.findWidget(p)` returns a widget `w`, then `w` is in the subtree of `R`,
`absolutePosition(w)` has a value `a`, and `p` lies in the rectangle of `w` at `a`:
`0 <= p - a < size(w)` in the arithmetic of `ivec2`, which is
`a <= p < a + size(w)` when `p - a` does not overflow. -/
theorem findWidget_absolute (h : Heap) (R : Nat) (p : ivec2) (fuel : Nat) (w : Nat)
    (hwf : ChildrenHaveParent h) (hroot : (h R).mParent = none)
    (hfind : findWidget fuel h R p = some (some w)) :
    InSubtree h R w ∧
    ∃ a, (∀ n, fuel < n → absolutePosition n h w = some a) ∧
      ((0 ≤ (p - a).x ∧ (p - a).x < (h w).mSize.x) ∧
        (0 ≤ (p - a).y ∧ (p - a).y < (h w).mSize.y)) ∧
      (InInt32 (p.x - a.x) → InInt32 (p.y - a.y) →
        (a.x ≤ p.x ∧ p.x < a.x + (h w).mSize.x) ∧ (a.y ≤ p.y ∧ p.y < a.y + (h w).mSize.y)) := by
  have hR : absolutePosition 1 h R = some (h R).mPos := by simp [absolutePosition, hroot]
  obtain ⟨hsub, a, ha, hin⟩ :=
    findWidget_inRect_aux h hwf fuel R p w hfind 1 (h R).mPos p hR rfl
  refine ⟨hsub, a, ?_, hin, ?_⟩
  · intro n hn
    exact absolutePosition_mono h _ w a ha n (by omega)
  · intro hx hy
    rw [sub_x, sub_y, wrapInt32_of_inInt32 _ hx, wrapInt32_of_inInt32 _ hy] at hin
    obtain ⟨⟨h1, h2⟩, h3, h4⟩ := hin
    exact ⟨⟨by omega, by omega⟩, by omega, by omega⟩

/-- Witness for C6: the point (26,26) in `exTree` is found in widget 2, whose absolute
rectangle starts at (20,20). -/
theorem findWidget_absolute_witness :
    ChildrenHaveParent exTree ∧ (exTree 0).mParent = none ∧
      findWidget 3 exTree 0 ⟨26, 26⟩ = some (some 2) ∧ InSubtree exTree 0 2 :=
  ⟨exTree_childrenHaveParent, rfl, by decide,
    (findWidget_absolute exTree 0 ⟨26, 26⟩ 3 2 exTree_childrenHaveParent rfl (by decide)).1⟩

/-- C7. Whenever `W.findWidget(p)` returns, the result is the null pointer exactly if `W`
does not contain `p` and no visible child of `W` contains `p - W.position`; and if no
visible child contains `p - W.position` and `W` contains `p`, the result is `W`. In a
tree of finite depth the call returns. -/
theorem findWidget_miss (h : Heap) (W : Nat) (p : ivec2) :
    (∀ fuel r, findWidget fuel h W p = some r →
      (r = none ↔
        ((h W).contains p = false ∧ ∀ c ∈ (h W).mChildren, hitTest h W p c = false)) ∧
      ((∀ c ∈ (h W).mChildren, hitTest h W p c = false) → (h W).contains p = true →
        r = some W)) ∧
    (∀ rank, WellRanked h rank →
      ∃ r, ∀ fuel, rank W < fuel → findWidget fuel h W p = some r) := by
  refine ⟨?_, fun rank hr => findWidget_result h rank hr W p⟩
  intro fuel r h1
  cases fuel with
  | zero => simp [findWidget] at h1
  | succ n =>
    rw [findWidget_succ] at h1
    constructor
    · cases hl : lastHit h W p with
      | none =>
        have hall := (lastHit_eq_none h W p).mp hl
        simp only [hl, Option.some.injEq] at h1
        cases hcont : (h W).contains p with
        | true => simp [hcont] at h1; simp [← h1]
        | false => simp [hcont] at h1; simp [← h1]; exact hall
      | some c =>
        simp only [hl] at h1
        obtain ⟨hmem, hhit⟩ := lastHit_mem h W p c hl
        have hc2 : (h c).contains (p - (h W).mPos) = true := by
          simp only [hitTest, Bool.and_eq_true] at hhit; exact hhit.2
        obtain ⟨w, hw⟩ := findWidget_ne_null h _ c _ r h1 hc2
        constructor
        · intro hn; rw [hn] at hw; cases hw
        · rintro ⟨_, hall⟩
          rw [hall c hmem] at hhit; cases hhit
    · intro hall hcont
      rw [(lastHit_eq_none h W p).mpr hall] at h1
      simpa [hcont] using h1.symm

/-- Witness for C7: the search from the root of `exTree` at the point (200,2), outside
of the root, returns the null pointer; the tree has finite depth. -/
theorem findWidget_miss_witness :
    findWidget 3 exTree 0 ⟨200, 2⟩ = some none ∧
      ((none : Option Nat) = none ↔ ((exTree 0).contains ⟨200, 2⟩ = false ∧
        ∀ c ∈ (exTree 0).mChildren, hitTest exTree 0 ⟨200, 2⟩ c = false)) ∧
      WellRanked exTree exRank ∧
      ∃ r, ∀ fuel, exRank 0 < fuel → findWidget fuel exTree 0 ⟨200, 2⟩ = some r :=
  ⟨by decide, ((findWidget_miss exTree 0 ⟨200, 2⟩).1 3 none (by decide)).1,
    exTree_wellRanked, (findWidget_miss exTree 0 ⟨200, 2⟩).2 exRank exTree_wellRanked⟩

/-! ## `absolutePosition` (C8) -/

theorem foldl_add_right (h : Heap) (l : List Nat) (x y : ivec2) :
    l.foldl (fun acc b => acc + (h b).mPos) (x + y) =
      l.foldl (fun acc b => acc + (h b).mPos) x + y := by
  induction l generalizing x with
  | nil => rfl
  | cons c l ih =>
    simp only [List.foldl_cons]
    rw [ivec2_add_right_comm, ih]

theorem absolutePosition_chain_aux (h : Heap) : ∀ (ancestors : List Nat) (w : Nat),
    IsParentChain h (w :: ancestors) → ∀ fuel, ancestors.length < fuel →
      absolutePosition fuel h w = some (sumPositions h (w :: ancestors)) := by
  intro ancestors
  induction ancestors with
  | nil =>
    intro w hc fuel hf
    obtain ⟨k, rfl⟩ : ∃ k, fuel = k + 1 := ⟨fuel - 1, by omega⟩
    simp only [IsParentChain] at hc
    simp [absolutePosition, hc, sumPositions]
  | cons b rest ih =>
    intro w hc fuel hf
    obtain ⟨k, rfl⟩ : ∃ k, fuel = k + 1 := ⟨fuel - 1, by omega⟩
    simp only [IsParentChain] at hc
    have hb := ih b hc.2 k (by simp at hf; omega)
    simp only [absolutePosition, hc.1, hb, Option.map_some', sumPositions, List.foldl_cons]
    rw [ivec2_add_comm (h w).mPos, foldl_add_right]

/-- C8. For a widget `w` with the parent chain `w, a1, ..., ak` (`ak` has no parent),
`absolutePosition(w)` returns `position(w) + position(a1) + ... + position(ak)`; for a
widget without parent it returns its own position. -/
theorem absolutePosition_sum (h : Heap) (w : Nat) (ancestors : List Nat)
    (hc : IsParentChain h (w :: ancestors)) :
    (∀ fuel, ancestors.length < fuel →
      absolutePosition fuel h w = some (sumPositions h (w :: ancestors))) ∧
    ((h w).mParent = none → ∀ fuel, 0 < fuel → absolutePosition fuel h w = some (h w).mPos) := by
  refine ⟨absolutePosition_chain_aux h ancestors w hc, ?_⟩
  intro hp fuel hf
  obtain ⟨k, rfl⟩ : ∃ k, fuel = k + 1 := ⟨fuel - 1, by omega⟩
  simp [absolutePosition, hp]

/-- Witness for C8: widget 3 of `exTree` has the parent chain 3, 2, 0. -/
theorem absolutePosition_sum_witness :
    IsParentChain exTree [3, 2, 0] ∧
      absolutePosition 3 exTree 3 = some (sumPositions exTree [3, 2, 0]) ∧
      sumPositions exTree [3, 2, 0] = ⟨25, 25⟩ :=
  ⟨⟨rfl, rfl, rfl⟩,
    (absolutePosition_sum exTree 3 [2, 0] ⟨rfl, rfl, rfl⟩).1 3 (by decide), by decide⟩

/-! ## `visibleRecursive` (C9) -/

theorem visibleRecursiveLoop_chain (h : Heap) : ∀ (ancestors : List Nat) (w : Nat) (v : Bool),
    IsParentChain h (w :: ancestors) → ∀ fuel, ancestors.length < fuel →
      visibleRecursiveLoop fuel h v (some w) =
        some (v && (w :: ancestors).all (fun a => (h a).mVisible)) := by
  intro ancestors
  induction ancestors with
  | nil =>
    intro w v hc fuel hf
    obtain ⟨k, rfl⟩ : ∃ k, fuel = k + 1 := ⟨fuel - 1, by omega⟩
    simp only [IsParentChain] at hc
    simp [visibleRecursiveLoop, hc]
  | cons b rest ih =>
    intro w v hc fuel hf
    obtain ⟨k, rfl⟩ : ∃ k, fuel = k + 1 := ⟨fuel - 1, by omega⟩
    simp only [IsParentChain] at hc
    have hb := ih b (v && (h w).mVisible) hc.2 k (by simp at hf; omega)
    simp only [visibleRecursiveLoop, hc.1, hb]
    simp [Bool.and_assoc]

/-- C9. For a widget `w` with the parent chain `w, a1, ..., ak`, `visibleRecursive`
returns, and its value is true exactly if `w` and all of its ancestors have the visible
flag set; one hidden ancestor makes it false whatever the other flags are. -/
theorem visibleRecursive_chain (h : Heap) (w : Nat) (ancestors : List Nat)
    (hc : IsParentChain h (w :: ancestors)) :
    ∃ v, (∀ fuel, ancestors.length < fuel → visibleRecursive fuel h w = some v) ∧
      (v = true ↔ ((h w).mVisible = true ∧ ∀ a ∈ ancestors, (h a).mVisible = true)) ∧
      (∀ a ∈ ancestors, (h a).mVisible = false → v = false) := by
  refine ⟨(w :: ancestors).all (fun a => (h a).mVisible), ?_, ?_, ?_⟩
  · intro fuel hf
    unfold visibleRecursive
    rw [visibleRecursiveLoop_chain h ancestors w true hc fuel hf]
    simp
  · simp
  · intro a ha hv
    simp only [List.all_cons, Bool.and_eq_false_imp]
    intro _
    rw [List.all_eq_false]
    exact ⟨a, ha, by simp [hv]⟩

/-- Witness for C9: widget 3 of `exTree` is hidden, its ancestors 2 and 0 are not. -/
theorem visibleRecursive_chain_witness :
    IsParentChain exTree [3, 2, 0] ∧
      ∃ v, (∀ fuel, [2, 0].length < fuel → visibleRecursive fuel exTree 3 = some v) ∧
        (v = true ↔ ((exTree 3).mVisible = true ∧ ∀ a ∈ [2, 0], (exTree a).mVisible = true)) ∧
        (∀ a ∈ [2, 0], (exTree a).mVisible = false → v = false) :=
  ⟨⟨rfl, rfl, rfl⟩, visibleRecursive_chain exTree 3 [2, 0] ⟨rfl, rfl, rfl⟩⟩

/-! ## `performLayout` without a layout (C10) -/

theorem performLayout_succ (L : LayoutOps) (n : Nat) (h : Heap) (W : Nat) :
    performLayout L (n + 1) h W =
      match (h W).mLayout with
      | some l => L.performLayout l h W
      | none => (h W).mChildren.foldlM (layoutChild L n) h := rfl

theorem sameShape_refl (g : Heap) : SameShape g g := fun _ => ⟨rfl, rfl⟩

theorem sameShape_trans {g1 g2 g3 : Heap} (h12 : SameShape g1 g2) (h23 : SameShape g2 g3) :
    SameShape g1 g3 :=
  fun x => ⟨(h23 x).1.trans (h12 x).1, (h23 x).2.trans (h12 x).2⟩

theorem sameShape_setSize (g : Heap) (c : Nat) (s : ivec2) : SameShape g (setSize g c s) := by
  intro x
  by_cases hx : x = c
  · subst hx; simp [setSize]
  · simp [setSize, hx]

theorem setSize_other (g : Heap) (c x : Nat) (s : ivec2) (hx : x ≠ c) :
    setSize g c s x = g x := by
  simp [setSize, hx]

theorem setSize_size (g : Heap) (c : Nat) (s : ivec2) : (setSize g c s c).mSize = s := by
  simp [setSize]

theorem inSubtree_of_sameShape {g g' : Heap} (hs : SameShape g g') {r x : Nat}
    (hx : InSubtree g' r x) : InSubtree g r x := by
  induction hx with
  | root => exact InSubtree.root
  | child P c _ hc ih => exact InSubtree.child P c ih (by rw [← (hs P).1]; exact hc)

theorem strictlyBelow_of_sameShape {g g' : Heap} (hs : SameShape g g') {v x : Nat}
    (hx : StrictlyBelow g' v x) : StrictlyBelow g v x := by
  obtain ⟨c, hc, hsub⟩ := hx
  exact ⟨c, by rw [← (hs v).1]; exact hc, inSubtree_of_sameShape hs hsub⟩

theorem strictlyBelow_inSubtree {g : Heap} {v x : Nat} (hx : StrictlyBelow g v x) :
    InSubtree g v x := by
  obtain ⟨c, hc, hsub⟩ := hx
  exact inSubtree_of_child g v c x hc hsub

theorem strictlyBelow_of_child {g : Heap} {v d x : Nat} (hd : d ∈ (g v).mChildren)
    (hx : StrictlyBelow g d x) : StrictlyBelow g v x :=
  ⟨d, hd, strictlyBelow_inSubtree hx⟩

/-- The frame of one run of the loop body, given the frame of the recursive call. -/
theorem layoutChild_frame (L : LayoutOps) (n : Nat)
    (ih : ∀ g v g', performLayout L n g v = some g' →
      SameShape g g' ∧ ∀ x, ¬ StrictlyBelow g v x → g' x = g x)
    (g : Heap) (d : Nat) (g' : Heap) (hr : layoutChild L n g d = some g') :
    SameShape g g' ∧ ∀ x, x ≠ d → ¬ StrictlyBelow g d x → g' x = g x := by
  unfold layoutChild at hr
  obtain ⟨hs, hf⟩ := ih _ _ _ hr
  have hss := sameShape_setSize g d (layoutSize (g d).mFixedSize (preferredSize L g d))
  refine ⟨sameShape_trans hss hs, ?_⟩
  intro x hxd hx
  rw [hf x (fun hb => hx (strictlyBelow_of_sameShape hss hb)), setSize_other _ _ _ _ hxd]

theorem foldlM_layoutChild_frame (L : LayoutOps) (n : Nat)
    (ih : ∀ g v g', performLayout L n g v = some g' →
      SameShape g g' ∧ ∀ x, ¬ StrictlyBelow g v x → g' x = g x)
    (g0 : Heap) (keep : Nat → Prop) :
    ∀ (l : List Nat),
      (∀ d ∈ l, ∀ x, keep x → x ≠ d ∧ ¬ StrictlyBelow g0 d x) →
      ∀ (g g' : Heap), SameShape g0 g → l.foldlM (layoutChild L n) g = some g' →
        SameShape g0 g' ∧ ∀ x, keep x → g' x = g x := by
  intro l
  induction l with
  | nil =>
    intro _ g g' hs hr
    simp only [List.foldlM_nil, Option.pure_def, Option.some.injEq] at hr
    subst hr
    exact ⟨hs, fun _ _ => rfl⟩
  | cons d l ihl =>
    intro hk g g' hs hr
    simp only [List.foldlM_cons, Option.bind_eq_bind] at hr
    cases h1 : layoutChild L n g d with
    | none => simp [h1] at hr
    | some g1 =>
      simp only [h1, Option.some_bind] at hr
      obtain ⟨hs1, hf1⟩ := layoutChild_frame L n ih g d g1 h1
      obtain ⟨hs2, hf2⟩ :=
        ihl (fun e he => hk e (List.mem_cons_of_mem _ he)) g1 g' (sameShape_trans hs hs1) hr
      refine ⟨hs2, ?_⟩
      intro x hx
      obtain ⟨hxd, hnb⟩ := hk d (List.mem_cons_self _ _) x hx
      rw [hf2 x hx, hf1 x hxd (fun hb => hnb (strictlyBelow_of_sameShape hs hb))]

/-- Frame of `performLayout`: the tree and the layout assignments are kept, and only
widgets strictly below the widget change. -/
theorem performLayout_frame (L : LayoutOps) (hL : LayoutContract L) :
    ∀ (n : Nat) (g : Heap) (v : Nat) (g' : Heap), performLayout L n g v = some g' →
      SameShape g g' ∧ ∀ x, ¬ StrictlyBelow g v x → g' x = g x := by
  intro n
  induction n with
  | zero => intro g v g' hr; simp [performLayout] at hr
  | succ n ih =>
    intro g v g' hr
    rw [performLayout_succ] at hr
    cases hl : (g v).mLayout with
    | some l =>
      simp only [hl] at hr
      exact hL.arranges l g v g' hr
    | none =>
      simp only [hl] at hr
      have := foldlM_layoutChild_frame L n ih g (fun x => ¬ StrictlyBelow g v x)
        (g v).mChildren
        (fun d hd x hx =>
          ⟨fun e => hx ⟨d, hd, e ▸ InSubtree.root⟩, fun hb => hx (strictlyBelow_of_child hd hb)⟩)
        g g' (sameShape_refl g) hr
      exact this

theorem split_of_count_eq_one (l : List Nat) (c : Nat) (hc : l.count c = 1) :
    ∃ pre post, l = pre ++ c :: post ∧ c ∉ pre ∧ c ∉ post := by
  have hmem : c ∈ l := List.count_pos_iff.mp (by omega)
  obtain ⟨s, t, rfl⟩ := List.append_of_mem hmem
  refine ⟨s, t, rfl, ?_, ?_⟩
  · intro hs
    have := List.count_pos_iff.mpr hs
    simp [List.count_append, List.count_cons] at hc
    omega
  · intro ht
    have := List.count_pos_iff.mpr ht
    simp [List.count_append, List.count_cons] at hc
    omega

theorem preferredSize_congr (L : LayoutOps) (hL : LayoutContract L) (g g' : Heap) (c : Nat)
    (hsame : ∀ x, InSubtree g c x → g' x = g x) :
    preferredSize L g' c = preferredSize L g c := by
  unfold preferredSize
  rw [hsame c InSubtree.root]
  cases (g c).mLayout with
  | none => rfl
  | some l => exact hL.measures l g g' c hsame

theorem performLayout_terminates (L : LayoutOps) (hL : LayoutContract L)
    (hret : ∀ l g v, (L.performLayout l g v).isSome = true) (h : Heap) (rank : Nat → Nat)
    (hr : WellRanked h rank) :
    ∀ (n : Nat) (g : Heap) (v : Nat), SameShape h g → rank v < n →
      ∃ g', performLayout L n g v = some g' := by
  intro n
  induction n with
  | zero => intro g v _ hv; omega
  | succ n ih =>
    intro g v hs hv
    rw [performLayout_succ]
    cases hl : (g v).mLayout with
    | some l => exact Option.isSome_iff_exists.mp (hret l g v)
    | none =>
      have hloop : ∀ (l : List Nat), (∀ d ∈ l, rank d < n) → ∀ gi, SameShape h gi →
          ∃ g', l.foldlM (layoutChild L n) gi = some g' := by
        intro l
        induction l with
        | nil => intro _ gi _; exact ⟨gi, rfl⟩
        | cons d l ihl =>
          intro hd gi hsi
          have hss := sameShape_setSize gi d (layoutSize (gi d).mFixedSize (preferredSize L gi d))
          obtain ⟨g1, h1⟩ := ih _ d (sameShape_trans hsi hss) (hd d (List.mem_cons_self _ _))
          have hs1 := (performLayout_frame L hL n _ d g1 h1).1
          obtain ⟨g2, h2⟩ :=
            ihl (fun e he => hd e (List.mem_cons_of_mem _ he)) g1 (sameShape_trans (sameShape_trans hsi hss) hs1)
          refine ⟨g2, ?_⟩
          simp only [List.foldlM_cons, Option.bind_eq_bind]
          have h1' : layoutChild L n gi d = some g1 := h1
          rw [h1', Option.some_bind, h2]
      refine hloop (g v).mChildren ?_ g hs
      intro d hd
      have := hr v d (by rw [← (hs v).1]; exact hd)
      omega

theorem foldlM_siblings (L : LayoutOps) (hL : LayoutContract L) (n : Nat) (h : Heap)
    (c : Nat) (l : List Nat)
    (hsep : ∀ d ∈ l, ∀ x, InSubtree h c x → ¬ InSubtree h d x)
    (g g' : Heap) (hs : SameShape h g) (hr : l.foldlM (layoutChild L n) g = some g') :
    SameShape h g' ∧ ∀ x, InSubtree h c x → g' x = g x :=
  foldlM_layoutChild_frame L n (performLayout_frame L hL n) h (InSubtree h c) l
    (fun d hd x hx =>
      ⟨fun e => hsep d hd x hx (e ▸ InSubtree.root),
        fun hb => hsep d hd x hx (strictlyBelow_inSubtree hb)⟩)
    g g' hs hr

/-- C10. Let `W` have no layout and let `c` occur once among its children, with the
subtree of `c` apart from the subtrees of the other children and `c` not below itself,
and let the layout objects keep to their contract. Then after `W.performLayout` the size
of `c` is, on each axis, `c.fixedSize` if that is nonzero and otherwise the value that
`c.preferredSize` returned before the call; with layouts that return and a tree of
finite depth the call returns; for a child without layout the preferred size is its
previous size. Fixed size (50,0) with preferred size (30,20) gives (50,20), and no fixed
size with preferred size (40,15) gives (40,15). -/
theorem performLayout_default (L : LayoutOps) (hL : LayoutContract L) (h : Heap) (W c : Nat)
    (hW : (h W).mLayout = none) (hc : (h W).mChildren.count c = 1)
    (hsep : ∀ d ∈ (h W).mChildren, d ≠ c → ∀ x, InSubtree h c x → ¬ InSubtree h d x)
    (hacyc : ¬ StrictlyBelow h c c) :
    (∀ fuel h', performLayout L fuel h W = some h' →
      (h' c).mSize = layoutSize (h c).mFixedSize (preferredSize L h c)) ∧
    (∀ rank, WellRanked h rank → (∀ l g v, (L.performLayout l g v).isSome = true) →
      ∀ fuel, rank W < fuel → ∃ h', performLayout L fuel h W = some h') ∧
    ((h c).mLayout = none → preferredSize L h c = (h c).mSize) ∧
    (layoutSize ⟨50, 0⟩ ⟨30, 20⟩ = ⟨50, 20⟩ ∧ layoutSize ⟨0, 0⟩ ⟨40, 15⟩ = ⟨40, 15⟩) := by
  refine ⟨?_, ?_, ?_, by decide, by decide⟩
  · intro fuel h' hrun
    cases fuel with
    | zero => simp [performLayout] at hrun
    | succ n =>
      rw [performLayout_succ] at hrun
      simp only [hW] at hrun
      obtain ⟨pre, post, hsplit, hpre, hpost⟩ := split_of_count_eq_one _ c hc
      have hsep1 : ∀ d ∈ pre, ∀ x, InSubtree h c x → ¬ InSubtree h d x := fun d hd =>
        hsep d (by rw [hsplit]; exact List.mem_append_left _ hd) (fun e => hpre (e ▸ hd))
      have hsep2 : ∀ d ∈ post, ∀ x, InSubtree h c x → ¬ InSubtree h d x := fun d hd =>
        hsep d (by rw [hsplit]; exact List.mem_append_right _ (List.mem_cons_of_mem _ hd))
          (fun e => hpost (e ▸ hd))
      rw [hsplit, List.foldlM_append] at hrun
      cases h1 : pre.foldlM (layoutChild L n) h with
      | none => simp [h1] at hrun
      | some g1 =>
        simp only [h1, Option.bind_eq_bind, Option.some_bind, List.foldlM_cons] at hrun
        cases h2 : layoutChild L n g1 c with
        | none => simp [h2] at hrun
        | some g2 =>
          simp only [h2, Option.some_bind] at hrun
          obtain ⟨hs1, hf1⟩ := foldlM_siblings L hL n h c pre hsep1 h g1 (sameShape_refl h) h1
          have hss := sameShape_setSize g1 c
            (layoutSize (g1 c).mFixedSize (preferredSize L g1 c))
          obtain ⟨hs2, hf2⟩ := performLayout_frame L hL n _ c g2 h2
          obtain ⟨_, hf3⟩ :=
            foldlM_siblings L hL n h c post hsep2 g2 h' (sameShape_trans (sameShape_trans hs1 hss) hs2) hrun
          have hnb : ¬ StrictlyBelow
              (setSize g1 c (layoutSize (g1 c).mFixedSize (preferredSize L g1 c))) c c :=
            fun hb => hacyc (strictlyBelow_of_sameShape (sameShape_trans hs1 hss) hb)
          rw [hf3 c InSubtree.root, hf2 c hnb, setSize_size, hf1 c InSubtree.root,
            preferredSize_congr L hL h g1 c hf1]
  · intro rank hr hret fuel hf
    exact performLayout_terminates L hL hret h rank hr fuel h W (sameShape_refl h) hf
  · intro hl
    simp [preferredSize, hl]

theorem inSubtree_leaf (h : Heap) (r x : Nat) (hleaf : (h r).mChildren = [])
    (hx : InSubtree h r x) : x = r := by
  induction hx with
  | root => rfl
  | child P c _ hc ih =>
    subst ih
    rw [hleaf] at hc
    cases hc

theorem not_strictlyBelow_leaf (h : Heap) (r x : Nat) (hleaf : (h r).mChildren = []) :
    ¬ StrictlyBelow h r x := by
  rintro ⟨c, hc, _⟩
  rw [hleaf] at hc
  cases hc

theorem exLayouts_contract : LayoutContract exLayouts where
  arranges := by
    intro l g v g' hr
    simp only [exLayouts, Option.some.injEq] at hr
    subst hr
    exact ⟨sameShape_refl g, fun _ _ => rfl⟩
  measures := fun _ _ _ _ _ => rfl

theorem exLayoutHeap_separate (c : Nat) (hc : c ∈ (exLayoutHeap 0).mChildren) :
    ∀ d ∈ (exLayoutHeap 0).mChildren, d ≠ c →
      ∀ x, InSubtree exLayoutHeap c x → ¬ InSubtree exLayoutHeap d x := by
  intro d hd hdc x hx hx'
  have hleaf : ∀ e ∈ (exLayoutHeap 0).mChildren, (exLayoutHeap e).mChildren = [] := by decide
  have h1 := inSubtree_leaf _ c x (hleaf c hc) hx
  have h2 := inSubtree_leaf _ d x (hleaf d hd) hx'
  exact hdc (h2 ▸ h1)

/-- Witness for C10: the two children of `exLayoutHeap`, the first with fixed size
(50,0) and size (30,20), the second with a layout of preferred size (40,15). -/
theorem performLayout_default_witness :
    LayoutContract exLayouts ∧ (exLayoutHeap 0).mLayout = none ∧
      (exLayoutHeap 0).mChildren.count 1 = 1 ∧ (exLayoutHeap 0).mChildren.count 2 = 1 ∧
      ¬ StrictlyBelow exLayoutHeap 1 1 ∧ ¬ StrictlyBelow exLayoutHeap 2 2 ∧
      ∃ h', performLayout exLayouts 2 exLayoutHeap 0 = some h' ∧
        (h' 1).mSize = ⟨50, 20⟩ ∧ (h' 2).mSize = ⟨40, 15⟩ :=
  ⟨exLayouts_contract, rfl, by decide, by decide,
    not_strictlyBelow_leaf _ 1 1 rfl, not_strictlyBelow_leaf _ 2 2 rfl, _, rfl,
    (performLayout_default exLayouts exLayouts_contract exLayoutHeap 0 1 rfl (by decide)
      (exLayoutHeap_separate 1 (by decide)) (not_strictlyBelow_leaf _ 1 1 rfl)).1 2 _ rfl,
    (performLayout_default exLayouts exLayouts_contract exLayoutHeap 0 2 rfl (by decide)
      (exLayoutHeap_separate 2 (by decide)) (not_strictlyBelow_leaf _ 2 2 rfl)).1 2 _ rfl⟩

/-! ## `window` (C13) -/

theorem windowLoop_chain (isWindow : Nat → Bool) (h : Heap) :
    ∀ (ancestors : List Nat) (w : Nat), IsParentChain h (w :: ancestors) →
      ∀ fuel, ancestors.length < fuel →
        windowLoop isWindow fuel h (some w) =
          some (match (w :: ancestors).find? isWindow with
            | some a => .returned a
            | none => .thrown "Widget:internal error (could not find parent window)") := by
  intro ancestors
  induction ancestors with
  | nil =>
    intro w hc fuel hf
    obtain ⟨k, rfl⟩ : ∃ k, fuel = k + 1 := ⟨fuel - 1, by omega⟩
    simp only [IsParentChain] at hc
    cases hw : isWindow w with
    | true => simp [windowLoop, hw, List.find?]
    | false =>
      simp only [windowLoop, hw, hc, List.find?]
      cases k <;> simp [windowLoop]
  | cons b rest ih =>
    intro w hc fuel hf
    obtain ⟨k, rfl⟩ : ∃ k, fuel = k + 1 := ⟨fuel - 1, by omega⟩
    simp only [IsParentChain] at hc
    cases hw : isWindow w with
    | true => simp [windowLoop, hw, List.find?]
    | false =>
      have hb := ih b hc.2 k (by simp at hf; omega)
      simp only [windowLoop, hw, hc.1, hb, List.find?]
      simp

/-- C13. For a widget `w` with the parent chain `w, a1, ..., ak`, `window()` ends: it
returns the first widget of the chain that is a `Window` (`w` itself if `w` is one), and
it throws the error "could not find parent window" exactly if no widget of the chain is
a `Window`. -/
theorem window_nearest (isWindow : Nat → Bool) (h : Heap) (w : Nat) (ancestors : List Nat)
    (hc : IsParentChain h (w :: ancestors)) :
    ∃ r, (∀ fuel, ancestors.length < fuel → window isWindow fuel h w = some r) ∧
      (∀ pre a post, w :: ancestors = pre ++ a :: post → (∀ b ∈ pre, isWindow b = false) →
        isWindow a = true → r = .returned a) ∧
      (isWindow w = true → r = .returned w) ∧
      (r = .thrown "Widget:internal error (could not find parent window)" ↔
        ∀ a ∈ w :: ancestors, isWindow a = false) ∧
      ((∃ what, r = .thrown what) ↔ ∀ a ∈ w :: ancestors, isWindow a = false) := by
  have hfirst : ∀ pre a post, w :: ancestors = pre ++ a :: post →
      (∀ b ∈ pre, isWindow b = false) → isWindow a = true →
      (w :: ancestors).find? isWindow = some a := by
    intro pre a post hsplit hpre ha
    rw [hsplit, List.find?_append]
    have : pre.find? isWindow = none := by
      rw [List.find?_eq_none]
      intro b hb
      simp [hpre b hb]
    rw [this]
    simp [List.find?, ha]
  refine ⟨_, fun fuel hf => windowLoop_chain isWindow h ancestors w hc fuel hf, ?_, ?_, ?_, ?_⟩
  · intro pre a post hsplit hpre ha
    rw [hfirst pre a post hsplit hpre ha]
  · intro hw
    rw [hfirst [] w ancestors rfl (fun _ hb => by cases hb) hw]
  · cases hf : (w :: ancestors).find? isWindow with
    | none =>
      rw [List.find?_eq_none] at hf
      simpa using hf
    | some a =>
      have ha := List.find?_some hf
      have hm := List.mem_of_find?_eq_some hf
      constructor
      · intro hr; cases hr
      · intro hall
        rw [hall a hm] at ha; cases ha
  · cases hf : (w :: ancestors).find? isWindow with
    | none =>
      rw [List.find?_eq_none] at hf
      constructor
      · intro _; simpa using hf
      · intro _; exact ⟨_, rfl⟩
    | some a =>
      have ha := List.find?_some hf
      have hm := List.mem_of_find?_eq_some hf
      constructor
      · rintro ⟨what, hr⟩; cases hr
      · intro hall
        rw [hall a hm] at ha; cases ha

/-- Witness for C13: widget 3 of `exTree` has the parent chain 3, 2, 0, of which widget 2
is a `Window`. -/
theorem window_nearest_witness :
    IsParentChain exTree [3, 2, 0] ∧ window exIsWindow 3 exTree 3 = some (.returned 2) ∧
      ∃ r, (∀ fuel, [2, 0].length < fuel → window exIsWindow fuel exTree 3 = some r) ∧
        (exIsWindow 3 = true → r = .returned 3) :=
  ⟨⟨rfl, rfl, rfl⟩, by decide,
    (window_nearest exIsWindow exTree 3 [2, 0] ⟨rfl, rfl, rfl⟩).imp
      (fun _ hr => ⟨hr.1, hr.2.2.1⟩)⟩

/-! ## `removeChild (int)` out of range (C14) -/

/-- Counterexample to C14 as stated: the root of `exTree` has two children; for the
indices 2 and -1 the call indexes `mChildren` outside of the vector, which is undefined
behaviour: no failure is signalled and nothing is said about the children. -/
theorem removeChildAt_out_of_range_counterexample :
    childCount exTree 0 = 2 ∧ removeChildAt exTree 0 2 = none ∧
      removeChildAt exTree 0 (-1) = none := by
  refine ⟨by decide, rfl, rfl⟩

/-- C14, as amended. The call `removeChild(index)` is defined exactly for
`0 <= index < childCount`; for an index out of range the behaviour is undefined (the
vector is indexed without a bounds check). For an index in range the entry at `index`
is erased and one reference of the erased widget is released. -/
theorem removeChildAt_defined_iff (h : Heap) (W : Nat) (index : Int) :
    (removeChildAt h W index = none ↔ (index < 0 ∨ index ≥ childCount h W)) ∧
    (0 ≤ index → index < childCount h W →
      ∃ w, (h W).mChildren.get? index.toNat = some w ∧
        removeChildAt h W index = some (decRef
          (h.set W { h W with mChildren := (h W).mChildren.eraseIdx index.toNat }) w)) := by
  have hin : 0 ≤ index → index < childCount h W →
      ∃ w, (h W).mChildren.get? index.toNat = some w := by
    intro h0 h1
    unfold childCount at h1
    have hlt : index.toNat < (h W).mChildren.length := by omega
    exact ⟨_, List.get?_eq_get hlt⟩
  constructor
  · constructor
    · intro hnone
      by_contra hcon
      have h0 : 0 ≤ index := by omega
      have h1 : index < childCount h W := by omega
      obtain ⟨w, hw⟩ := hin h0 h1
      rw [removeChildAt_eq h W index w h0 h1 hw] at hnone
      cases hnone
    · intro hout
      unfold removeChildAt
      rw [if_neg (by omega)]
  · intro h0 h1
    obtain ⟨w, hw⟩ := hin h0 h1
    exact ⟨w, hw, removeChildAt_eq h W index w h0 h1 hw⟩

/-- Witness for C14 as amended: index 1 is in range for the root of `exTree`. -/
theorem removeChildAt_defined_iff_witness :
    (0 : Int) ≤ 1 ∧ (1 : Int) < childCount exTree 0 ∧
      ∃ w, (exTree 0).mChildren.get? (1 : Int).toNat = some w ∧
        removeChildAt exTree 0 1 = some (decRef
          (exTree.set 0 { exTree 0 with
            mChildren := (exTree 0).mChildren.eraseIdx (1 : Int).toNat }) w) :=
  ⟨by decide, by decide, (removeChildAt_defined_iff exTree 0 1).2 (by decide) (by decide)⟩

/-! ## Icon identifiers (C17) -/

/-- C17. Exactly one of `nvgIsImageIcon(v)` and `nvgIsFontIcon(v)` holds;
`nvgIsImageIcon(v)` holds exactly if `v < 1024` and `nvgIsFontIcon(v)` exactly if
`v >= 1024`; 512 is an image icon, 2048 a font icon, and 1023 and 1024 fall on
opposite sides. -/
theorem icon_partition (v : Int) :
    (nvgIsImageIcon v = !nvgIsFontIcon v) ∧
    (nvgIsImageIcon v = true ↔ v < 1024) ∧ (nvgIsFontIcon v = true ↔ v ≥ 1024) ∧
    (nvgIsImageIcon 512 = true ∧ nvgIsFontIcon 512 = false) ∧
    (nvgIsFontIcon 2048 = true ∧ nvgIsImageIcon 2048 = false) ∧
    (nvgIsImageIcon 1023 = true ∧ nvgIsFontIcon 1024 = true) := by
  refine ⟨?_, by simp [nvgIsImageIcon], by simp [nvgIsFontIcon], by decide, by decide, by decide⟩
  simp only [nvgIsImageIcon, nvgIsFontIcon]
  by_cases hv : v < 1024
  · have : ¬ v ≥ 1024 := by omega
    simp [hv, this]
  · have : v ≥ 1024 := by omega
    simp [hv, this]

/-! ## The constructor (C18) -/

theorem ctor_some_at_self (h : Heap) (self P : Nat) (hP : P ≠ self) :
    Widget.ctor h self (some P) self =
      { Widget.initial with refCount := 1, mParent := some P, mTheme := (h P).mTheme } := by
  have hs : self ≠ P := fun e => hP e.symm
  simp [Widget.ctor, addChild, incRef, setParent, Heap.set, hP, hs, Widget.initial]

theorem ctor_some_at_parent (h : Heap) (self P : Nat) (hP : P ≠ self) :
    Widget.ctor h self (some P) P = { h P with mChildren := (h P).mChildren ++ [self] } := by
  simp [Widget.ctor, addChild, incRef, setParent, Heap.set, hP]

theorem ctor_some_at_other (h : Heap) (self P x : Nat) (hxs : x ≠ self) (hxP : x ≠ P) :
    Widget.ctor h self (some P) x = h x := by
  simp [Widget.ctor, addChild, incRef, setParent, Heap.set, hxs, hxP]

/-- C18. Constructing a widget at `self` with an existing parent `P` makes `self` the
last child of `P`, with parent pointer `P`, the theme of `P`, position, size and fixed
size (0,0), visible and enabled, not focused and without font size; `P` changes only in
its children and no other widget changes. Constructing without parent gives a widget
without parent and theme with the same default values, and changes no other widget. -/
theorem ctor_registers (h : Heap) (self : Nat) :
    (∀ P, P ≠ self →
      (Widget.ctor h self (some P) P).mChildren = (h P).mChildren ++ [self] ∧
      (Widget.ctor h self (some P) P).mChildren.getLast? = some self ∧
      (Widget.ctor h self (some P) self).mParent = some P ∧
      (Widget.ctor h self (some P) self).mTheme = (h P).mTheme ∧
      (Widget.ctor h self (some P) self).mTheme = (Widget.ctor h self (some P) P).mTheme ∧
      ((Widget.ctor h self (some P) self).mPos = ⟨0, 0⟩ ∧
        (Widget.ctor h self (some P) self).mSize = ⟨0, 0⟩ ∧
        (Widget.ctor h self (some P) self).mFixedSize = ⟨0, 0⟩ ∧
        (Widget.ctor h self (some P) self).mVisible = true ∧
        (Widget.ctor h self (some P) self).mEnabled = true ∧
        (Widget.ctor h self (some P) self).mFocused = false ∧
        (Widget.ctor h self (some P) self).hasFontSize = false) ∧
      Widget.ctor h self (some P) P = { h P with mChildren := (h P).mChildren ++ [self] } ∧
      (∀ x, x ≠ self → x ≠ P → Widget.ctor h self (some P) x = h x)) ∧
    ((Widget.ctor h self none self).mParent = none ∧
      (Widget.ctor h self none self).mTheme = none ∧
      ((Widget.ctor h self none self).mPos = ⟨0, 0⟩ ∧
        (Widget.ctor h self none self).mSize = ⟨0, 0⟩ ∧
        (Widget.ctor h self none self).mFixedSize = ⟨0, 0⟩ ∧
        (Widget.ctor h self none self).mVisible = true ∧
        (Widget.ctor h self none self).mEnabled = true ∧
        (Widget.ctor h self none self).mFocused = false ∧
        (Widget.ctor h self none self).hasFontSize = false) ∧
      (∀ x, x ≠ self → Widget.ctor h self none x = h x)) := by
  constructor
  · intro P hP
    rw [ctor_some_at_self h self P hP, ctor_some_at_parent h self P hP]
    refine ⟨rfl, by simp, rfl, rfl, rfl, ⟨rfl, rfl, rfl, rfl, rfl, rfl, rfl⟩, rfl, ?_⟩
    intro x hxs hxP
    exact ctor_some_at_other h self P x hxs hxP
  · rw [ctor_none_at, if_pos rfl]
    refine ⟨rfl, rfl, ⟨rfl, rfl, rfl, rfl, rfl, rfl, rfl⟩, ?_⟩
    intro x hx
    rw [ctor_none_at, if_neg hx]

/-- Witness for C18: a widget is constructed at address 4 with widget 2 of `exTree` as
parent. -/
theorem ctor_registers_witness :
    (2 : Nat) ≠ 4 ∧ (Widget.ctor exTree 4 (some 2) 2).mChildren = [3, 4] ∧
      (Widget.ctor exTree 4 (some 2) 4).mParent = some 2 :=
  ⟨by decide, ((ctor_registers exTree 4).1 2 (by decide)).1,
    ((ctor_registers exTree 4).1 2 (by decide)).2.2.1⟩

/-! ## `removeChild` by value with duplicates (C20) -/

/-- Counterexample to C20 as stated: in `exDup` widget 0 lists widget 1 twice, as first
and as last child; after `removeChild(1)` widget 1 is not listed at all, while deleting
the first occurrence only would leave the children 2, 1. -/
theorem removeChild_first_match_counterexample :
    (exDup 0).mChildren = [1, 2, 1] ∧ (exDup 0).mChildren.count 1 = 2 ∧
      (removeChild exDup 0 1 0).mChildren = [2] ∧
      (removeChild exDup 0 1 0).mChildren.count 1 = 0 ∧
      (exDup 0).mChildren.erase 1 = [2, 1] ∧
      (removeChild exDup 0 1 0).mChildren ≠ (exDup 0).mChildren.erase 1 := by
  decide

/-- C20, as amended. After `removeChild(w)` the children of the parent are the original
sequence with every occurrence of `w` deleted: `w` occurs zero times, every other entry
occurs as often as before and in the original order; if `w` occurred exactly once this
is the original sequence with its first occurrence of `w` deleted. -/
theorem removeChild_all_matches (h : Heap) (P w : Nat) :
    (removeChild h P w P).mChildren.count w = 0 ∧
    (∀ x, x ≠ w → (removeChild h P w P).mChildren.count x = (h P).mChildren.count x) ∧
    (removeChild h P w P).mChildren.Sublist (h P).mChildren ∧
    (∀ l : List Nat, l.Sublist (h P).mChildren → w ∉ l → l.Sublist (removeChild h P w P).mChildren) ∧
    ((h P).mChildren.count w = 1 →
      (removeChild h P w P).mChildren = (h P).mChildren.erase w) := by
  rw [removeChild_children]
  refine ⟨?_, ?_, List.filter_sublist _, ?_, ?_⟩
  · rw [List.count_eq_zero]
    intro hm
    simp [List.mem_filter] at hm
  · intro x hx
    rw [List.count_filter]
    simpa using hx
  · intro l hl hw
    have := hl.filter (fun c => c != w)
    rwa [List.filter_eq_self.mpr (fun a ha => by
      have : a ≠ w := fun e => hw (e ▸ ha)
      simpa using this)] at this
  · intro h1
    obtain ⟨pre, post, hsplit, hpre, hpost⟩ := split_of_count_eq_one _ w h1
    rw [hsplit, List.filter_append, List.filter_cons]
    have e1 : pre.filter (fun c => c != w) = pre :=
      List.filter_eq_self.mpr (fun a ha => by
        have : a ≠ w := fun e => hpre (e ▸ ha)
        simpa using this)
    have e2 : post.filter (fun c => c != w) = post :=
      List.filter_eq_self.mpr (fun a ha => by
        have : a ≠ w := fun e => hpost (e ▸ ha)
        simpa using this)
    rw [e1, e2, List.erase_append_right _ hpre]
    simp

/-- Witness for C20 as amended: widget 2 occurs once among the children of widget 0 in
`exDup` and is removed. -/
theorem removeChild_all_matches_witness :
    (exDup 0).mChildren.count 2 = 1 ∧
      (removeChild exDup 0 2 0).mChildren = (exDup 0).mChildren.erase 2 ∧
      (removeChild exDup 0 2 0).mChildren = [1, 1] :=
  ⟨by decide, (removeChild_all_matches exDup 0 2).2.2.2.2 (by decide), by decide⟩

/-! ## `findWidget` and visibility (C19) -/

theorem findWidget_path (h : Heap) : ∀ (n : Nat) (W : Nat) (p : ivec2) (w : Nat),
    findWidget n h W p = some (some w) →
      ∃ below, IsChildPath h (W :: below) ∧ (W :: below).getLast? = some w ∧
        ∀ a ∈ below, (h a).mVisible = true := by
  intro n
  induction n with
  | zero => intro W p w hr; simp [findWidget] at hr
  | succ n ih =>
    intro W p w hr
    rw [findWidget_succ] at hr
    cases hl : lastHit h W p with
    | none =>
      simp only [hl, Option.some.injEq] at hr
      cases hcont : (h W).contains p with
      | false => simp [hcont] at hr
      | true =>
        simp only [hcont, if_true, Option.some.injEq] at hr
        subst hr
        exact ⟨[], trivial, rfl, fun _ ha => by cases ha⟩
    | some c =>
      simp only [hl] at hr
      obtain ⟨hmem, hhit⟩ := lastHit_mem h W p c hl
      simp only [hitTest, Bool.and_eq_true] at hhit
      obtain ⟨below, hpath, hlast, hvis⟩ := ih c _ w hr
      refine ⟨c :: below, ⟨hmem, hpath⟩, ?_, ?_⟩
      · rw [List.getLast?_cons_cons]; exact hlast
      · intro a ha
        rcases List.mem_cons.mp ha with rfl | ha
        · exact hhit.1
        · exact hvis a ha

theorem inSubtree_up_path (h : Heap) (hwf : ChildrenHaveParent h) (x : Nat)
    (hx : (h x).mVisible = false) :
    ∀ (below : List Nat) (W w : Nat), IsChildPath h (W :: below) →
      (W :: below).getLast? = some w → (∀ a ∈ below, (h a).mVisible = true) →
      InSubtree h x w → InSubtree h x W := by
  intro below
  induction below with
  | nil =>
    intro W w _ hlast _ hsub
    simp at hlast
    subst hlast
    exact hsub
  | cons c rest ih =>
    intro W w hpath hlast hvis hsub
    rw [List.getLast?_cons_cons] at hlast
    have hc := ih c w hpath.2 hlast (fun a ha => hvis a (List.mem_cons_of_mem _ ha)) hsub
    cases hc with
    | root =>
      have := hvis x (List.mem_cons_self _ _)
      rw [hx] at this
      cases this
    | child P _ hP hmem =>
      have e1 := hwf P c hmem
      have e2 := hwf W c hpath.1
      rw [e1, Option.some.injEq] at e2
      subst e2
      exact hP

/-- Counterexample to C19 as stated: widget 3 of `exTree` is invisible and contains the
point (6,6); `findWidget` called on it returns widget 3 itself. -/
theorem findWidget_visible_counterexample :
    (exTree 3).mVisible = false ∧ findWidget 1 exTree 3 ⟨6, 6⟩ = some (some 3) := by
  decide

/-- C19, as amended. If `W.findWidget(p)` returns a widget `w`, there is a path
`W, b1, ..., bm = w` down the tree, each widget a child of the one before, on which
every widget other than `W` is visible; so `w` is visible or is `W` itself, whose flag
is not tested. When parent pointers agree with the children lists, a widget that is in
the subtree of an invisible widget `x` is returned only if `W` itself is in the
subtree of `x`. -/
theorem findWidget_visible_below (h : Heap) (W : Nat) (p : ivec2) (fuel : Nat) (w : Nat)
    (hfind : findWidget fuel h W p = some (some w)) :
    (∃ below, IsChildPath h (W :: below) ∧ (W :: below).getLast? = some w ∧
      ∀ a ∈ below, (h a).mVisible = true) ∧
    (w = W ∨ (h w).mVisible = true) ∧
    (ChildrenHaveParent h → ∀ x, (h x).mVisible = false → InSubtree h x w →
      InSubtree h x W) := by
  obtain ⟨below, hpath, hlast, hvis⟩ := findWidget_path h fuel W p w hfind
  refine ⟨⟨below, hpath, hlast, hvis⟩, ?_, ?_⟩
  · cases below with
    | nil =>
      simp at hlast
      exact Or.inl hlast.symm
    | cons c rest =>
      right
      rw [List.getLast?_cons_cons] at hlast
      exact hvis w (List.mem_of_getLast?_eq_some hlast)
  · intro hwf x hx hsub
    exact inSubtree_up_path h hwf x hx below W w hpath hlast hvis hsub

/-- Witness for C19 as amended: the point (26,26) of `exTree` is found in widget 2, a
visible child of the root. -/
theorem findWidget_visible_below_witness :
    findWidget 3 exTree 0 ⟨26, 26⟩ = some (some 2) ∧
      ((2 : Nat) = 0 ∨ (exTree 2).mVisible = true) :=
  ⟨by decide, (findWidget_visible_below exTree 0 ⟨26, 26⟩ 3 2 (by decide)).2.1⟩

/-! ## `utf8` (C15, C16) -/

theorem nat_lor_shifted (x k a : Nat) (hx : x < 2 ^ k) : x ||| 2 ^ k * a = 2 ^ k * a + x := by
  rw [Nat.lor_comm]
  exact (Nat.mul_add_lt_is_or hx a).symm

theorem int_contByte (m : Nat) :
    Int.lor 0x80 (Int.land (m : Int) 0x3f) = ((128 + m % 64 : Nat) : Int) := by
  show ((128 ||| (m &&& 63) : Nat) : Int) = _
  congr 1
  have h1 : m &&& 63 = m % 64 := Nat.and_pow_two_sub_one_eq_mod m 6
  have h2 := nat_lor_shifted (m % 64) 7 1 (by omega)
  rw [h1, Nat.lor_comm]
  simpa using h2

theorem int_shiftOr (m k a : Nat) (K : Nat) (Ki : Int) (hKi : Ki = (K : Int))
    (hK : K = 2 ^ k * a) (h : m / 64 < 2 ^ k) :
    Int.lor ((m : Int) >>> 6) Ki = ((K + m / 64 : Nat) : Int) := by
  subst hKi
  show ((m >>> 6 ||| K : Nat) : Int) = _
  congr 1
  rw [Nat.shiftRight_eq_div_pow, hK]
  exact nat_lor_shifted (m / 64) k a h

theorem storeChar_cast (s : List (Option Nat)) (i : Nat) (n : Nat) (hi : i < s.length) :
    storeChar (some s) i (n : Int) = some (s.set i (some (n % 256))) := by
  simp only [storeChar, if_pos hi]
  congr

theorem utf8_one (m : Nat) (h2 : m < 0x80) :
    utf8 (m : Int) = some [some m, some 0, none, none, none, none, none, none] := by
  have hn : utf8Length (m : Int) = 1 := by
    unfold utf8Length
    rw [if_pos (by omega)]
  simp only [utf8, hn, utf8Case1]
  have e0 : storeChar (some (List.replicate 8 none)) 1 0 =
      some [none, some 0, none, none, none, none, none, none] := by decide
  rw [e0, storeChar_cast _ _ _ (by simp)]
  simp only [List.set, Option.some.injEq, List.cons.injEq, and_true]
  omega

theorem utf8_two (m : Nat) (h1 : 0x80 ≤ m) (h2 : m < 0x800) :
    utf8 (m : Int) =
      some [some (192 + m / 64), some (128 + m % 64), some 0, none, none, none, none, none] := by
  have hn : utf8Length (m : Int) = 2 := by
    unfold utf8Length
    rw [if_neg (by omega), if_pos (by omega)]
  simp only [utf8, hn, utf8Case2, utf8Case1]
  have e0 : storeChar (some (List.replicate 8 none)) 2 0 =
      some [none, none, some 0, none, none, none, none, none] := by decide
  rw [e0, int_contByte, int_shiftOr m 6 3 192 192 rfl rfl (by omega),
    storeChar_cast _ _ _ (by simp), storeChar_cast _ _ _ (by simp)]
  simp only [List.set, Option.some.injEq, List.cons.injEq, and_true]
  omega

theorem utf8_three (m : Nat) (h1 : 0x800 ≤ m) (h2 : m < 0x10000) :
    utf8 (m : Int) =
      some [some (224 + m / 4096), some (128 + m / 64 % 64), some (128 + m % 64), some 0,
        none, none, none, none] := by
  have hn : utf8Length (m : Int) = 3 := by
    unfold utf8Length
    rw [if_neg (by omega), if_neg (by omega), if_pos (by omega)]
  simp only [utf8, hn, utf8Case3, utf8Case2, utf8Case1]
  have e0 : storeChar (some (List.replicate 8 none)) 3 0 =
      some [none, none, none, some 0, none, none, none, none] := by decide
  rw [e0, int_contByte, int_shiftOr m 11 1 2048 2048 rfl rfl (by omega),
    int_contByte, int_shiftOr _ 6 3 192 192 rfl rfl (by omega),
    storeChar_cast _ _ _ (by simp), storeChar_cast _ _ _ (by simp),
    storeChar_cast _ _ _ (by simp)]
  simp only [List.set, Option.some.injEq, List.cons.injEq, and_true]
  omega

theorem utf8_four (m : Nat) (h1 : 0x10000 ≤ m) (h2 : m < 0x200000) :
    utf8 (m : Int) =
      some [some (240 + m / 262144), some (128 + m / 4096 % 64), some (128 + m / 64 % 64),
        some (128 + m % 64), some 0, none, none, none] := by
  have hn : utf8Length (m : Int) = 4 := by
    unfold utf8Length
    rw [if_neg (by omega), if_neg (by omega), if_neg (by omega), if_pos (by omega)]
  simp only [utf8, hn, utf8Case4, utf8Case3, utf8Case2, utf8Case1]
  have e0 : storeChar (some (List.replicate 8 none)) 4 0 =
      some [none, none, none, none, some 0, none, none, none] := by decide
  rw [e0, int_contByte, int_shiftOr m 16 1 65536 65536 rfl rfl (by omega),
    int_contByte, int_shiftOr _ 11 1 2048 2048 rfl rfl (by omega),
    int_contByte, int_shiftOr _ 6 3 192 192 rfl rfl (by omega),
    storeChar_cast _ _ _ (by simp), storeChar_cast _ _ _ (by simp),
    storeChar_cast _ _ _ (by simp), storeChar_cast _ _ _ (by simp)]
  simp only [List.set, Option.some.injEq, List.cons.injEq, and_true]
  omega

theorem utf8_five (m : Nat) (h1 : 0x200000 ≤ m) (h2 : m < 0x4000000) :
    utf8 (m : Int) =
      some [some (248 + m / 16777216), some (128 + m / 262144 % 64),
        some (128 + m / 4096 % 64), some (128 + m / 64 % 64), some (128 + m % 64), some 0,
        none, none] := by
  have hn : utf8Length (m : Int) = 5 := by
    unfold utf8Length
    rw [if_neg (by omega), if_neg (by omega), if_neg (by omega), if_neg (by omega),
      if_pos (by omega)]
  simp only [utf8, hn, utf8Case5, utf8Case4, utf8Case3, utf8Case2, utf8Case1]
  have e0 : storeChar (some (List.replicate 8 none)) 5 0 =
      some [none, none, none, none, none, some 0, none, none] := by decide
  rw [e0, int_contByte, int_shiftOr m 21 1 2097152 2097152 rfl rfl (by omega),
    int_contByte, int_shiftOr _ 16 1 65536 65536 rfl rfl (by omega),
    int_contByte, int_shiftOr _ 11 1 2048 2048 rfl rfl (by omega),
    int_contByte, int_shiftOr _ 6 3 192 192 rfl rfl (by omega),
    storeChar_cast _ _ _ (by simp), storeChar_cast _ _ _ (by simp),
    storeChar_cast _ _ _ (by simp), storeChar_cast _ _ _ (by simp),
    storeChar_cast _ _ _ (by simp)]
  simp only [List.set, Option.some.injEq, List.cons.injEq, and_true]
  omega

theorem utf8_six (m : Nat) (h1 : 0x4000000 ≤ m) (h2 : m ≤ 0x7fffffff) :
    utf8 (m : Int) =
      some [some (252 + m / 1073741824), some (128 + m / 16777216 % 64),
        some (128 + m / 262144 % 64), some (128 + m / 4096 % 64), some (128 + m / 64 % 64),
        some (128 + m % 64), some 0, none] := by
  have hn : utf8Length (m : Int) = 6 := by
    unfold utf8Length
    rw [if_neg (by omega), if_neg (by omega), if_neg (by omega), if_neg (by omega),
      if_neg (by omega), if_pos (by omega)]
  simp only [utf8, hn, utf8Case6, utf8Case5, utf8Case4, utf8Case3, utf8Case2, utf8Case1]
  have e0 : storeChar (some (List.replicate 8 none)) 6 0 =
      some [none, none, none, none, none, none, some 0, none] := by decide
  rw [e0, int_contByte, int_shiftOr m 26 1 67108864 67108864 rfl rfl (by omega),
    int_contByte, int_shiftOr _ 21 1 2097152 2097152 rfl rfl (by omega),
    int_contByte, int_shiftOr _ 16 1 65536 65536 rfl rfl (by omega),
    int_contByte, int_shiftOr _ 11 1 2048 2048 rfl rfl (by omega),
    int_contByte, int_shiftOr _ 6 3 192 192 rfl rfl (by omega),
    storeChar_cast _ _ _ (by simp), storeChar_cast _ _ _ (by simp),
    storeChar_cast _ _ _ (by simp), storeChar_cast _ _ _ (by simp),
    storeChar_cast _ _ _ (by simp), storeChar_cast _ _ _ (by simp)]
  simp only [List.set, Option.some.injEq, List.cons.injEq, and_true]
  omega

theorem utf8Length_table (c : Int) (h0 : 0 ≤ c) (h1 : c ≤ 0x7fffffff) :
    (c < 0x80 → utf8Length c = 1) ∧
    (0x80 ≤ c → c < 0x800 → utf8Length c = 2) ∧
    (0x800 ≤ c → c < 0x10000 → utf8Length c = 3) ∧
    (0x10000 ≤ c → c < 0x200000 → utf8Length c = 4) ∧
    (0x200000 ≤ c → c < 0x4000000 → utf8Length c = 5) ∧
    (0x4000000 ≤ c → utf8Length c = 6) := by
  unfold utf8Length
  refine ⟨?_, ?_, ?_, ?_, ?_, ?_⟩
  · intro h; rw [if_pos h]
  · intro h h'; rw [if_neg (by omega), if_pos h']
  · intro h h'; rw [if_neg (by omega), if_neg (by omega), if_pos h']
  · intro h h'; rw [if_neg (by omega), if_neg (by omega), if_neg (by omega), if_pos h']
  · intro h h'
    rw [if_neg (by omega), if_neg (by omega), if_neg (by omega), if_neg (by omega), if_pos h']
  · intro h
    rw [if_neg (by omega), if_neg (by omega), if_neg (by omega), if_neg (by omega),
      if_neg (by omega), if_pos h1]

theorem utf8_buffer_nat (m : Nat) (hm : m ≤ 0x7fffffff) :
    ∃ seq, utf8 (m : Int) = some seq ∧ IsUtf8Buffer (utf8Length (m : Int)) seq := by
  have ht := utf8Length_table (m : Int) (by omega) (by omega)
  by_cases c1 : m < 0x80
  · refine ⟨_, utf8_one m c1, ?_⟩
    rw [ht.1 (by omega)]
    refine ⟨rfl, ⟨m, rfl, Or.inl ⟨rfl, c1⟩⟩, ?_, rfl, ?_⟩
    · intro i hi hi'; omega
    · intro j hj hj'; interval_cases j <;> rfl
  by_cases c2 : m < 0x800
  · refine ⟨_, utf8_two m (by omega) c2, ?_⟩
    rw [ht.2.1 (by omega) (by omega)]
    refine ⟨rfl, ⟨_, rfl, Or.inr (Or.inl ⟨rfl, by omega, by omega⟩)⟩, ?_, rfl, ?_⟩
    · intro i hi hi'
      interval_cases i
      exact ⟨_, rfl, by omega, by omega⟩
    · intro j hj hj'; interval_cases j <;> rfl
  by_cases c3 : m < 0x10000
  · refine ⟨_, utf8_three m (by omega) c3, ?_⟩
    rw [ht.2.2.1 (by omega) (by omega)]
    refine ⟨rfl, ⟨_, rfl, Or.inr (Or.inr (Or.inl ⟨rfl, by omega, by omega⟩))⟩, ?_, rfl, ?_⟩
    · intro i hi hi'
      interval_cases i <;> exact ⟨_, rfl, by omega, by omega⟩
    · intro j hj hj'; interval_cases j <;> rfl
  by_cases c4 : m < 0x200000
  · refine ⟨_, utf8_four m (by omega) c4, ?_⟩
    rw [ht.2.2.2.1 (by omega) (by omega)]
    refine ⟨rfl, ⟨_, rfl, Or.inr (Or.inr (Or.inr (Or.inl ⟨rfl, by omega, by omega⟩)))⟩, ?_,
      rfl, ?_⟩
    · intro i hi hi'
      interval_cases i <;> exact ⟨_, rfl, by omega, by omega⟩
    · intro j hj hj'; interval_cases j <;> rfl
  by_cases c5 : m < 0x4000000
  · refine ⟨_, utf8_five m (by omega) c5, ?_⟩
    rw [ht.2.2.2.2.1 (by omega) (by omega)]
    refine ⟨rfl,
      ⟨_, rfl, Or.inr (Or.inr (Or.inr (Or.inr (Or.inl ⟨rfl, by omega, by omega⟩))))⟩, ?_,
      rfl, ?_⟩
    · intro i hi hi'
      interval_cases i <;> exact ⟨_, rfl, by omega, by omega⟩
    · intro j hj hj'; interval_cases j <;> rfl
  · refine ⟨_, utf8_six m (by omega) hm, ?_⟩
    rw [ht.2.2.2.2.2 (by omega)]
    refine ⟨rfl,
      ⟨_, rfl, Or.inr (Or.inr (Or.inr (Or.inr (Or.inr ⟨rfl, by omega, by omega⟩))))⟩, ?_,
      rfl, ?_⟩
    · intro i hi hi'
      interval_cases i <;> exact ⟨_, rfl, by omega, by omega⟩
    · intro j hj hj'; interval_cases j; rfl

/-- C16. For a code point `c` with `0 <= c <= 0x7fffffff`, `utf8 (c)` stays inside its
8-byte buffer; with `n` = 1, 2, 3, 4, 5, 6 for `c` below 0x80, 0x800, 0x10000, 0x200000,
0x4000000 and otherwise, it writes a lead byte for `n` bytes at index 0, bytes of the
form `10xxxxxx` at the indices 1 to `n - 1` and a zero byte at index `n`, and nothing
after it. `utf8 (0x41)` is the byte 0x41 followed by the terminator. -/
theorem utf8_length_termination (c : Int) (h0 : 0 ≤ c) (h1 : c ≤ 0x7fffffff) :
    (∃ seq, utf8 c = some seq ∧ IsUtf8Buffer (utf8Length c) seq) ∧
    ((c < 0x80 → utf8Length c = 1) ∧
      (0x80 ≤ c → c < 0x800 → utf8Length c = 2) ∧
      (0x800 ≤ c → c < 0x10000 → utf8Length c = 3) ∧
      (0x10000 ≤ c → c < 0x200000 → utf8Length c = 4) ∧
      (0x200000 ≤ c → c < 0x4000000 → utf8Length c = 5) ∧
      (0x4000000 ≤ c → utf8Length c = 6)) ∧
    utf8 0x41 = some [some 0x41, some 0, none, none, none, none, none, none] := by
  refine ⟨?_, utf8Length_table c h0 h1, by decide⟩
  obtain ⟨m, rfl⟩ : ∃ m : Nat, c = (m : Int) := ⟨c.toNat, by omega⟩
  exact utf8_buffer_nat m (by omega)

/-- Witness for C16: the code point 0x20AC is written as E2 82 AC and a terminator. -/
theorem utf8_length_termination_witness :
    (0 : Int) ≤ 0x20AC ∧ (0x20AC : Int) ≤ 0x7fffffff ∧ utf8Length 0x20AC = 3 ∧
      utf8 0x20AC = some [some 0xE2, some 0x82, some 0xAC, some 0, none, none, none, none] ∧
      ∃ seq, utf8 0x20AC = some seq ∧ IsUtf8Buffer (utf8Length 0x20AC) seq :=
  ⟨by decide, by decide, by decide, by decide,
    (utf8_length_termination 0x20AC (by decide) (by decide)).1⟩

theorem utf8Continue_one (acc b : Nat) (h1 : 0x80 ≤ b) (h2 : b < 0xC0) (bs : List Nat) :
    utf8Continue acc (b :: bs) = utf8Continue (acc * 64 + (b - 0x80)) bs := by
  simp only [utf8Continue]
  rw [if_pos ⟨h1, h2⟩]

theorem utf8Decode_of_lead (b : Nat) (bs : List Nat) (k bits v : Nat)
    (hl : utf8Lead b = some (k, bits)) (hk : bs.length = k)
    (hc : utf8Continue bits bs = some v) (hv : utf8Least k ≤ v) :
    utf8Decode (b :: bs) = some v := by
  simp only [utf8Decode, hl, hk, if_true, hc, Option.some_bind, if_pos hv]

theorem utf8_nat_roundtrip (m : Nat) (hm : m ≤ 0x7fffffff) :
    ∃ bytes, utf8Data (m : Int) = some bytes ∧ bytes.length = utf8Length (m : Int) ∧
      utf8Decode bytes = some m := by
  have ht := utf8Length_table (m : Int) (by omega) (by omega)
  unfold utf8Data
  by_cases c1 : m < 0x80
  · rw [utf8_one m c1, ht.1 (by omega)]
    refine ⟨[m], rfl, rfl, ?_⟩
    refine utf8Decode_of_lead m [] 0 m m ?_ rfl rfl (Nat.zero_le _)
    unfold utf8Lead
    rw [if_pos c1]
  by_cases c2 : m < 0x800
  · rw [utf8_two m (by omega) c2, ht.2.1 (by omega) (by omega)]
    refine ⟨[192 + m / 64, 128 + m % 64], rfl, rfl, ?_⟩
    refine utf8Decode_of_lead _ _ 1 (m / 64) m ?_ rfl ?_ (by show 128 ≤ m; omega)
    · unfold utf8Lead
      rw [if_neg (by omega), if_neg (by omega), if_pos (by omega)]
      rw [Nat.add_sub_cancel_left]
    · rw [utf8Continue_one _ _ (by omega) (by omega)]
      simp only [utf8Continue, Option.some.injEq]
      omega
  by_cases c3 : m < 0x10000
  · rw [utf8_three m (by omega) c3, ht.2.2.1 (by omega) (by omega)]
    refine ⟨[224 + m / 4096, 128 + m / 64 % 64, 128 + m % 64], rfl, rfl, ?_⟩
    refine utf8Decode_of_lead _ _ 2 (m / 4096) m ?_ rfl ?_ (by show 2048 ≤ m; omega)
    · unfold utf8Lead
      rw [if_neg (by omega), if_neg (by omega), if_neg (by omega), if_pos (by omega)]
      rw [Nat.add_sub_cancel_left]
    · rw [utf8Continue_one _ _ (by omega) (by omega),
        utf8Continue_one _ _ (by omega) (by omega)]
      simp only [utf8Continue, Option.some.injEq]
      omega
  by_cases c4 : m < 0x200000
  · rw [utf8_four m (by omega) c4, ht.2.2.2.1 (by omega) (by omega)]
    refine ⟨[240 + m / 262144, 128 + m / 4096 % 64, 128 + m / 64 % 64, 128 + m % 64],
      rfl, rfl, ?_⟩
    refine utf8Decode_of_lead _ _ 3 (m / 262144) m ?_ rfl ?_ (by show 65536 ≤ m; omega)
    · unfold utf8Lead
      rw [if_neg (by omega), if_neg (by omega), if_neg (by omega), if_neg (by omega),
        if_pos (by omega)]
      rw [Nat.add_sub_cancel_left]
    · rw [utf8Continue_one _ _ (by omega) (by omega),
        utf8Continue_one _ _ (by omega) (by omega),
        utf8Continue_one _ _ (by omega) (by omega)]
      simp only [utf8Continue, Option.some.injEq]
      omega
  by_cases c5 : m < 0x4000000
  · rw [utf8_five m (by omega) c5, ht.2.2.2.2.1 (by omega) (by omega)]
    refine ⟨[248 + m / 16777216, 128 + m / 262144 % 64, 128 + m / 4096 % 64,
      128 + m / 64 % 64, 128 + m % 64], rfl, rfl, ?_⟩
    refine utf8Decode_of_lead _ _ 4 (m / 16777216) m ?_ rfl ?_ (by show 2097152 ≤ m; omega)
    · unfold utf8Lead
      rw [if_neg (by omega), if_neg (by omega), if_neg (by omega), if_neg (by omega),
        if_neg (by omega), if_pos (by omega)]
      rw [Nat.add_sub_cancel_left]
    · rw [utf8Continue_one _ _ (by omega) (by omega),
        utf8Continue_one _ _ (by omega) (by omega),
        utf8Continue_one _ _ (by omega) (by omega),
        utf8Continue_one _ _ (by omega) (by omega)]
      simp only [utf8Continue, Option.some.injEq]
      omega
  · rw [utf8_six m (by omega) hm, ht.2.2.2.2.2 (by omega)]
    refine ⟨[252 + m / 1073741824, 128 + m / 16777216 % 64, 128 + m / 262144 % 64,
      128 + m / 4096 % 64, 128 + m / 64 % 64, 128 + m % 64], rfl, rfl, ?_⟩
    refine utf8Decode_of_lead _ _ 5 (m / 1073741824) m ?_ rfl ?_
      (by show 67108864 ≤ m; omega)
    · unfold utf8Lead
      rw [if_neg (by omega), if_neg (by omega), if_neg (by omega), if_neg (by omega),
        if_neg (by omega), if_neg (by omega), if_pos (by omega)]
      rw [Nat.add_sub_cancel_left]
    · rw [utf8Continue_one _ _ (by omega) (by omega),
        utf8Continue_one _ _ (by omega) (by omega),
        utf8Continue_one _ _ (by omega) (by omega),
        utf8Continue_one _ _ (by omega) (by omega),
        utf8Continue_one _ _ (by omega) (by omega)]
      simp only [utf8Continue, Option.some.injEq]
      omega

/-- C15. For a code point `c` with `0 <= c <= 0x7fffffff` the data bytes of `utf8 (c)`
are decoded to `c` by the decoder for the 1-to-6-byte UTF-8 scheme; `utf8 (0x20AC)` has
the data bytes E2 82 AC, which decode to 0x20AC. -/
theorem utf8_roundtrip (c : Int) (h0 : 0 ≤ c) (h1 : c ≤ 0x7fffffff) :
    (∃ bytes, utf8Data c = some bytes ∧ bytes.length = utf8Length c ∧
      (utf8Decode bytes).map (fun v => (v : Int)) = some c) ∧
    utf8Data 0x20AC = some [0xE2, 0x82, 0xAC] ∧ utf8Decode [0xE2, 0x82, 0xAC] = some 0x20AC := by
  refine ⟨?_, by decide, by decide⟩
  obtain ⟨m, rfl⟩ : ∃ m : Nat, c = (m : Int) := ⟨c.toNat, by omega⟩
  obtain ⟨bytes, hb, hl, hd⟩ := utf8_nat_roundtrip m (by omega)
  exact ⟨bytes, hb, hl, by rw [hd]; rfl⟩

/-- Witness for C15: the code point 0x10FFFF, a sequence of four bytes. -/
theorem utf8_roundtrip_witness :
    (0 : Int) ≤ 0x10FFFF ∧ (0x10FFFF : Int) ≤ 0x7fffffff ∧
      utf8Data 0x10FFFF = some [0xF4, 0x8F, 0xBF, 0xBF] ∧
      ∃ bytes, utf8Data 0x10FFFF = some bytes ∧ bytes.length = utf8Length 0x10FFFF ∧
        (utf8Decode bytes).map (fun v => (v : Int)) = some 0x10FFFF :=
  ⟨by decide, by decide, by decide, (utf8_roundtrip 0x10FFFF (by decide) (by decide)).1⟩

/-! ## `mouseButtonEvent` (C11) -/

theorem buttonLoop_log (V : Virtuals) (W : Nat) (p : ivec2) (button : Int) (down : Bool)
    (modifiers : Int) : ∀ (l : List Nat) (h : Heap) (log : List Event),
    buttonLoop V W p button down modifiers l h log =
      (buttonLoop V W p button down modifiers l h []).map
        (fun res => (res.1, log ++ res.2.1, res.2.2)) := by
  intro l
  induction l with
  | nil => intro h log; simp [buttonLoop]
  | cons c rest ih =>
    intro h log
    simp only [buttonLoop]
    split
    · cases hv : V.mouseButtonEvent c h (p - (h W).mPos) button down modifiers with
      | none => simp
      | some res =>
        obtain ⟨h1, b⟩ := res
        cases b with
        | true => simp
        | false =>
          simp only [List.nil_append]
          rw [ih h1 (log ++ _), ih h1 [_]]
          cases buttonLoop V W p button down modifiers rest h1 [] with
          | none => simp
          | some res => simp
    · exact ih h log

theorem buttonLoop_append (V : Virtuals) (W : Nat) (p : ivec2) (button : Int) (down : Bool)
    (modifiers : Int) : ∀ (l1 l2 : List Nat) (h : Heap) (log : List Event),
    buttonLoop V W p button down modifiers (l1 ++ l2) h log =
      match buttonLoop V W p button down modifiers l1 h log with
      | none => none
      | some (g, ev, true) => some (g, ev, true)
      | some (g, ev, false) => buttonLoop V W p button down modifiers l2 g ev := by
  intro l1
  induction l1 with
  | nil => intro l2 h log; simp [buttonLoop]
  | cons c rest ih =>
    intro l2 h log
    simp only [List.cons_append, buttonLoop]
    split
    · cases hv : V.mouseButtonEvent c h (p - (h W).mPos) button down modifiers with
      | none => simp
      | some res =>
        obtain ⟨h1, b⟩ := res
        cases b with
        | true => simp
        | false => simp only []; exact ih l2 h1 _
    · exact ih l2 h log

theorem buttonLoop_log_iff (V : Virtuals) (W : Nat) (p : ivec2) (button : Int) (down : Bool)
    (modifiers : Int) (l : List Nat) (h : Heap) (log : List Event) (g : Heap)
    (ev : List Event) (r : Bool) :
    buttonLoop V W p button down modifiers l h log = some (g, ev, r) ↔
      ∃ ev0, buttonLoop V W p button down modifiers l h [] = some (g, ev0, r) ∧
        ev = log ++ ev0 := by
  rw [buttonLoop_log]
  cases buttonLoop V W p button down modifiers l h [] with
  | none => simp
  | some res =>
    obtain ⟨g1, ev1, r1⟩ := res
    simp only [Option.map_some', Option.some.injEq, Prod.mk.injEq]
    constructor
    · rintro ⟨rfl, rfl, rfl⟩
      exact ⟨ev1, ⟨rfl, rfl, rfl⟩, rfl⟩
    · rintro ⟨ev0, ⟨rfl, rfl, rfl⟩, rfl⟩
      exact ⟨rfl, rfl, rfl⟩

theorem buttonLoop_consumed (V : Virtuals) (W : Nat) (p : ivec2) (button : Int) (down : Bool)
    (modifiers : Int) : ∀ (l : List Nat) (h g' : Heap) (ev' : List Event),
    buttonLoop V W p button down modifiers l h [] = some (g', ev', true) →
      ∃ pre c post g ev, l = pre ++ c :: post ∧
        buttonLoop V W p button down modifiers pre h [] = some (g, ev, false) ∧
        hitTest g W p c = true ∧
        V.mouseButtonEvent c g (p - (g W).mPos) button down modifiers = some (g', true) ∧
        ev' = ev ++ [Event.dispatch c (p - (g W).mPos) true] := by
  intro l
  induction l with
  | nil => intro h g' ev' hr; simp [buttonLoop] at hr
  | cons c rest ih =>
    intro h g' ev' hr
    simp only [buttonLoop] at hr
    by_cases hhit : hitTest h W p c = true
    · rw [if_pos hhit] at hr
      cases hv : V.mouseButtonEvent c h (p - (h W).mPos) button down modifiers with
      | none => simp [hv] at hr
      | some res =>
        obtain ⟨h1, b⟩ := res
        cases b with
        | true =>
          simp only [hv, List.nil_append, Option.some.injEq, Prod.mk.injEq, and_true] at hr
          obtain ⟨rfl, rfl⟩ := hr
          exact ⟨[], c, rest, h, [], rfl, rfl, hhit, hv, rfl⟩
        | false =>
          simp only [hv, List.nil_append] at hr
          obtain ⟨ev0, hr0, rfl⟩ := (buttonLoop_log_iff V W p button down modifiers _ _ _ _ _ _).mp hr
          obtain ⟨pre, c', post, g, ev, hsplit, hpre, hhit', hv', hev⟩ := ih h1 g' ev0 hr0
          refine ⟨c :: pre, c', post, g, Event.dispatch c (p - (h W).mPos) false :: ev,
            by rw [hsplit]; rfl, ?_, hhit', hv', ?_⟩
          · simp only [buttonLoop, if_pos hhit, hv, List.nil_append]
            exact (buttonLoop_log_iff V W p button down modifiers _ _ _ _ _ _).mpr
              ⟨ev, hpre, rfl⟩
          · rw [hev]; rfl
    · rw [if_neg hhit] at hr
      obtain ⟨pre, c', post, g, ev, hsplit, hpre, hhit', hv', hev⟩ := ih h g' ev' hr
      refine ⟨c :: pre, c', post, g, ev, by rw [hsplit]; rfl, ?_, hhit', hv', hev⟩
      simp only [buttonLoop, if_neg hhit]
      exact hpre

theorem buttonLoop_shape (V : Virtuals) (W : Nat) (p : ivec2) (button : Int) (down : Bool)
    (modifiers : Int) : ∀ (l : List Nat) (h g : Heap) (ev : List Event) (r : Bool),
    buttonLoop V W p button down modifiers l h [] = some (g, ev, r) →
      (ev.filterMap Event.dispatchedChild).Sublist l ∧
      (∀ e ∈ ev, ∃ c q b, e = Event.dispatch c q b) ∧
      (∀ init e rest, ev = init ++ e :: rest → e.isConsumed = true → rest = [] ∧ r = true) ∧
      (r = true → ∃ c q, ev.getLast? = some (Event.dispatch c q true)) := by
  intro l
  induction l with
  | nil =>
    intro h g ev r hr
    simp only [buttonLoop, Option.some.injEq, Prod.mk.injEq] at hr
    obtain ⟨rfl, rfl, rfl⟩ := hr
    refine ⟨?_, ?_, ?_, ?_⟩
    · simp
    · intro e he; cases he
    · intro init e rest hsplit
      cases init <;> cases hsplit
    · intro hr; cases hr
  | cons c rest ih =>
    intro h g ev r hr
    simp only [buttonLoop] at hr
    by_cases hhit : hitTest h W p c = true
    · rw [if_pos hhit] at hr
      cases hv : V.mouseButtonEvent c h (p - (h W).mPos) button down modifiers with
      | none => simp [hv] at hr
      | some res =>
        obtain ⟨h1, b⟩ := res
        cases b with
        | true =>
          simp only [hv, List.nil_append, Option.some.injEq, Prod.mk.injEq] at hr
          obtain ⟨rfl, rfl, rfl⟩ := hr
          refine ⟨?_, ?_, ?_, fun _ => ⟨c, _, rfl⟩⟩
          · simp [Event.dispatchedChild]
          · intro e he
            simp only [List.mem_singleton] at he
            exact ⟨_, _, _, he⟩
          · intro init e rest' hsplit _
            cases init with
            | nil =>
              simp only [List.nil_append, List.cons.injEq] at hsplit
              exact ⟨hsplit.2.symm, rfl⟩
            | cons a init =>
              simp only [List.cons_append, List.cons.injEq] at hsplit
              have := hsplit.2
              cases init <;> cases this
        | false =>
          simp only [hv, List.nil_append] at hr
          obtain ⟨ev0, hr0, rfl⟩ :=
            (buttonLoop_log_iff V W p button down modifiers _ _ _ _ _ _).mp hr
          obtain ⟨i1, i2, i3, i4⟩ := ih h1 g ev0 r hr0
          refine ⟨?_, ?_, ?_, ?_⟩
          · simp only [List.singleton_append, List.filterMap_cons, Event.dispatchedChild]
            exact i1.cons₂ c
          · intro e he
            simp only [List.singleton_append, List.mem_cons] at he
            rcases he with rfl | he
            · exact ⟨_, _, _, rfl⟩
            · exact i2 e he
          · intro init e rest' hsplit hcons
            cases init with
            | nil =>
              simp only [List.singleton_append, List.nil_append, List.cons.injEq] at hsplit
              rw [← hsplit.1] at hcons
              cases hcons
            | cons a init =>
              simp only [List.singleton_append, List.cons_append, List.cons.injEq] at hsplit
              exact i3 init e rest' hsplit.2 hcons
          · intro hr'
            obtain ⟨c', q, hlast⟩ := i4 hr'
            refine ⟨c', q, ?_⟩
            cases ev0 with
            | nil => cases hlast
            | cons a ev0 =>
              rw [List.singleton_append, List.getLast?_cons_cons]
              exact hlast
    · rw [if_neg hhit] at hr
      obtain ⟨i1, i2, i3, i4⟩ := ih h g ev r hr
      exact ⟨i1.cons c, i2, i3, i4⟩

theorem buttonLoop_returns (V : Virtuals) (W : Nat) (p : ivec2) (button : Int) (down : Bool)
    (modifiers : Int)
    (hV : ∀ c g q, (V.mouseButtonEvent c g q button down modifiers).isSome = true) :
    ∀ (l : List Nat) (h : Heap) (log : List Event),
      (buttonLoop V W p button down modifiers l h log).isSome = true := by
  intro l
  induction l with
  | nil => intro h log; rfl
  | cons c rest ih =>
    intro h log
    simp only [buttonLoop]
    split
    · have := hV c h (p - (h W).mPos)
      cases hv : V.mouseButtonEvent c h (p - (h W).mPos) button down modifiers with
      | none => rw [hv] at this; cases this
      | some res =>
        obtain ⟨h1, b⟩ := res
        cases b with
        | true => rfl
        | false => exact ih h1 _
    · exact ih h log

theorem buttonLoop_no_dispatch (V : Virtuals) (W : Nat) (p : ivec2) (button : Int)
    (down : Bool) (modifiers : Int) : ∀ (l : List Nat) (h g : Heap) (r : Bool),
    buttonLoop V W p button down modifiers l h [] = some (g, [], r) → g = h := by
  intro l
  induction l with
  | nil =>
    intro h g r hr
    simp only [buttonLoop, Option.some.injEq, Prod.mk.injEq] at hr
    exact hr.1.symm
  | cons c rest ih =>
    intro h g r hr
    simp only [buttonLoop] at hr
    by_cases hhit : hitTest h W p c = true
    · rw [if_pos hhit] at hr
      cases hv : V.mouseButtonEvent c h (p - (h W).mPos) button down modifiers with
      | none => simp [hv] at hr
      | some res =>
        obtain ⟨h1, b⟩ := res
        cases b with
        | true => simp [hv] at hr
        | false =>
          simp only [hv, List.nil_append] at hr
          obtain ⟨ev0, _, he⟩ :=
            (buttonLoop_log_iff V W p button down modifiers _ _ _ _ _ _).mp hr
          cases he
    · rw [if_neg hhit] at hr
      exact ih h g r hr

theorem count_requestFocus_of_dispatches (ev : List Event) (W : Nat)
    (hev : ∀ e ∈ ev, ∃ c q b, e = Event.dispatch c q b) :
    ev.count (Event.requestFocus W) = 0 := by
  rw [List.count_eq_zero]
  intro hm
  obtain ⟨c, q, b, he⟩ := hev _ hm
  cases he

theorem rootLoop_of_chain (g : Heap) : ∀ (ancestors : List Nat) (w fuel : Nat),
    IsParentChain g (w :: ancestors) → ancestors.length < fuel →
      ∃ root, rootLoop fuel g w = some root := by
  intro ancestors
  induction ancestors with
  | nil =>
    intro w fuel hc hf
    cases fuel with
    | zero => cases hf
    | succ n =>
      have hp : (g w).mParent = none := hc
      exact ⟨w, by simp [rootLoop, hp]⟩
  | cons b rest ih =>
    intro w fuel hc hf
    cases fuel with
    | zero => cases hf
    | succ n =>
      obtain ⟨hp, hrest⟩ := hc
      obtain ⟨root, hroot⟩ := ih b n hrest (by simpa using hf)
      exact ⟨root, by simp [rootLoop, hp, hroot]⟩

theorem isParentChain_congr (h g : Heap) (hpar : ∀ x, (g x).mParent = (h x).mParent) :
    ∀ (l : List Nat), IsParentChain h l → IsParentChain g l := by
  intro l
  induction l with
  | nil => intro hc; exact hc
  | cons a rest ih =>
    intro hc
    cases rest with
    | nil =>
      have hp : (h a).mParent = none := hc
      exact (hpar a).trans hp
    | cons b rest =>
      obtain ⟨hp, hrest⟩ := hc
      exact ⟨(hpar a).trans hp, ih hrest⟩

theorem requestFocus_returns (V : Virtuals) (fuel : Nat) (g : Heap) (W : Nat)
    (hU : ∀ root g, (V.updateFocus root g W).isSome = true) (ancestors : List Nat)
    (hc : IsParentChain g (W :: ancestors)) (hf : ancestors.length < fuel) :
    (requestFocus V fuel g W).isSome = true := by
  obtain ⟨root, hroot⟩ := rootLoop_of_chain g ancestors W fuel hc hf
  unfold requestFocus
  rw [hroot]
  exact hU root g

theorem buttonLoop_parents (V : Virtuals) (W : Nat) (p : ivec2) (button : Int) (down : Bool)
    (modifiers : Int)
    (hV : ∀ c g q, ∃ g' b, V.mouseButtonEvent c g q button down modifiers = some (g', b) ∧
      ∀ x, (g' x).mParent = (g x).mParent) :
    ∀ (l : List Nat) (h : Heap) (log : List Event) (g : Heap) (ev : List Event) (r : Bool),
      buttonLoop V W p button down modifiers l h log = some (g, ev, r) →
        ∀ x, (g x).mParent = (h x).mParent := by
  intro l
  induction l with
  | nil =>
    intro h log g ev r hr x
    simp only [buttonLoop, Option.some.injEq, Prod.mk.injEq] at hr
    rw [hr.1]
  | cons c rest ih =>
    intro h log g ev r hr x
    simp only [buttonLoop] at hr
    by_cases hhit : hitTest h W p c = true
    · rw [if_pos hhit] at hr
      obtain ⟨g', b, hv, hkeep⟩ := hV c h (p - (h W).mPos)
      cases b with
      | true =>
        simp only [hv, Option.some.injEq, Prod.mk.injEq] at hr
        rw [← hr.1]
        exact hkeep x
      | false =>
        simp only [hv] at hr
        rw [ih g' _ g ev r hr x]
        exact hkeep x
    · rw [if_neg hhit] at hr
      exact ih h log g ev r hr x

theorem mouseButtonEvent_returns (V : Virtuals) (fuel : Nat) (h : Heap) (W : Nat)
    (p : ivec2) (button : Int) (down : Bool) (modifiers : Int)
    (hV : ∀ c g q, (V.mouseButtonEvent c g q button down modifiers).isSome = true)
    (hU : ∀ root g, (V.updateFocus root g W).isSome = true)
    (hchain : ∀ g ev, buttonLoop V W p button down modifiers (h W).mChildren.reverse h [] =
        some (g, ev, false) →
      ∃ ancestors, IsParentChain g (W :: ancestors) ∧ ancestors.length < fuel) :
    (mouseButtonEvent V fuel h W p button down modifiers).isSome = true := by
  unfold mouseButtonEvent
  have hl := buttonLoop_returns V W p button down modifiers hV (h W).mChildren.reverse h []
  cases hloop : buttonLoop V W p button down modifiers (h W).mChildren.reverse h [] with
  | none => rw [hloop] at hl; cases hl
  | some res =>
    obtain ⟨g1, ev1, b⟩ := res
    cases b with
    | true => rfl
    | false =>
      simp only []
      obtain ⟨ancestors, hc, hf⟩ := hchain g1 ev1 hloop
      have := requestFocus_returns V fuel g1 W hU ancestors hc hf
      split
      · cases hq : requestFocus V fuel g1 W with
        | none => rw [hq] at this; cases this
        | some h2 => rfl
      · rfl

theorem onlyMouseFocus_refl (g : Heap) : OnlyMouseFocus g g := fun _ => rfl

theorem onlyMouseFocus_trans {g1 g2 g3 : Heap} (h12 : OnlyMouseFocus g1 g2)
    (h23 : OnlyMouseFocus g2 g3) : OnlyMouseFocus g1 g3 := by
  intro x
  rw [h23 x, h12 x]

theorem onlyMouseFocus_sameShape {g g' : Heap} (hf : OnlyMouseFocus g g') : SameShape g g' :=
  fun x => by rw [hf x]; exact ⟨rfl, rfl⟩

theorem onlyMouseFocus_sameShape_rev {g g' : Heap} (hf : OnlyMouseFocus g g') :
    SameShape g' g :=
  fun x => by rw [hf x]; exact ⟨rfl, rfl⟩

theorem onlyMouseFocus_fields {g g' : Heap} (hf : OnlyMouseFocus g g') (x : Nat) :
    (g' x).mVisible = (g x).mVisible ∧ (g' x).mPos = (g x).mPos ∧
      (∀ q, (g' x).contains q = (g x).contains q) ∧ (g' x).mChildren = (g x).mChildren := by
  rw [hf x]
  exact ⟨rfl, rfl, fun _ => rfl, rfl⟩

theorem mouseEnterEvent_onlyMouseFocus (g : Heap) (c : Nat) (p : ivec2) (enter : Bool) :
    OnlyMouseFocus g (mouseEnterEvent g c p enter).1 := by
  intro x
  by_cases hx : x = c
  · subst hx; simp [mouseEnterEvent]
  · simp [mouseEnterEvent, hx]

theorem enterStep_spec (g : Heap) (log : List Event) (c : Nat) (p : ivec2) (a b : Bool) :
    OnlyMouseFocus g (enterStep g log c p a b).1 ∧
    (∀ x, x ≠ c → (enterStep g log c p a b).1 x = g x) ∧
    ((enterStep g log c p a b).1 c).mMouseFocus = (if a != b then a else (g c).mMouseFocus) ∧
    (enterStep g log c p a b).2 =
      log ++ (if a != b then [Event.mouseEnter c p a] else []) := by
  unfold enterStep
  cases hab : (a != b) with
  | true =>
    refine ⟨mouseEnterEvent_onlyMouseFocus g c p a, ?_, ?_, ?_⟩
    · intro x hx; simp [mouseEnterEvent, hx]
    · simp [mouseEnterEvent]
    · simp
  | false =>
    refine ⟨onlyMouseFocus_refl g, fun _ _ => rfl, ?_, ?_⟩
    · simp
    · simp

theorem motionLoop_append
    (call : Heap → List Event → Nat → ivec2 → Option (Heap × List Event × Bool))
    (W : Nat) (p rel : ivec2) : ∀ (l1 l2 : List Nat) (h : Heap) (log : List Event),
    motionLoop call W p rel (l1 ++ l2) h log =
      match motionLoop call W p rel l1 h log with
      | none => none
      | some (g, ev, true) => some (g, ev, true)
      | some (g, ev, false) => motionLoop call W p rel l2 g ev := by
  intro l1
  induction l1 with
  | nil => intro l2 h log; simp [motionLoop]
  | cons c rest ih =>
    intro l2 h log
    simp only [List.cons_append, motionLoop]
    split
    · exact ih l2 h log
    · split
      · split
        · rfl
        · rfl
        · exact ih l2 _ _
      · exact ih l2 _ _

theorem motionEffect_mono {g0 : Heap} {keep keep' touched touched' : Nat → Prop} {g : Heap}
    {lg : List Event} {res : Heap × List Event × Bool}
    (he : MotionEffect g0 keep touched g lg res) (hk : ∀ x, keep' x → keep x)
    (ht : ∀ x, touched x → touched' x) : MotionEffect g0 keep' touched' g lg res := by
  obtain ⟨h1, h2, h3, new, h4, h5⟩ := he
  refine ⟨h1, h2, fun x hx => h3 x (hk x hx), new, h4, ?_⟩
  intro e he
  obtain ⟨x, q, f, hxe, hx⟩ := h5 e he
  exact ⟨x, q, f, hxe, ht x hx⟩

theorem motionLoop_frame
    (call : Heap → List Event → Nat → ivec2 → Option (Heap × List Event × Bool))
    (g0 : Heap) (W : Nat) (p rel : ivec2)
    (hcall : ∀ g lg d q res, OnlyMouseFocus g0 g → call g lg d q = some res →
      MotionEffect g0 (fun x => ¬ StrictlyBelow g0 d x) (fun x => StrictlyBelow g0 d x)
        g lg res) :
    ∀ (l : List Nat) (g : Heap) (lg : List Event) (res : Heap × List Event × Bool),
      OnlyMouseFocus g0 g → motionLoop call W p rel l g lg = some res →
      MotionEffect g0 (fun x => x ∉ l ∧ ∀ d ∈ l, ¬ StrictlyBelow g0 d x)
        (fun x => x ∈ l ∨ ∃ d ∈ l, StrictlyBelow g0 d x) g lg res := by
  intro l
  induction l with
  | nil =>
    intro g lg res hg hr
    simp only [motionLoop, Option.some.injEq] at hr
    subst hr
    exact ⟨rfl, hg, fun _ _ => rfl, [], by simp, fun e he => by cases he⟩
  | cons c rest ih =>
    intro g lg res hg hr
    have hweak : ∀ g1 lg1, MotionEffect g0 (fun x => x ∉ rest ∧ ∀ d ∈ rest, ¬ StrictlyBelow g0 d x)
        (fun x => x ∈ rest ∨ ∃ d ∈ rest, StrictlyBelow g0 d x) g1 lg1 res →
        MotionEffect g0 (fun x => x ∉ c :: rest ∧ ∀ d ∈ c :: rest, ¬ StrictlyBelow g0 d x)
          (fun x => x ∈ c :: rest ∨ ∃ d ∈ c :: rest, StrictlyBelow g0 d x) g1 lg1 res := by
      intro g1 lg1 he
      refine motionEffect_mono he ?_ ?_
      · intro x hx
        exact ⟨fun hm => hx.1 (List.mem_cons_of_mem _ hm),
          fun d hd => hx.2 d (List.mem_cons_of_mem _ hd)⟩
      · intro x hx
        rcases hx with hx | ⟨d, hd, hx⟩
        · exact Or.inl (List.mem_cons_of_mem _ hx)
        · exact Or.inr ⟨d, List.mem_cons_of_mem _ hd, hx⟩
    simp only [motionLoop] at hr
    split at hr
    · exact hweak g lg (ih g lg res hg hr)
    · obtain ⟨s1, s2, _, s4⟩ := enterStep_spec g lg c p ((g c).contains (p - (g W).mPos))
        ((g c).contains (p - (g W).mPos - rel))
      have hgs := onlyMouseFocus_trans hg s1
      -- the state after the enter step, seen from `g`
      have hstep : ∀ res', MotionEffect g0
          (fun x => x ∉ c :: rest ∧ ∀ d ∈ c :: rest, ¬ StrictlyBelow g0 d x)
          (fun x => x ∈ c :: rest ∨ ∃ d ∈ c :: rest, StrictlyBelow g0 d x)
          (enterStep g lg c p ((g c).contains (p - (g W).mPos))
            ((g c).contains (p - (g W).mPos - rel))).1
          (enterStep g lg c p ((g c).contains (p - (g W).mPos))
            ((g c).contains (p - (g W).mPos - rel))).2 res' →
          MotionEffect g0 (fun x => x ∉ c :: rest ∧ ∀ d ∈ c :: rest, ¬ StrictlyBelow g0 d x)
            (fun x => x ∈ c :: rest ∨ ∃ d ∈ c :: rest, StrictlyBelow g0 d x) g lg res' := by
        intro res' he
        obtain ⟨h1, h2, h3, new, h4, h5⟩ := he
        refine ⟨h1, h2, ?_, _, by rw [h4, s4, List.append_assoc], ?_⟩
        · intro x hx
          rw [h3 x hx]
          exact s2 x (fun e => hx.1 (e ▸ List.mem_cons_self _ _))
        · intro e he
          rcases List.mem_append.mp he with he | he
          · split at he
            · simp only [List.mem_singleton] at he
              exact ⟨c, _, _, he, Or.inl (List.mem_cons_self _ _)⟩
            · cases he
          · exact h5 e he
      split at hr
      · cases hc : call (enterStep g lg c p ((g c).contains (p - (g W).mPos))
            ((g c).contains (p - (g W).mPos - rel))).1
          (enterStep g lg c p ((g c).contains (p - (g W).mPos))
            ((g c).contains (p - (g W).mPos - rel))).2 c
          (p - ((enterStep g lg c p ((g c).contains (p - (g W).mPos))
            ((g c).contains (p - (g W).mPos - rel))).1 W).mPos) with
        | none => simp [hc] at hr
        | some res2 =>
          obtain ⟨g2, lg2, r2⟩ := res2
          obtain ⟨c1, c2, c3, new2, c4, c5⟩ := hcall _ _ _ _ _ hgs hc
          simp only at c1 c2 c3 c4
          subst c1
          simp only [hc] at hr
          have hrest := hweak g2 lg2 (ih g2 lg2 res c2 hr)
          apply hstep
          obtain ⟨h1, h2, h3, new, h4, h5⟩ := hrest
          refine ⟨h1, h2, ?_, new2 ++ new, by rw [h4, c4, List.append_assoc], ?_⟩
          · intro x hx
            rw [h3 x hx]
            exact c3 x (hx.2 c (List.mem_cons_self _ _))
          · intro e he
            rcases List.mem_append.mp he with he | he
            · obtain ⟨x, q, f, hxe, hx⟩ := c5 e he
              exact ⟨x, q, f, hxe, Or.inr ⟨c, List.mem_cons_self _ _, hx⟩⟩
            · exact h5 e he
      · exact hstep res (hweak _ _ (ih _ _ res hgs hr))

theorem motionEffect_trans {g0 : Heap} {keep touched : Nat → Prop} {g : Heap}
    {lg : List Event} {res1 res : Heap × List Event × Bool}
    (h1 : MotionEffect g0 keep touched g lg res1)
    (h2 : MotionEffect g0 keep touched res1.1 res1.2.1 res) :
    MotionEffect g0 keep touched g lg res := by
  obtain ⟨_, _, a3, new1, a4, a5⟩ := h1
  obtain ⟨b1, b2, b3, new2, b4, b5⟩ := h2
  refine ⟨b1, b2, fun x hx => by rw [b3 x hx, a3 x hx], new1 ++ new2,
    by rw [b4, a4, List.append_assoc], ?_⟩
  intro e he
  rcases List.mem_append.mp he with he | he
  · exact a5 e he
  · exact b5 e he

theorem mouseMotionEvent_frame (rel : ivec2) (button modifiers : Int) (g0 : Heap) :
    ∀ (n : Nat) (g : Heap) (lg : List Event) (v : Nat) (q : ivec2)
      (res : Heap × List Event × Bool), OnlyMouseFocus g0 g →
      mouseMotionEvent n g lg v q rel button modifiers = some res →
      MotionEffect g0 (fun x => ¬ StrictlyBelow g0 v x) (fun x => StrictlyBelow g0 v x)
        g lg res := by
  intro n
  induction n with
  | zero => intro g lg v q res _ hr; simp [mouseMotionEvent] at hr
  | succ n ih =>
    intro g lg v q res hg hr
    simp only [mouseMotionEvent] at hr
    have hl := motionLoop_frame _ g0 v q rel
      (fun g lg d q res hg hc => ih g lg d q res hg hc) _ g lg res hg hr
    have hch : (g v).mChildren = (g0 v).mChildren := (onlyMouseFocus_fields hg v).2.2.2
    refine motionEffect_mono hl ?_ ?_
    · intro x hx
      refine ⟨fun hm => hx ⟨x, ?_, InSubtree.root⟩, fun d hd hb => hx ⟨d, ?_, ?_⟩⟩
      · rw [← hch]; exact List.mem_reverse.mp hm
      · rw [← hch]; exact List.mem_reverse.mp hd
      · exact strictlyBelow_inSubtree hb
    · intro x hx
      rcases hx with hx | ⟨d, hd, hb⟩
      · exact ⟨x, by rw [← hch]; exact List.mem_reverse.mp hx, InSubtree.root⟩
      · exact ⟨d, by rw [← hch]; exact List.mem_reverse.mp hd, strictlyBelow_inSubtree hb⟩

theorem countP_isEnter_of_untouched (c : Nat) (f : Bool) (touched : Nat → Prop)
    (ht : ∀ x, touched x → x ≠ c) (new : List Event)
    (hnew : ∀ e ∈ new, ∃ x q f', e = Event.mouseEnter x q f' ∧ touched x) :
    new.countP (Event.isEnter c f) = 0 := by
  rw [List.countP_eq_zero]
  intro e he
  obtain ⟨x, q, f', rfl, hx⟩ := hnew e he
  simp [Event.isEnter, ht x hx]

theorem mouseMotionEvent_returns (rel : ivec2) (button modifiers : Int) (h : Heap)
    (rank : Nat → Nat) (hr : WellRanked h rank) :
    ∀ (n : Nat) (g : Heap) (lg : List Event) (v : Nat) (q : ivec2), OnlyMouseFocus h g →
      rank v < n → ∃ res, mouseMotionEvent n g lg v q rel button modifiers = some res := by
  intro n
  induction n with
  | zero => intro g lg v q _ hv; omega
  | succ n ih =>
    intro g lg v q hg hv
    simp only [mouseMotionEvent]
    have hloop : ∀ (l : List Nat), (∀ d ∈ l, rank d < n) → ∀ gi lgi, OnlyMouseFocus h gi →
        ∃ res, motionLoop
          (fun g lg child q => mouseMotionEvent n g lg child q rel button modifiers)
          v q rel l gi lgi = some res := by
      intro l
      induction l with
      | nil => intro _ gi lgi _; exact ⟨_, rfl⟩
      | cons d l ihl =>
        intro hd gi lgi hgi
        have hl := fun gi lgi hgi => ihl (fun e he => hd e (List.mem_cons_of_mem _ he)) gi lgi hgi
        simp only [motionLoop]
        split
        · exact hl gi lgi hgi
        · have hs := onlyMouseFocus_trans hgi
            (enterStep_spec gi lgi d q ((gi d).contains (q - (gi v).mPos))
              ((gi d).contains (q - (gi v).mPos - rel))).1
          split
          · obtain ⟨res2, h2⟩ := ih _
              (enterStep gi lgi d q ((gi d).contains (q - (gi v).mPos))
                ((gi d).contains (q - (gi v).mPos - rel))).2 d
              (q - ((enterStep gi lgi d q ((gi d).contains (q - (gi v).mPos))
                ((gi d).contains (q - (gi v).mPos - rel))).1 v).mPos) hs
              (hd d (List.mem_cons_self _ _))
            obtain ⟨g2, lg2, r2⟩ := res2
            obtain ⟨c1, c2, _⟩ := mouseMotionEvent_frame rel button modifiers h n _ _ _ _ _ hs h2
            simp only at c1 c2
            subst c1
            simp only [h2]
            exact hl g2 lg2 c2
          · exact hl _ _ hs
    refine hloop _ ?_ g lg hg
    intro d hd
    have hch : (g v).mChildren = (h v).mChildren := (onlyMouseFocus_fields hg v).2.2.2
    have := hr v d (by rw [← hch]; exact List.mem_reverse.mp hd)
    omega

/-- C12. In a tree of widgets of the base class, let `c` be a visible child of `W`, the
children of `W` distinct and `c` not below a child of `W`. During
`W.mouseMotionEvent (p, rel, ...)`, `c->mouseEnterEvent` is called exactly once with
true if `c` contains `p - W.position` but not `p - W.position - rel`, exactly once with
false in the reverse case, and not at all if the two tests agree; afterwards the
mouse-focus flag of `c` is `c.contains (p - W.position)` if the tests differ and is
unchanged otherwise; the call returns false, and it returns in every tree of finite
depth. -/
theorem mouseMotionEvent_enter_leave (h : Heap) (W c : Nat) (p rel : ivec2)
    (button modifiers : Int) (hnd : (h W).mChildren.Nodup) (hc : c ∈ (h W).mChildren)
    (hvis : (h c).mVisible = true) (htree : ∀ d ∈ (h W).mChildren, ¬ StrictlyBelow h d c) :
    (∀ fuel h' events r,
      mouseMotionEvent fuel h [] W p rel button modifiers = some (h', events, r) →
      events.countP (Event.isEnter c true) =
        (if (h c).contains (p - (h W).mPos) = true ∧
            (h c).contains (p - (h W).mPos - rel) = false then 1 else 0) ∧
      events.countP (Event.isEnter c false) =
        (if (h c).contains (p - (h W).mPos - rel) = true ∧
            (h c).contains (p - (h W).mPos) = false then 1 else 0) ∧
      (h' c).mMouseFocus =
        (if (h c).contains (p - (h W).mPos) != (h c).contains (p - (h W).mPos - rel) then
          (h c).contains (p - (h W).mPos) else (h c).mMouseFocus) ∧
      r = false) ∧
    (∀ rank, WellRanked h rank → ∀ fuel, rank W < fuel →
      ∃ res, mouseMotionEvent fuel h [] W p rel button modifiers = some res) := by
  constructor
  · intro fuel h' events r hrun
    cases fuel with
    | zero => simp [mouseMotionEvent] at hrun
    | succ n =>
      simp only [mouseMotionEvent] at hrun
      have hframe : ∀ g lg d q res, OnlyMouseFocus h g →
          mouseMotionEvent n g lg d q rel button modifiers = some res →
          MotionEffect h (fun x => ¬ StrictlyBelow h d x) (fun x => StrictlyBelow h d x)
            g lg res :=
        fun g lg d q res hg hr => mouseMotionEvent_frame rel button modifiers h n g lg d q res hg hr
      have hcount : (h W).mChildren.reverse.count c = 1 := by
        rw [List.count_reverse]
        exact List.count_eq_one_of_mem hnd hc
      obtain ⟨pre, post, hsplit, hpre, hpost⟩ := split_of_count_eq_one _ c hcount
      have hmem : ∀ d, d ∈ pre ∨ d ∈ post → d ∈ (h W).mChildren := by
        intro d hd
        rw [← List.mem_reverse, hsplit]
        rcases hd with hd | hd
        · exact List.mem_append_left _ hd
        · exact List.mem_append_right _ (List.mem_cons_of_mem _ hd)
      -- effects that keep `c` and do not call it
      have hside : ∀ (l : List Nat), (∀ d ∈ l, d ∈ (h W).mChildren) → c ∉ l →
          ∀ g lg res, OnlyMouseFocus h g →
          motionLoop (fun g lg child q => mouseMotionEvent n g lg child q rel button modifiers)
            W p rel l g lg = some res →
          MotionEffect h (fun x => x = c) (fun x => x ≠ c) g lg res := by
        intro l hl hcl g lg res hg hr
        refine motionEffect_mono (motionLoop_frame _ h W p rel hframe l g lg res hg hr) ?_ ?_
        · rintro x rfl
          exact ⟨hcl, fun d hd => htree d (hl d hd)⟩
        · intro x hx
          rcases hx with hx | ⟨d, hd, hb⟩
          · exact fun e => hcl (e ▸ hx)
          · exact fun e => htree d (hl d hd) (e ▸ hb)
      rw [hsplit, motionLoop_append] at hrun
      cases h1 : motionLoop
          (fun g lg child q => mouseMotionEvent n g lg child q rel button modifiers)
          W p rel pre h [] with
      | none => simp [h1] at hrun
      | some res1 =>
        obtain ⟨g1, lg1, r1⟩ := res1
        obtain ⟨a1, a2, a3, new1, a4, a5⟩ :=
          hside pre (fun d hd => hmem d (Or.inl hd)) hpre h [] _ (onlyMouseFocus_refl h) h1
        simp only at a1 a2 a3 a4
        subst a1
        simp only [h1] at hrun
        have hgc : g1 c = h c := a3 c rfl
        have hW : (g1 W).mPos = (h W).mPos := (onlyMouseFocus_fields a2 W).2.1
        have hv1 : ¬ (h c).mVisible = false := by rw [hvis]; simp
        simp only [motionLoop, hgc, hW, if_neg hv1] at hrun
        obtain ⟨s1, s2, s3, s4⟩ := enterStep_spec g1 lg1 c p ((h c).contains (p - (h W).mPos))
          ((h c).contains (p - (h W).mPos - rel))
        have hgs := onlyMouseFocus_trans a2 s1
        have hafter : MotionEffect h (fun x => x = c) (fun x => x ≠ c)
            (enterStep g1 lg1 c p ((h c).contains (p - (h W).mPos))
              ((h c).contains (p - (h W).mPos - rel))).1
            (enterStep g1 lg1 c p ((h c).contains (p - (h W).mPos))
              ((h c).contains (p - (h W).mPos - rel))).2 (h', events, r) := by
          by_cases hor : ((h c).contains (p - (h W).mPos) ||
              (h c).contains (p - (h W).mPos - rel)) = true
          · rw [if_pos hor] at hrun
            cases hcall : mouseMotionEvent n
                (enterStep g1 lg1 c p ((h c).contains (p - (h W).mPos))
                  ((h c).contains (p - (h W).mPos - rel))).1
                (enterStep g1 lg1 c p ((h c).contains (p - (h W).mPos))
                  ((h c).contains (p - (h W).mPos - rel))).2 c
                (p - ((enterStep g1 lg1 c p ((h c).contains (p - (h W).mPos))
                  ((h c).contains (p - (h W).mPos - rel))).1 W).mPos) rel button modifiers with
            | none => simp [hcall] at hrun
            | some res2 =>
              obtain ⟨g2, lg2, r2⟩ := res2
              have e2 := hframe _ _ _ _ _ hgs hcall
              have hr2 : r2 = false := e2.1
              subst hr2
              simp only [hcall] at hrun
              have e2' : MotionEffect h (fun x => x = c) (fun x => x ≠ c) _ _ (g2, lg2, false) :=
                motionEffect_mono e2 (fun x hx => hx ▸ htree c hc)
                  (fun x hx e => htree c hc (e ▸ hx))
              exact motionEffect_trans e2'
                (hside post (fun d hd => hmem d (Or.inr hd)) hpost g2 lg2 _ e2.2.1 hrun)
          · rw [if_neg hor] at hrun
            exact hside post (fun d hd => hmem d (Or.inr hd)) hpost _ _ _ hgs hrun
        obtain ⟨b1, _, b3, new3, b4, b5⟩ := hafter
        simp only at b1 b3 b4
        have hz1 : ∀ f, new1.countP (Event.isEnter c f) = 0 := fun f =>
          countP_isEnter_of_untouched c f _ (fun _ hx => hx) new1 a5
        have hz3 : ∀ f, new3.countP (Event.isEnter c f) = 0 := fun f =>
          countP_isEnter_of_untouched c f _ (fun _ hx => hx) new3 b5
        have hev : ∀ f, events.countP (Event.isEnter c f) =
            (if ((h c).contains (p - (h W).mPos) != (h c).contains (p - (h W).mPos - rel)) = true
              then [Event.mouseEnter c p ((h c).contains (p - (h W).mPos))]
              else []).countP (Event.isEnter c f) := by
          intro f
          rw [b4, s4, a4, List.countP_append, List.countP_append, List.countP_append, hz1, hz3]
          simp
        refine ⟨?_, ?_, ?_, b1⟩
        · rw [hev]
          cases (h c).contains (p - (h W).mPos) <;>
            cases (h c).contains (p - (h W).mPos - rel) <;> simp [Event.isEnter]
        · rw [hev]
          cases (h c).contains (p - (h W).mPos) <;>
            cases (h c).contains (p - (h W).mPos - rel) <;> simp [Event.isEnter]
        · rw [b3 c rfl, s3, hgc]
  · intro rank hr fuel hf
    exact mouseMotionEvent_returns rel button modifiers h rank hr fuel h [] W p
      (onlyMouseFocus_refl h) hf

theorem exTree_child_not_below : ∀ d ∈ (exTree 0).mChildren, ¬ StrictlyBelow exTree d 1 := by
  intro d hd
  have hd' : d = 1 ∨ d = 2 := by simpa [exTree] using hd
  rcases hd' with rfl | rfl
  · exact not_strictlyBelow_leaf exTree 1 1 rfl
  · rintro ⟨c, hc, hsub⟩
    have hc3 : c = 3 := by simpa [exTree] using hc
    subst hc3
    have := inSubtree_leaf exTree 3 1 rfl hsub
    cases this

/-- Witness for C12: the pointer moves by (20,20) to (26,26) in `exTree` and enters
widget 1, a visible child of the root: one call with true, none with false, and the
mouse-focus flag of widget 1 is set. -/
theorem mouseMotionEvent_enter_leave_witness :
    (exTree 0).mChildren.Nodup ∧ 1 ∈ (exTree 0).mChildren ∧ (exTree 1).mVisible = true ∧
      ∃ h' events r, mouseMotionEvent 3 exTree [] 0 ⟨26, 26⟩ ⟨20, 20⟩ 0 0 =
          some (h', events, r) ∧
        events.countP (Event.isEnter 1 true) = 1 ∧
        events.countP (Event.isEnter 1 false) = 0 ∧
        (h' 1).mMouseFocus = true ∧ r = false :=
  ⟨by decide, by decide, rfl, _, _, _, rfl,
    (mouseMotionEvent_enter_leave exTree 0 1 ⟨26, 26⟩ ⟨20, 20⟩ 0 0 (by decide) (by decide)
      rfl exTree_child_not_below).1 3 _ _ _ rfl⟩

/-! ## `fontSize` and `hasFontSize` (C23) -/

/-- The two readers of `mFontSize` agree for every stored value other than 0: with a
theme `t`, a widget without font size reports the standard font size of the theme and a
widget with a font size reports the stored value. -/
theorem fontSize_of_nonzero (standardFontSize : Nat → Int) (h : Heap) (self t : Nat) (v : Int)
    (ht : (h self).mTheme = some t) (hv : v ≠ 0) :
    ((setFontSize h self v self).hasFontSize = false →
      fontSize standardFontSize (setFontSize h self v) self = some (standardFontSize t)) ∧
    ((setFontSize h self v self).hasFontSize = true →
      fontSize standardFontSize (setFontSize h self v) self = some v) := by
  have hg : setFontSize h self v self = { h self with mFontSize := v } := by
    simp [setFontSize, Heap.set]
  simp only [fontSize, Widget.hasFontSize, hg, decide_eq_false_iff_not, decide_eq_true_eq, ht,
    Option.map_some']
  constructor
  · intro hn
    have : v < 0 := by omega
    rw [if_pos this]
  · intro hp
    have : ¬ v < 0 := by omega
    rw [if_neg this]

/-- C23, at the stored value 0: after `setFontSize (0)` on widget 1 of `exThemed`, whose
theme has the standard font size 16, `hasFontSize ()` is false and `fontSize ()` returns
the stored 0, not the standard font size 16 of the theme; with the stored value -1 it
returns 16 and with the stored value 12 it returns 12. -/
theorem fontSize_zero_divergence :
    (setFontSize exThemed 1 0 1).mTheme = some 7 ∧ exStandardFontSize 7 = 16 ∧
      (setFontSize exThemed 1 0 1).hasFontSize = false ∧
      fontSize exStandardFontSize (setFontSize exThemed 1 0) 1 = some 0 ∧
      fontSize exStandardFontSize (setFontSize exThemed 1 (-1)) 1 = some 16 ∧
      fontSize exStandardFontSize (setFontSize exThemed 1 12) 1 = some 12 := by
  refine ⟨rfl, rfl, rfl, rfl, rfl, rfl⟩

/-! ## Reference counts and membership (C21) -/

theorem addChild_refCount_at (h : Heap) (P w x : Nat) :
    (addChild h P w x).refCount = (h x).refCount + if x = w then 1 else 0 := by
  by_cases hw : x = w
  · subst hw; rw [if_pos rfl]; exact addChild_refCount h P x
  · rw [if_neg hw]
    by_cases hx : x = P
    · subst hx; simp [addChild, incRef, setParent, hw]
    · simp [addChild, incRef, setParent, hx, hw]

theorem removeChild_refCount_at (h : Heap) (P w x : Nat) :
    (removeChild h P w x).refCount = (h x).refCount - if x = w then 1 else 0 := by
  by_cases hw : x = w
  · subst hw
    rw [if_pos rfl]
    by_cases hx : x = P
    · subst hx; simp [removeChild, decRef]
    · simp [removeChild, decRef, hx]
  · rw [if_neg hw]
    by_cases hx : x = P
    · subst hx; simp [removeChild, decRef, hw]
    · simp [removeChild, decRef, hx, hw]

theorem removeChildAt_refCount_at (h : Heap) (P : Nat) (i : Int) (g : Heap)
    (hr : removeChildAt h P i = some g) :
    ∃ b, (h P).mChildren.get? i.toNat = some b ∧
      ∀ x, (g x).refCount = (h x).refCount - if x = b then 1 else 0 := by
  unfold removeChildAt at hr
  split at hr
  · split at hr
    · rename_i widget hget
      simp only [Option.some.injEq] at hr
      subst hr
      refine ⟨widget, hget, ?_⟩
      intro x
      by_cases hw : x = widget
      · subst hw
        rw [if_pos rfl]
        by_cases hx : x = P
        · subst hx; simp [decRef]
        · simp [decRef, hx]
      · rw [if_neg hw]
        by_cases hx : x = P
        · subst hx; simp [decRef, hw]
        · simp [decRef, hx, hw]
    · cases hr
  · cases hr

theorem count_eraseIdx_of_get (l : List Nat) : ∀ (i : Nat) (b w : Nat), l.get? i = some b →
    ((l.eraseIdx i).count w : Int) = (l.count w : Int) - if w = b then 1 else 0 := by
  induction l with
  | nil => intro i b w hi; simp at hi
  | cons a l ih =>
    intro i b w hi
    cases i with
    | zero =>
      simp only [List.get?_cons_zero, Option.some.injEq] at hi
      subst hi
      simp only [List.eraseIdx_cons_zero, List.count_cons, beq_iff_eq]
      by_cases hw : w = a
      · subst hw; simp
      · have : ¬ a = w := fun e => hw e.symm
        simp [hw, this]
    | succ i =>
      simp only [List.get?_cons_succ] at hi
      have := ih i b w hi
      simp only [List.eraseIdx_cons_succ, List.count_cons, Nat.cast_add]
      rw [this]
      omega

theorem count_filter_ne (l : List Nat) (w v : Nat) :
    (l.filter (fun c => c != w)).count v = if v = w then 0 else l.count v := by
  induction l with
  | nil => simp
  | cons a l ih =>
    by_cases ha : a = w
    · subst ha
      simp only [List.filter_cons, bne_self_eq_false, Bool.false_eq_true, if_false, ih,
        List.count_cons, beq_iff_eq]
      by_cases hv : v = a
      · simp [hv]
      · have : ¬ a = v := fun e => hv e.symm
        simp [hv, this]
    · have hne : (a != w) = true := by simpa using ha
      simp only [List.filter_cons, hne, if_true, List.count_cons, ih, beq_iff_eq]
      by_cases hv : v = w
      · subst hv
        have : ¬ a = v := ha
        simp [this]
      · simp [hv]

/-- One call keeps the balance between reference counts and occurrences, when a
`removeChild (w)` call finds `w` exactly once. -/
theorem applyCall_balance (P : Nat) (h g : Heap) (c : ChildCall)
    (hr : applyCall P h c = some g)
    (hone : ∀ w, c = .remove w → (h P).mChildren.count w = 1) (v : Nat) :
    netReferences h g v = occurrences g P v - occurrences h P v := by
  unfold netReferences occurrences
  cases c with
  | add w =>
    simp only [applyCall, Option.some.injEq] at hr
    subst hr
    rw [addChild_refCount_at, addChild_children, List.count_append]
    by_cases hv : v = w
    · subst hv; simp
    · have : ¬ w = v := fun e => hv e.symm
      simp [hv, this, List.count_cons]
  | remove w =>
    simp only [applyCall, Option.some.injEq] at hr
    subst hr
    rw [removeChild_refCount_at, removeChild_children, count_filter_ne]
    by_cases hv : v = w
    · subst hv
      have := hone v rfl
      simp [this]
    · simp [hv]
  | removeAt i =>
    simp only [applyCall] at hr
    obtain ⟨b, hb, href⟩ := removeChildAt_refCount_at h P i g hr
    rw [href v, (removeChildAt_fields h P i g hr P).2, if_pos rfl,
      count_eraseIdx_of_get _ _ b v hb]
    omega

theorem applyCalls_balance (P : Nat) : ∀ (calls : List ChildCall) (h g : Heap),
    applyCalls P h calls = some g → removesListedOnce P h calls = true →
      ∀ v, netReferences h g v = occurrences g P v - occurrences h P v := by
  intro calls
  induction calls with
  | nil =>
    intro h g hr _ v
    simp only [applyCalls, Option.some.injEq] at hr
    subst hr
    simp [netReferences]
  | cons c cs ih =>
    intro h g hr hone v
    simp only [applyCalls] at hr
    cases h1 : applyCall P h c with
    | none => simp [h1] at hr
    | some g1 =>
      simp only [h1, Option.some_bind] at hr
      simp only [removesListedOnce, h1, Bool.and_eq_true] at hone
      have hstep := applyCall_balance P h g1 c h1 (by
        intro w hw
        subst hw
        simpa using hone.1) v
      have hrest := ih g1 g hr hone.2 v
      unfold netReferences at *
      omega

theorem applyCall_defined_iff (P : Nat) (h : Heap) (c : ChildCall) :
    (∃ g, applyCall P h c = some g) ↔
      ∀ i, c = .removeAt i → 0 ≤ i ∧ i < childCount h P := by
  cases c with
  | add w => simp [applyCall]
  | remove w => simp [applyCall]
  | removeAt i =>
    simp only [applyCall, ChildCall.removeAt.injEq, forall_eq']
    constructor
    · rintro ⟨g, hg⟩
      unfold removeChildAt at hg
      split at hg
      · assumption
      · cases hg
    · intro hi
      have hlt : i.toNat < (h P).mChildren.length := by
        have := hi.2
        unfold childCount at this
        omega
      exact ⟨_, removeChildAt_eq h P i _ hi.1 hi.2 (List.get?_eq_get hlt)⟩

/-- Counterexample to C21 as stated. On a parent 0 without children, `removeChild (1)`
for the widget 1 that is not a child releases a reference that was never taken: the net
number of references is -1 with 0 occurrences. After `addChild (1)` twice and one
`removeChild (1)` the net number is 1 with 0 occurrences. And with children [1],
`addChild (1)` followed by `removeChild (1)` leaves no children. -/
theorem refCount_balance_counterexample :
    (∃ g, applyCalls 0 exEmpty.heap [.remove 1] = some g ∧
      netReferences exEmpty.heap g 1 = -1 ∧ occurrences g 0 1 = 0) ∧
    (∃ g, applyCalls 0 exEmpty.heap [.add 1, .add 1, .remove 1] = some g ∧
      netReferences exEmpty.heap g 1 = 1 ∧ occurrences g 0 1 = 0) ∧
    ((addChild exEmpty.heap 0 1 0).mChildren = [1] ∧
      (removeChild (addChild (addChild exEmpty.heap 0 1) 0 1) 0 1 0).mChildren = []) :=
  ⟨⟨_, rfl, by decide, by decide⟩, ⟨_, rfl, by decide, by decide⟩, by decide, by decide⟩

/-- C21, as amended. A call on `P` is defined exactly when it is not a `removeChild
(index)` with an index out of range. After every defined sequence of `addChild (w)`,
`removeChild (w)` and `removeChild (index)` calls on `P` in which each `removeChild (w)`
is made when `w` occurs exactly once among the children of `P`, the net number of
references taken on each widget `w` is the change of the number of its occurrences in
`P.children()`, so it is the number of occurrences when `P` had no children at the
start. For a widget `w` that is not a child of `P`, `addChild (w)` followed by
`removeChild (w)` is such a sequence and restores the children sequence and the
reference count of `w`. -/
theorem refCount_balance (P : Nat) (h : Heap) :
    (∀ c, (∃ g, applyCall P h c = some g) ↔
      ∀ i, c = .removeAt i → 0 ≤ i ∧ i < childCount h P) ∧
    (∀ calls g, applyCalls P h calls = some g → removesListedOnce P h calls = true →
      ∀ w, netReferences h g w = occurrences g P w - occurrences h P w) ∧
    (∀ calls g, (h P).mChildren = [] → applyCalls P h calls = some g →
      removesListedOnce P h calls = true → ∀ w, netReferences h g w = occurrences g P w) ∧
    (∀ w, w ∉ (h P).mChildren →
      applyCalls P h [.add w, .remove w] = some (removeChild (addChild h P w) P w) ∧
      removesListedOnce P h [.add w, .remove w] = true ∧
      (removeChild (addChild h P w) P w P).mChildren = (h P).mChildren ∧
      (removeChild (addChild h P w) P w w).refCount = (h w).refCount) := by
  refine ⟨applyCall_defined_iff P h, fun calls g => applyCalls_balance P calls h g, ?_, ?_⟩
  · intro calls g hnil hr hone w
    have := applyCalls_balance P calls h g hr hone w
    rw [this]
    simp [occurrences, hnil]
  · intro w hw
    have hcount : (addChild h P w P).mChildren.count w = 1 := by
      rw [addChild_children, List.count_append, List.count_eq_zero_of_not_mem hw]
      simp
    refine ⟨rfl, ?_, ?_, ?_⟩
    · simp [removesListedOnce, applyCall, hcount]
    · rw [removeChild_children, addChild_children, List.filter_append]
      have : (h P).mChildren.filter (fun c => c != w) = (h P).mChildren :=
        List.filter_eq_self.mpr (fun a ha => by
          have : a ≠ w := fun e => hw (e ▸ ha)
          simpa using this)
      simp [this]
    · rw [removeChild_refCount_at, addChild_refCount_at]
      simp

/-- Witness for C21 as amended: the calls `exCalls` on the parent 0 without children. -/
theorem refCount_balance_witness :
    removesListedOnce 0 exEmpty.heap exCalls = true ∧
      ∃ g, applyCalls 0 exEmpty.heap exCalls = some g ∧ (g 0).mChildren = [3] ∧
        ∀ w, netReferences exEmpty.heap g w =
          occurrences g 0 w - occurrences exEmpty.heap 0 w :=
  ⟨by decide, _, rfl, by decide,
    (refCount_balance 0 exEmpty.heap).2.1 exCalls _ rfl (by decide)⟩

/-! ## `performLayout` in a tree without layouts (C24) -/

theorem layoutSize_idem (fix s : ivec2) : layoutSize fix (layoutSize fix s) = layoutSize fix s := by
  rw [ivec2_ext_iff]
  simp only [layoutSize]
  constructor
  · by_cases hx : fix.x ≠ 0
    · simp [hx]
    · simp [hx]
  · by_cases hy : fix.y ≠ 0
    · simp [hy]
    · simp [hy]

theorem laidOut_laidOut (w : Widget) : w.laidOut.laidOut = w.laidOut := by
  simp [Widget.laidOut, layoutSize_idem]

theorem laidOut_onlySize (w : Widget) : w.laidOut = { w with mSize := w.laidOut.mSize } := rfl

theorem sameShape_symm {g g' : Heap} (hs : SameShape g g') : SameShape g' g :=
  fun x => ⟨(hs x).1.symm, (hs x).2.symm⟩

theorem onlySizes_refl (h : Heap) : OnlySizes h h := fun _ => rfl

theorem onlySizes_sameShape {h g : Heap} (hs : OnlySizes h g) : SameShape h g := by
  intro x
  rw [hs x]
  exact ⟨rfl, rfl⟩

theorem onlySizes_noLayouts {h g : Heap} (hs : OnlySizes h g) (hno : NoLayouts h) :
    NoLayouts g := by
  intro x
  rw [hs x]
  exact hno x

theorem wellRanked_of_sameShape {h g : Heap} (hs : SameShape h g) (rank : Nat → Nat)
    (hr : WellRanked h rank) : WellRanked g rank := by
  intro P c hc
  exact hr P c (by rw [← (hs P).1]; exact hc)

theorem inSubtree_cases {h : Heap} {d x : Nat} (hx : InSubtree h d x) :
    x = d ∨ StrictlyBelow h d x := by
  induction hx with
  | root => exact Or.inl rfl
  | child P c _ hc ih =>
    rcases ih with rfl | ⟨c0, hc0, hsub⟩
    · exact Or.inr ⟨c, hc, InSubtree.root⟩
    · exact Or.inr ⟨c0, hc0, InSubtree.child P c hsub hc⟩

theorem inSubtree_rank_le (h : Heap) (rank : Nat → Nat) (hr : WellRanked h rank) {r x : Nat}
    (hx : InSubtree h r x) : rank x ≤ rank r := by
  induction hx with
  | root => exact Nat.le_refl _
  | child P c _ hc ih => exact Nat.le_of_lt (Nat.lt_of_lt_of_le (hr P c hc) ih)

theorem strictlyBelow_rank_lt (h : Heap) (rank : Nat → Nat) (hr : WellRanked h rank) {v x : Nat}
    (hx : StrictlyBelow h v x) : rank x < rank v := by
  obtain ⟨c, hc, hsub⟩ := hx
  exact Nat.lt_of_le_of_lt (inSubtree_rank_le h rank hr hsub) (hr v c hc)

theorem layoutChild_noLayout (L : LayoutOps) (n : Nat) (g : Heap) (d : Nat)
    (hno : NoLayouts g) :
    layoutChild L n g d = performLayout L n (g.set d (g d).laidOut) d := by
  have hp : preferredSize L g d = (g d).mSize := by simp [preferredSize, hno d]
  unfold layoutChild
  rw [hp]
  rfl

theorem foldlM_layoutChild_spec (L : LayoutOps) (n : Nat)
    (ih : ∀ h v g, NoLayouts h → performLayout L n h v = some g → LaidOutBelow h v g)
    (h : Heap) (hno : NoLayouts h) :
    ∀ (l : List Nat) (S : Nat → Prop) (g g' : Heap),
      (∀ x, (S x → g x = (h x).laidOut) ∧ (¬ S x → g x = h x)) →
      l.foldlM (layoutChild L n) g = some g' →
      ∀ x, ((S x ∨ ∃ d ∈ l, InSubtree h d x) → g' x = (h x).laidOut) ∧
        (¬ (S x ∨ ∃ d ∈ l, InSubtree h d x) → g' x = h x) := by
  intro l
  induction l with
  | nil =>
    intro S g g' hinv hr x
    simp only [List.foldlM_nil, Option.pure_def, Option.some.injEq] at hr
    subst hr
    simp only [List.not_mem_nil, false_and, exists_false, or_false]
    exact hinv x
  | cons d l ihl =>
    intro S g g' hinv hr x
    simp only [List.foldlM_cons, Option.bind_eq_bind] at hr
    have hval : ∀ y, g y = h y ∨ g y = (h y).laidOut := fun y => by
      by_cases hS : S y
      · exact Or.inr ((hinv y).1 hS)
      · exact Or.inl ((hinv y).2 hS)
    have hlaid : ∀ y, (g y).laidOut = (h y).laidOut := fun y => by
      rcases hval y with e | e
      · rw [e]
      · rw [e, laidOut_laidOut]
    have hos : OnlySizes h g := fun y => by
      rcases hval y with e | e
      · rw [e]
      · rw [e]; rfl
    have hnog : NoLayouts g := onlySizes_noLayouts hos hno
    rw [layoutChild_noLayout L n g d hnog] at hr
    cases h1 : performLayout L n (g.set d (g d).laidOut) d with
    | none => simp [h1] at hr
    | some g1 =>
      simp only [h1, Option.some_bind] at hr
      have hos0 : OnlySizes g (g.set d (g d).laidOut) := fun y => by
        by_cases hy : y = d
        · subst hy; simp only [heap_set_same]; rfl
        · simp only [heap_set_other _ _ _ _ hy]
      have hshape : SameShape h (g.set d (g d).laidOut) :=
        sameShape_trans (onlySizes_sameShape hos) (onlySizes_sameShape hos0)
      have hspec := ih _ d g1 (onlySizes_noLayouts hos0 hnog) h1
      have hinv1 : ∀ y, ((S y ∨ InSubtree h d y) → g1 y = (h y).laidOut) ∧
          (¬ (S y ∨ InSubtree h d y) → g1 y = h y) := by
        intro y
        by_cases hb : StrictlyBelow (g.set d (g d).laidOut) d y
        · have e1 := (hspec y).1 hb
          have hsub : InSubtree h d y :=
            strictlyBelow_inSubtree (strictlyBelow_of_sameShape hshape hb)
          have e2 : g1 y = (h y).laidOut := by
            rw [e1]
            by_cases hy : y = d
            · subst hy; rw [heap_set_same, laidOut_laidOut, hlaid]
            · rw [heap_set_other _ _ _ _ hy, hlaid]
          exact ⟨fun _ => e2, fun hn => absurd (Or.inr hsub) hn⟩
        · have e1 := (hspec y).2 hb
          by_cases hy : y = d
          · subst hy
            have e2 : g1 y = (h y).laidOut := by rw [e1, heap_set_same, hlaid]
            exact ⟨fun _ => e2, fun hn => absurd (Or.inr InSubtree.root) hn⟩
          · rw [heap_set_other _ _ _ _ hy] at e1
            have hnsub : ¬ InSubtree h d y := by
              intro hsub
              rcases inSubtree_cases hsub with e | hb'
              · exact hy e
              · exact hb (strictlyBelow_of_sameShape (sameShape_symm hshape) hb')
            constructor
            · rintro (hS | hsub)
              · rw [e1]; exact (hinv y).1 hS
              · exact absurd hsub hnsub
            · intro hn
              rw [e1]
              exact (hinv y).2 (fun hS => hn (Or.inl hS))
      have hfin := ihl (fun y => S y ∨ InSubtree h d y) g1 g' hinv1 hr x
      constructor
      · rintro (hS | ⟨e, he, hsub⟩)
        · exact hfin.1 (Or.inl (Or.inl hS))
        · rcases List.mem_cons.mp he with rfl | he
          · exact hfin.1 (Or.inl (Or.inr hsub))
          · exact hfin.1 (Or.inr ⟨e, he, hsub⟩)
      · intro hn
        apply hfin.2
        rintro ((hS | hsub) | ⟨e, he, hsub⟩)
        · exact hn (Or.inl hS)
        · exact hn (Or.inr ⟨d, List.mem_cons_self _ _, hsub⟩)
        · exact hn (Or.inr ⟨e, List.mem_cons_of_mem _ he, hsub⟩)

/-- Without layouts, a run of `performLayout` on `v` lays out the widgets strictly below
`v` and leaves every other widget as it was. -/
theorem performLayout_laidOutBelow (L : LayoutOps) :
    ∀ (n : Nat) (h : Heap) (v : Nat) (g : Heap), NoLayouts h →
      performLayout L n h v = some g → LaidOutBelow h v g := by
  intro n
  induction n with
  | zero => intro h v g _ hr; simp [performLayout] at hr
  | succ n ih =>
    intro h v g hno hr
    rw [performLayout_succ] at hr
    simp only [hno v] at hr
    have := foldlM_layoutChild_spec L n ih h hno (h v).mChildren (fun _ => False) h g
      (fun x => ⟨fun hF => absurd hF id, fun _ => rfl⟩) hr
    intro x
    have hx := this x
    simp only [false_or] at hx
    exact hx

theorem laidOutBelow_onlySizes {h g : Heap} {v : Nat} (hs : LaidOutBelow h v g) :
    OnlySizes h g := by
  intro x
  by_cases hb : StrictlyBelow h v x
  · rw [(hs x).1 hb]; rfl
  · rw [(hs x).2 hb]

theorem onlySizes_trans {g1 g2 g3 : Heap} (h12 : OnlySizes g1 g2) (h23 : OnlySizes g2 g3) :
    OnlySizes g1 g3 := by
  intro x
  have e1 := h12 x
  have e2 := h23 x
  rw [e2]
  rw [e1]

theorem onlySizes_set_laidOut (g : Heap) (d : Nat) : OnlySizes g (g.set d (g d).laidOut) := by
  intro y
  by_cases hy : y = d
  · subst hy; simp only [heap_set_same]; rfl
  · simp only [heap_set_other _ _ _ _ hy]

theorem performLayout_noLayouts_returns (L : LayoutOps) (h : Heap) (rank : Nat → Nat)
    (hno : NoLayouts h) (hr : WellRanked h rank) :
    ∀ (n : Nat) (g : Heap) (v : Nat), OnlySizes h g → rank v < n →
      ∃ g', performLayout L n g v = some g' := by
  intro n
  induction n with
  | zero => intro g v _ hv; omega
  | succ n ih =>
    intro g v hs hv
    rw [performLayout_succ]
    simp only [onlySizes_noLayouts hs hno v]
    have hloop : ∀ (l : List Nat), (∀ d ∈ l, rank d < n) → ∀ gi, OnlySizes h gi →
        ∃ g', l.foldlM (layoutChild L n) gi = some g' := by
      intro l
      induction l with
      | nil => intro _ gi _; exact ⟨gi, rfl⟩
      | cons d l ihl =>
        intro hd gi hsi
        have hnoi := onlySizes_noLayouts hsi hno
        have hs0 := onlySizes_trans hsi (onlySizes_set_laidOut gi d)
        obtain ⟨g1, h1⟩ := ih _ d hs0 (hd d (List.mem_cons_self _ _))
        have hs1 := laidOutBelow_onlySizes
          (performLayout_laidOutBelow L n _ d g1 (onlySizes_noLayouts hs0 hno) h1)
        obtain ⟨g2, h2⟩ :=
          ihl (fun e he => hd e (List.mem_cons_of_mem _ he)) g1 (onlySizes_trans hs0 hs1)
        refine ⟨g2, ?_⟩
        simp only [List.foldlM_cons, Option.bind_eq_bind]
        rw [layoutChild_noLayout L n gi d hnoi, h1, Option.some_bind, h2]
    refine hloop (g v).mChildren ?_ g hs
    intro d hd
    have := hr v d (by rw [← ((onlySizes_sameShape hs) v).1]; exact hd)
    omega

theorem exFixed_sameShape : SameShape exTree exFixed := by
  intro x
  match x with
  | 0 => exact ⟨rfl, rfl⟩
  | 1 => exact ⟨rfl, rfl⟩
  | 2 => exact ⟨rfl, rfl⟩
  | 3 => exact ⟨rfl, rfl⟩
  | n + 4 => exact ⟨rfl, rfl⟩

theorem exFixed_noLayouts : NoLayouts exFixed := by
  intro x
  match x with
  | 0 => rfl
  | 1 => rfl
  | 2 => rfl
  | 3 => rfl
  | n + 4 => rfl

/-- C24. In a tree of finite depth in which no widget has a layout, `W.performLayout`
returns; a second call on the resulting state returns the same state; and a single call
changes only sizes of widgets strictly below `W`: every widget keeps its position,
fixed size, visible, enabled and focused flags, parent pointer and children sequence,
and `W` keeps its size. -/
theorem performLayout_idempotent (L : LayoutOps) (h : Heap) (W : Nat) (rank : Nat → Nat)
    (hno : NoLayouts h) (hr : WellRanked h rank) :
    (∀ fuel, rank W < fuel → ∃ g, performLayout L fuel h W = some g) ∧
    (∀ fuel g, performLayout L fuel h W = some g →
      (∀ fuel2, rank W < fuel2 → performLayout L fuel2 g W = some g) ∧
      (∀ fuel2 g2, performLayout L fuel2 g W = some g2 → g2 = g) ∧
      (∀ x, (g x).mPos = (h x).mPos ∧ (g x).mFixedSize = (h x).mFixedSize ∧
        (g x).mVisible = (h x).mVisible ∧ (g x).mEnabled = (h x).mEnabled ∧
        (g x).mFocused = (h x).mFocused ∧ (g x).mParent = (h x).mParent ∧
        (g x).mChildren = (h x).mChildren) ∧
      OnlySizes h g ∧ (∀ x, ¬ StrictlyBelow h W x → g x = h x) ∧
      (g W).mSize = (h W).mSize) := by
  refine ⟨fun fuel hf =>
    performLayout_noLayouts_returns L h rank hno hr fuel h W (onlySizes_refl h) hf, ?_⟩
  intro fuel g hrun
  have hspec := performLayout_laidOutBelow L fuel h W g hno hrun
  have hos := laidOutBelow_onlySizes hspec
  have hnog := onlySizes_noLayouts hos hno
  have hsame : ∀ fuel2 g2, performLayout L fuel2 g W = some g2 → g2 = g := by
    intro fuel2 g2 hrun2
    have hspec2 := performLayout_laidOutBelow L fuel2 g W g2 hnog hrun2
    funext x
    by_cases hb : StrictlyBelow g W x
    · rw [(hspec2 x).1 hb,
        (hspec x).1 (strictlyBelow_of_sameShape (onlySizes_sameShape hos) hb), laidOut_laidOut]
    · exact (hspec2 x).2 hb
  have hnW : ¬ StrictlyBelow h W W := fun hb =>
    Nat.lt_irrefl _ (strictlyBelow_rank_lt h rank hr hb)
  refine ⟨?_, hsame, ?_, hos, fun x hx => (hspec x).2 hx, by rw [(hspec W).2 hnW]⟩
  · intro fuel2 hf
    obtain ⟨g2, h2⟩ := performLayout_noLayouts_returns L h rank hno hr fuel2 g W hos hf
    rw [h2, hsame fuel2 g2 h2]
  · intro x
    rw [hos x]
    exact ⟨rfl, rfl, rfl, rfl, rfl, rfl, rfl⟩

/-- Witness for C24: `performLayout` on the root of `exFixed` gives widget 1 the size
(30,50) and widget 3 the size (10,7); a second call returns the same state. -/
theorem performLayout_idempotent_witness :
    NoLayouts exFixed ∧ WellRanked exFixed exRank ∧
      ∃ g, performLayout exLayouts 4 exFixed 0 = some g ∧
        (g 1).mSize = ⟨30, 50⟩ ∧ (g 3).mSize = ⟨10, 7⟩ ∧
        performLayout exLayouts 4 g 0 = some g :=
  ⟨exFixed_noLayouts, wellRanked_of_sameShape exFixed_sameShape exRank exTree_wellRanked,
    _, rfl, by decide, by decide,
    ((performLayout_idempotent exLayouts exFixed 0 exRank exFixed_noLayouts
      (wellRanked_of_sameShape exFixed_sameShape exRank exTree_wellRanked)).2 4 _ rfl).1 4
      (by decide)⟩

/-! ## `draw` (C22) -/

theorem draw_succ (n : Nat) (h : Heap) (W : Nat) (ctx : NVGcontext) :
    draw (n + 1) h W ctx =
      if (h W).mChildren.isEmpty then some ctx
      else
        ((h W).mChildren.foldlM (drawChild n h W)
          (nvgTranslate ctx (h W).mPos.x (h W).mPos.y)).map
          (fun c =>
            nvgTranslate c (wrapInt32 (-(h W).mPos.x)) (wrapInt32 (-(h W).mPos.y))) := rfl

theorem drawnBelow_of_child (h : Heap) (W d : Nat) (hd : d ∈ (h W).mChildren)
    (hv : (h d).mVisible = true) (e : DrawCall) (he : DrawnBelow h d e) : DrawnBelow h W e := by
  obtain ⟨hc, below, hpath, hlast, hvis⟩ := he
  refine ⟨inSubtree_of_child h W d _ hd hc, d :: below, ⟨hd, hpath⟩, ?_, ?_⟩
  · rw [List.getLast?_cons_cons]; exact hlast
  · intro a ha
    rcases List.mem_cons.mp ha with rfl | ha
    · exact hv
    · exact hvis a ha

theorem drawnBelow_direct (h : Heap) (W d : Nat) (hd : d ∈ (h W).mChildren)
    (hv : (h d).mVisible = true) (tx ty : Int) : DrawnBelow h W ⟨W, d, tx, ty⟩ := by
  refine ⟨InSubtree.root, [d], ⟨hd, trivial⟩, rfl, ?_⟩
  intro a ha
  rcases List.mem_cons.mp ha with rfl | ha
  · exact hv
  · cases ha

theorem foldlM_drawChild_spec (h : Heap) (rank : Nat → Nat) (hr : WellRanked h rank)
    (n : Nat) (W : Nat)
    (ih : ∀ c ctx ctx', (∀ x, InSubtree h c x → NegatablePos (h x)) →
      draw n h c ctx = some ctx' → DrawEffect h c ctx ctx') :
    ∀ (l : List Nat), (∀ d ∈ l, d ∈ (h W).mChildren) →
      (∀ d ∈ l, ∀ x, InSubtree h d x → NegatablePos (h x)) →
      ∀ (c0 c' : NVGcontext), l.foldlM (drawChild n h W) c0 = some c' →
        c'.tx = c0.tx ∧ c'.ty = c0.ty ∧
          ∃ new, c'.calls = c0.calls ++ new ∧
            (new.filter (fun e => e.caller == W)).map DrawCall.widget =
              l.filter (fun d => (h d).mVisible) ∧
            (∀ e ∈ new, e.caller = W → e.tx = c0.tx ∧ e.ty = c0.ty) ∧
            ∀ e ∈ new, DrawnBelow h W e := by
  intro l
  induction l with
  | nil =>
    intro _ _ c0 c' hrun
    simp only [List.foldlM_nil, Option.pure_def, Option.some.injEq] at hrun
    subst hrun
    exact ⟨rfl, rfl, [], by simp, rfl, (fun _ he => by cases he), (fun _ he => by cases he)⟩
  | cons d l ihl =>
    intro hmem hneg c0 c' hrun
    simp only [List.foldlM_cons, Option.bind_eq_bind] at hrun
    have hd := hmem d (List.mem_cons_self _ _)
    cases hv : (h d).mVisible with
    | false =>
      have h1 : drawChild n h W c0 d = some c0 := by simp [drawChild, hv]
      rw [h1, Option.some_bind] at hrun
      obtain ⟨e1, e2, new, hcalls, hfilter, hoff, hbelow⟩ :=
        ihl (fun e he => hmem e (List.mem_cons_of_mem _ he))
          (fun e he => hneg e (List.mem_cons_of_mem _ he)) c0 c' hrun
      refine ⟨e1, e2, new, hcalls, ?_, hoff, hbelow⟩
      rw [hfilter, List.filter_cons, hv]
      simp
    | true =>
      have h1 : drawChild n h W c0 d =
          draw n h d { c0 with calls := c0.calls ++ [⟨W, d, c0.tx, c0.ty⟩] } := by
        simp [drawChild, hv]
      rw [h1] at hrun
      cases h2 : draw n h d { c0 with calls := c0.calls ++ [⟨W, d, c0.tx, c0.ty⟩] } with
      | none => simp [h2] at hrun
      | some c1 =>
        simp only [h2, Option.some_bind] at hrun
        obtain ⟨t1, t2, newd, hcallsd, _, _, hbelowd⟩ :=
          ih d _ c1 (hneg d (List.mem_cons_self _ _)) h2
        obtain ⟨e1, e2, new, hcalls, hfilter, hoff, hbelow⟩ :=
          ihl (fun e he => hmem e (List.mem_cons_of_mem _ he))
            (fun e he => hneg e (List.mem_cons_of_mem _ he)) c1 c' hrun
        simp only at t1 t2 hcallsd
        have hnotW : ∀ e ∈ newd, ¬ e.caller = W := by
          intro e he heq
          have h3 := inSubtree_rank_le h rank hr (hbelowd e he).1
          have h4 := hr W d hd
          rw [heq] at h3
          omega
        have hfd : newd.filter (fun e => e.caller == W) = [] := by
          rw [List.filter_eq_nil_iff]
          intro e he
          simpa using hnotW e he
        refine ⟨e1.trans t1, e2.trans t2, ⟨W, d, c0.tx, c0.ty⟩ :: (newd ++ new), ?_, ?_, ?_, ?_⟩
        · rw [hcalls, hcallsd]
          simp
        · rw [List.filter_cons, List.filter_append, hfd, List.filter_cons, hv]
          simp [hfilter]
        · intro e he heW
          rcases List.mem_cons.mp he with rfl | he
          · exact ⟨rfl, rfl⟩
          · rcases List.mem_append.mp he with he | he
            · exact absurd heW (hnotW e he)
            · have := hoff e he heW
              rw [t1, t2] at this
              exact this
        · intro e he
          rcases List.mem_cons.mp he with rfl | he
          · exact drawnBelow_direct h W d hd hv _ _
          · rcases List.mem_append.mp he with he | he
            · exact drawnBelow_of_child h W d hd hv e (hbelowd e he)
            · exact hbelow e he

theorem draw_effect (h : Heap) (rank : Nat → Nat) (hr : WellRanked h rank) :
    ∀ (n : Nat) (W : Nat) (ctx ctx' : NVGcontext),
      (∀ x, InSubtree h W x → NegatablePos (h x)) →
      draw n h W ctx = some ctx' → DrawEffect h W ctx ctx' := by
  intro n
  induction n with
  | zero => intro W ctx ctx' _ hrun; simp [draw] at hrun
  | succ n ih =>
    intro W ctx ctx' hneg hrun
    rw [draw_succ] at hrun
    cases hc : (h W).mChildren with
    | nil =>
      simp only [hc, List.isEmpty_nil, if_true, Option.some.injEq] at hrun
      subst hrun
      unfold DrawEffect
      refine ⟨rfl, rfl, [], by simp, ?_, (fun _ he => by cases he), (fun _ he => by cases he)⟩
      simp [hc]
    | cons a rest =>
      have hne : (h W).mChildren.isEmpty = false := by rw [hc]; rfl
      simp only [hne, Bool.false_eq_true, if_false, Option.map_eq_some'] at hrun
      obtain ⟨c2, hfold, hres⟩ := hrun
      obtain ⟨e1, e2, new, hcalls, hfilter, hoff, hbelow⟩ :=
        foldlM_drawChild_spec h rank hr n W ih (h W).mChildren (fun _ hd => hd)
          (fun d hd x hx => hneg x (inSubtree_of_child h W d x hd hx)) _ c2 hfold
      obtain ⟨n1, n2⟩ := hneg W InSubtree.root
      subst hres
      unfold DrawEffect
      simp only [nvgTranslate] at e1 e2 hcalls hoff ⊢
      refine ⟨?_, ?_, new, hcalls, hfilter, hoff, hbelow⟩
      · rw [e1, wrapInt32_of_inInt32 _ n1]; omega
      · rw [e2, wrapInt32_of_inInt32 _ n2]; omega

theorem draw_returns (h : Heap) (rank : Nat → Nat) (hr : WellRanked h rank) :
    ∀ (n : Nat) (W : Nat) (ctx : NVGcontext), rank W < n →
      ∃ ctx', draw n h W ctx = some ctx' := by
  intro n
  induction n with
  | zero => intro W _ hW; omega
  | succ n ih =>
    intro W ctx hW
    rw [draw_succ]
    by_cases hempty : (h W).mChildren.isEmpty = true
    · rw [if_pos hempty]; exact ⟨ctx, rfl⟩
    · rw [if_neg hempty]
      have hloop : ∀ (l : List Nat), (∀ d ∈ l, rank d < n) → ∀ c0,
          ∃ c', l.foldlM (drawChild n h W) c0 = some c' := by
        intro l
        induction l with
        | nil => intro _ c0; exact ⟨c0, rfl⟩
        | cons d l ihl =>
          intro hd c0
          have hstep : ∃ c1, drawChild n h W c0 d = some c1 := by
            unfold drawChild
            by_cases hv : (h d).mVisible = true
            · rw [if_pos hv]; exact ih d _ (hd d (List.mem_cons_self _ _))
            · rw [if_neg hv]; exact ⟨c0, rfl⟩
          obtain ⟨c1, h1⟩ := hstep
          obtain ⟨c2, h2⟩ := ihl (fun e he => hd e (List.mem_cons_of_mem _ he)) c1
          refine ⟨c2, ?_⟩
          simp only [List.foldlM_cons, Option.bind_eq_bind]
          rw [h1, Option.some_bind, h2]
      obtain ⟨c', hc'⟩ := hloop (h W).mChildren (fun d hd => by
        have := hr W d hd
        omega) (nvgTranslate ctx (h W).mPos.x (h W).mPos.y)
      rw [hc']
      exact ⟨_, rfl⟩

theorem exMoved_childrenHaveParent : ChildrenHaveParent exMoved := by
  intro P c hc
  match P with
  | 0 =>
    simp [exMoved, exTree] at hc
    rcases hc with rfl | rfl <;> rfl
  | 1 =>
    simp [exMoved] at hc
    subst hc; rfl
  | 2 =>
    simp [exMoved, exTree] at hc
    subst hc; rfl
  | 3 => simp [exMoved, exTree, Widget.initial] at hc
  | 4 => simp [exMoved, Widget.initial] at hc
  | n + 5 => simp [exMoved, exTree, Widget.initial] at hc

theorem exMoved_wellRanked : WellRanked exMoved exMovedRank := by
  intro P c hc
  match P with
  | 0 =>
    simp [exMoved, exTree] at hc
    rcases hc with rfl | rfl <;> decide
  | 1 =>
    simp [exMoved] at hc
    subst hc; decide
  | 2 =>
    simp [exMoved, exTree] at hc
    subst hc; decide
  | 3 => simp [exMoved, exTree, Widget.initial] at hc
  | 4 => simp [exMoved, Widget.initial] at hc
  | n + 5 => simp [exMoved, exTree, Widget.initial] at hc

theorem exMoved_negatable : ∀ x, NegatablePos (exMoved x) := by
  intro x
  match x with
  | 0 => decide
  | 1 => decide
  | 2 => decide
  | 3 => decide
  | 4 => decide
  | n + 5 => exact (by decide : NegatablePos Widget.initial)

/-- C22. In a tree of default widgets of finite depth, in which parent pointers agree
with the children lists and negating the positions does not overflow, `W.draw` returns
and leaves the translation offset of the context as it was before the call; if `W` has
no children the context is unchanged; otherwise the draw calls that `W` makes are
exactly its children with `visible = true`, in insertion order, each at the initial
offset plus the position of `W`; and no draw call, made by `W` or further down, is on
a widget in the subtree of an invisible widget below `W`. -/
theorem draw_traversal (h : Heap) (rank : Nat → Nat) (hr : WellRanked h rank)
    (hwf : ChildrenHaveParent h) (W : Nat) (ctx : NVGcontext)
    (hneg : ∀ x, InSubtree h W x → NegatablePos (h x)) :
    (∀ fuel, rank W < fuel → ∃ ctx', draw fuel h W ctx = some ctx') ∧
    (∀ fuel ctx', draw fuel h W ctx = some ctx' →
      ctx'.tx = ctx.tx ∧ ctx'.ty = ctx.ty ∧
      ((h W).mChildren = [] → ctx' = ctx) ∧
      ∃ new, ctx'.calls = ctx.calls ++ new ∧
        (new.filter (fun e => e.caller == W)).map DrawCall.widget =
          (h W).mChildren.filter (fun d => (h d).mVisible) ∧
        (∀ e ∈ new, e.caller = W →
          e.tx = ctx.tx + (h W).mPos.x ∧ e.ty = ctx.ty + (h W).mPos.y) ∧
        (∀ e ∈ new, ∀ x, StrictlyBelow h W x → (h x).mVisible = false →
          ¬ InSubtree h x e.widget)) := by
  refine ⟨fun fuel hf => draw_returns h rank hr fuel W ctx hf, ?_⟩
  intro fuel ctx' hrun
  obtain ⟨e1, e2, new, hcalls, hfilter, hoff, hbelow⟩ :=
    draw_effect h rank hr fuel W ctx ctx' hneg hrun
  refine ⟨e1, e2, ?_, new, hcalls, hfilter, hoff, ?_⟩
  · intro hnil
    cases fuel with
    | zero => simp [draw] at hrun
    | succ n =>
      rw [draw_succ, hnil] at hrun
      simp only [List.isEmpty_nil, if_true, Option.some.injEq] at hrun
      exact hrun.symm
  · intro e he x hx hinv hsub
    obtain ⟨_, below, hpath, hlast, hvis⟩ := hbelow e he
    have hup := inSubtree_up_path h hwf x hinv below W e.widget hpath hlast hvis hsub
    have h1 := inSubtree_rank_le h rank hr hup
    have h2 := strictlyBelow_rank_lt h rank hr hx
    omega

/-- Witness for C22: `draw` on the root of `exMoved`, at position (3,4), with the
context offset (7,9): the children 1 and 2 are drawn at the offset (10,13), widget 4
below widget 1 at (20,23), the invisible widget 3 is not drawn, and the offset is (7,9)
again after the call. -/
theorem draw_traversal_witness :
    WellRanked exMoved exMovedRank ∧ ChildrenHaveParent exMoved ∧
      (∀ x, InSubtree exMoved 0 x → NegatablePos (exMoved x)) ∧
      ∃ ctx', draw 3 exMoved 0 ⟨7, 9, []⟩ = some ctx' ∧ ctx'.tx = 7 ∧ ctx'.ty = 9 ∧
        ctx'.calls = [⟨0, 1, 10, 13⟩, ⟨1, 4, 20, 23⟩, ⟨0, 2, 10, 13⟩] :=
  ⟨exMoved_wellRanked, exMoved_childrenHaveParent, fun x _ => exMoved_negatable x, _, rfl,
    ((draw_traversal exMoved exMovedRank exMoved_wellRanked exMoved_childrenHaveParent 0
      ⟨7, 9, []⟩ (fun x _ => exMoved_negatable x)).2 3 _ rfl).1,
    ((draw_traversal exMoved exMovedRank exMoved_wellRanked exMoved_childrenHaveParent 0
      ⟨7, 9, []⟩ (fun x _ => exMoved_negatable x)).2 3 _ rfl).2.1, by decide⟩

/-! ## Parent pointers and children lists (C3) -/

theorem ctor_some_refCount_at (h : Heap) (n p x : Nat) :
    (Widget.ctor h n (some p) x).refCount = if x = n then 1 else (h x).refCount := by
  by_cases hx : x = n
  · subst hx
    simp [Widget.ctor, addChild_refCount_at, Widget.initial]
  · simp [Widget.ctor, addChild_refCount_at, hx]

theorem consistent_construct_none (σ : World) (hi : Consistent σ) :
    Consistent ⟨Widget.ctor σ.heap σ.count none, σ.count + 1, σ.destroyed⟩ := by
  have hnd : σ.count ∉ σ.destroyed := fun hm => Nat.lt_irrefl _ (hi.constructed _ hm)
  refine ⟨?_, ?_, ?_, ?_, ?_⟩
  · intro P hP c hc
    simp only [ctor_none_at, Live] at hP hc ⊢
    by_cases hPn : P = σ.count
    · rw [if_pos hPn] at hc; simp [Widget.initial] at hc
    · rw [if_neg hPn] at hc
      obtain ⟨⟨h1, h2⟩, h3⟩ := hi.listed P (by omega) c hc
      have hcn : c ≠ σ.count := by omega
      rw [if_neg hcn]
      exact ⟨⟨Nat.lt_succ_of_lt h1, h2⟩, h3⟩
  · intro P hP
    simp only [ctor_none_at] at hP ⊢
    by_cases hPn : P = σ.count
    · rw [if_pos hPn]; simp [Widget.initial]
    · rw [if_neg hPn]; exact hi.nodup P (by omega)
  · intro w hw P hP
    simp only [ctor_none_at, Live] at hw hP ⊢
    by_cases hwn : w = σ.count
    · rw [if_pos hwn] at hP; simp [Widget.initial] at hP
    · rw [if_neg hwn] at hP
      obtain ⟨h1, h2⟩ := hi.parents w ⟨by omega, hw.2⟩ P hP
      have hPn : P ≠ σ.count := by omega
      rw [if_neg hPn]
      exact ⟨Nat.lt_succ_of_lt h1, h2⟩
  · intro w hw
    simp only [ctor_none_at, Live] at hw ⊢
    by_cases hwn : w = σ.count
    · rw [if_pos hwn]; rfl
    · rw [if_neg hwn]; exact hi.counts w ⟨by omega, hw.2⟩
  · intro w hw
    exact Nat.lt_succ_of_lt (hi.constructed w hw)

theorem consistent_construct_some (σ : World) (p : Nat) (hi : Consistent σ) (hp : Live σ p) :
    Consistent ⟨Widget.ctor σ.heap σ.count (some p), σ.count + 1, σ.destroyed⟩ := by
  have hnd : σ.count ∉ σ.destroyed := fun hm => Nat.lt_irrefl _ (hi.constructed _ hm)
  have hpn : p ≠ σ.count := Nat.ne_of_lt hp.1
  have hnew : ∀ Q, Q < σ.count → σ.count ∉ (σ.heap Q).mChildren := fun Q hQ hm =>
    Nat.lt_irrefl _ (hi.listed Q hQ _ hm).1.1
  refine ⟨?_, ?_, ?_, ?_, ?_⟩
  · intro P hP c hc
    simp only [ctor_some_children_at _ _ _ _ hpn, ctor_some_parent_at, Live] at hP hc ⊢
    by_cases hPn : P = σ.count
    · rw [if_pos hPn] at hc; cases hc
    · rw [if_neg hPn] at hc
      have hold : c ∈ (σ.heap P).mChildren →
          (c < σ.count + 1 ∧ c ∉ σ.destroyed) ∧
            (if c = σ.count then some p else (σ.heap c).mParent) = some P := by
        intro hc'
        obtain ⟨⟨h1, h2⟩, h3⟩ := hi.listed P (by omega) c hc'
        have hcn : c ≠ σ.count := by omega
        rw [if_neg hcn]
        exact ⟨⟨Nat.lt_succ_of_lt h1, h2⟩, h3⟩
      by_cases hPp : P = p
      · rw [if_pos hPp] at hc
        rcases List.mem_append.mp hc with hc | hc
        · exact hold (hPp ▸ hc)
        · simp only [List.mem_singleton] at hc
          subst hc
          rw [if_pos rfl, hPp]
          exact ⟨⟨Nat.lt_succ_self _, hnd⟩, rfl⟩
      · rw [if_neg hPp] at hc
        exact hold hc
  · intro P hP
    simp only [ctor_some_children_at _ _ _ _ hpn] at hP ⊢
    by_cases hPn : P = σ.count
    · rw [if_pos hPn]; exact List.nodup_nil
    · rw [if_neg hPn]
      by_cases hPp : P = p
      · rw [if_pos hPp]
        refine List.Nodup.append (hi.nodup p hp.1) (List.nodup_singleton _) ?_
        intro a ha hb
        simp only [List.mem_singleton] at hb
        subst hb
        exact hnew p hp.1 ha
      · rw [if_neg hPp]; exact hi.nodup P (by omega)
  · intro w hw P hP
    simp only [ctor_some_children_at _ _ _ _ hpn, ctor_some_parent_at, Live] at hw hP ⊢
    by_cases hwn : w = σ.count
    · rw [if_pos hwn, Option.some.injEq] at hP
      subst hP
      refine ⟨Nat.lt_succ_of_lt hp.1, ?_⟩
      rw [if_neg hpn, if_pos rfl, hwn]
      simp
    · rw [if_neg hwn] at hP
      obtain ⟨h1, h2⟩ := hi.parents w ⟨by omega, hw.2⟩ P hP
      have hPn : P ≠ σ.count := by omega
      refine ⟨Nat.lt_succ_of_lt h1, ?_⟩
      rw [if_neg hPn]
      by_cases hPp : P = p
      · rw [if_pos hPp]; exact List.mem_append_left _ (hPp ▸ h2)
      · rw [if_neg hPp]; exact h2
  · intro w hw
    simp only [ctor_some_refCount_at, ctor_some_parent_at, Live] at hw ⊢
    by_cases hwn : w = σ.count
    · rw [if_pos hwn, if_pos hwn]; simp
    · rw [if_neg hwn, if_neg hwn]; exact hi.counts w ⟨by omega, hw.2⟩
  · intro w hw
    exact Nat.lt_succ_of_lt (hi.constructed w hw)

theorem consistent_addChild (σ : World) (P w : Nat) (hi : Consistent σ) (hP : Live σ P)
    (hw : Live σ w) (hzero : (σ.heap w).refCount = 0) :
    Consistent ⟨addChild σ.heap P w, σ.count, σ.destroyed⟩ := by
  have hun : ∀ Q, Q < σ.count → w ∉ (σ.heap Q).mChildren := by
    intro Q hQ hm
    have h1 := (hi.listed Q hQ w hm).2
    have h2 := hi.counts w hw
    rw [h1, hzero] at h2
    simp at h2
  have hpar : (σ.heap w).mParent = none := by
    cases hq : (σ.heap w).mParent with
    | none => rfl
    | some Q =>
      obtain ⟨h1, h2⟩ := hi.parents w hw Q hq
      exact absurd h2 (hun Q h1)
  refine ⟨?_, ?_, ?_, ?_, hi.constructed⟩
  · intro Q hQ c hc
    simp only [addChild_children_at, addChild_parent_at, Live] at hQ hc ⊢
    have hold : c ∈ (σ.heap Q).mChildren →
        (c < σ.count ∧ c ∉ σ.destroyed) ∧
          (if c = w then some P else (σ.heap c).mParent) = some Q := by
      intro hc'
      obtain ⟨h1, h2⟩ := hi.listed Q hQ c hc'
      have hcw : c ≠ w := fun e => hun Q hQ (e ▸ hc')
      rw [if_neg hcw]
      exact ⟨h1, h2⟩
    by_cases hQP : Q = P
    · rw [if_pos hQP] at hc
      rcases List.mem_append.mp hc with hc | hc
      · exact hold (hQP ▸ hc)
      · simp only [List.mem_singleton] at hc
        subst hc
        rw [if_pos rfl, hQP]
        exact ⟨hw, rfl⟩
    · rw [if_neg hQP] at hc
      exact hold hc
  · intro Q hQ
    simp only [addChild_children_at] at hQ ⊢
    by_cases hQP : Q = P
    · rw [if_pos hQP]
      refine List.Nodup.append (hi.nodup P hP.1) (List.nodup_singleton _) ?_
      intro a ha hb
      simp only [List.mem_singleton] at hb
      subst hb
      exact hun P hP.1 ha
    · rw [if_neg hQP]; exact hi.nodup Q hQ
  · intro x hx Q hq
    simp only [addChild_children_at, addChild_parent_at, Live] at hx hq ⊢
    by_cases hxw : x = w
    · rw [if_pos hxw, Option.some.injEq] at hq
      subst hq
      refine ⟨hP.1, ?_⟩
      rw [if_pos rfl, hxw]
      simp
    · rw [if_neg hxw] at hq
      obtain ⟨h1, h2⟩ := hi.parents x hx Q hq
      refine ⟨h1, ?_⟩
      by_cases hQP : Q = P
      · rw [if_pos hQP]; exact List.mem_append_left _ (hQP ▸ h2)
      · rw [if_neg hQP]; exact h2
  · intro x hx
    simp only [addChild_refCount_at, addChild_parent_at, Live] at hx ⊢
    by_cases hxw : x = w
    · subst hxw
      rw [if_pos rfl, if_pos rfl, hi.counts x hx, if_pos hpar]
      simp
    · rw [if_neg hxw, if_neg hxw, hi.counts x hx]
      simp

theorem consistent_removed (σ : World) (P b : Nat) (g : Heap) (rest : List Nat)
    (hi : Consistent σ) (hP : P < σ.count) (hb : b ∈ (σ.heap P).mChildren)
    (hchildren : ∀ x, (g x).mChildren = if x = P then rest else (σ.heap x).mChildren)
    (hrest : ∀ c, c ∈ rest ↔ c ∈ (σ.heap P).mChildren ∧ c ≠ b) (hnd : rest.Nodup)
    (hparent : ∀ x, (g x).mParent = (σ.heap x).mParent)
    (hcount : ∀ x, (g x).refCount = (σ.heap x).refCount - if x = b then 1 else 0) :
    release σ g b = ⟨g, σ.count, b :: σ.destroyed⟩ ∧
      Consistent ⟨g, σ.count, b :: σ.destroyed⟩ := by
  obtain ⟨hblive, hbpar⟩ := hi.listed P hP b hb
  have hbcount : (g b).refCount = 0 := by
    rw [hcount b, if_pos rfl, hi.counts b hblive, hbpar]
    simp
  have hne : ∀ Q, Q < σ.count → ∀ c, c ∈ (g Q).mChildren →
      c ∈ (σ.heap Q).mChildren ∧ c ≠ b := by
    intro Q hQ c hc
    rw [hchildren Q] at hc
    by_cases hQP : Q = P
    · rw [if_pos hQP] at hc
      rw [hQP]
      exact (hrest c).mp hc
    · rw [if_neg hQP] at hc
      refine ⟨hc, ?_⟩
      intro e
      have := (hi.listed Q hQ c hc).2
      rw [e, hbpar, Option.some.injEq] at this
      exact hQP this.symm
  refine ⟨?_, ?_, ?_, ?_, ?_, ?_⟩
  · unfold release
    rw [if_pos hbcount]
    rfl
  · intro Q hQ c hc
    obtain ⟨hc', hcb⟩ := hne Q hQ c hc
    obtain ⟨⟨h1, h2⟩, h3⟩ := hi.listed Q hQ c hc'
    refine ⟨⟨h1, ?_⟩, ?_⟩
    · intro hm
      rcases List.mem_cons.mp hm with hm | hm
      · exact hcb hm
      · exact h2 hm
    · show (g c).mParent = some Q
      rw [hparent c]; exact h3
  · intro Q hQ
    show (g Q).mChildren.Nodup
    rw [hchildren Q]
    by_cases hQP : Q = P
    · rw [if_pos hQP]; exact hnd
    · rw [if_neg hQP]; exact hi.nodup Q hQ
  · intro x hx Q hq
    have hxb : x ≠ b := fun e => hx.2 (e ▸ List.mem_cons_self _ _)
    have hxl : Live σ x := ⟨hx.1, fun hm => hx.2 (List.mem_cons_of_mem _ hm)⟩
    have hq' : (σ.heap x).mParent = some Q := by rw [← hparent x]; exact hq
    obtain ⟨h1, h2⟩ := hi.parents x hxl Q hq'
    refine ⟨h1, ?_⟩
    show x ∈ (g Q).mChildren
    rw [hchildren Q]
    by_cases hQP : Q = P
    · rw [if_pos hQP]
      exact (hrest x).mpr ⟨hQP ▸ h2, hxb⟩
    · rw [if_neg hQP]; exact h2
  · intro x hx
    have hxb : x ≠ b := fun e => hx.2 (e ▸ List.mem_cons_self _ _)
    have hxl : Live σ x := ⟨hx.1, fun hm => hx.2 (List.mem_cons_of_mem _ hm)⟩
    show (g x).refCount = if (g x).mParent = none then 0 else 1
    rw [hcount x, if_neg hxb, hparent x, hi.counts x hxl]
    simp
  · intro x hx
    rcases List.mem_cons.mp hx with hx | hx
    · rw [hx]; exact hblive.1
    · exact hi.constructed x hx

theorem eraseIdx_mem_iff (l : List Nat) (i b : Nat) (hnd : l.Nodup) (hi : l.get? i = some b) :
    (l.eraseIdx i).Nodup ∧ ∀ c, c ∈ l.eraseIdx i ↔ c ∈ l ∧ c ≠ b := by
  obtain ⟨pre, post, h1, h2, _⟩ := eraseIdx_split l i b hi
  rw [h1, List.nodup_middle, List.nodup_cons] at hnd
  rw [h2]
  refine ⟨hnd.2, ?_⟩
  intro c
  rw [h1]
  constructor
  · intro hc
    refine ⟨?_, fun e => hnd.1 (e ▸ hc)⟩
    rcases List.mem_append.mp hc with hc | hc
    · exact List.mem_append_left _ hc
    · exact List.mem_append_right _ (List.mem_cons_of_mem _ hc)
  · rintro ⟨hc, hcb⟩
    rcases List.mem_append.mp hc with hc | hc
    · exact List.mem_append_left _ hc
    · rcases List.mem_cons.mp hc with hc | hc
      · exact absurd hc hcb
      · exact List.mem_append_right _ hc

theorem applyOp_consistent (σ σ' : World) (op : Op) (hi : Consistent σ)
    (hadd : ∀ P w, op = .addChild P w → (σ.heap w).refCount = 0)
    (hrem : ∀ P w, op = .removeChild P w → w ∈ (σ.heap P).mChildren)
    (hs : applyOp σ op = some σ') : Consistent σ' := by
  cases op with
  | construct parent =>
    cases parent with
    | none =>
      simp only [applyOp, Option.some.injEq] at hs
      subst hs
      exact consistent_construct_none σ hi
    | some p =>
      simp only [applyOp] at hs
      split at hs
      · rename_i hp
        simp only [Option.some.injEq] at hs
        subst hs
        exact consistent_construct_some σ p hi hp
      · cases hs
  | addChild P w =>
    simp only [applyOp] at hs
    split at hs
    · rename_i hpre
      simp only [Option.some.injEq] at hs
      subst hs
      exact consistent_addChild σ P w hi hpre.1 hpre.2.1 (hadd P w rfl)
    · cases hs
  | removeChild P w =>
    simp only [applyOp] at hs
    split at hs
    · rename_i hpre
      simp only [Option.some.injEq] at hs
      have hb := hrem P w rfl
      obtain ⟨hrel, hcons⟩ := consistent_removed σ P w (removeChild σ.heap P w)
        ((σ.heap P).mChildren.filter (fun c => c != w)) hi hpre.1.1 hb
        (fun x => removeChild_children_at σ.heap P w x)
        (fun c => by simp [List.mem_filter])
        ((hi.nodup P hpre.1.1).filter _)
        (fun x => removeChild_parent_at σ.heap P w x)
        (fun x => removeChild_refCount_at σ.heap P w x)
      rw [hrel] at hs
      subst hs
      exact hcons
    · cases hs
  | removeChildAt P i =>
    simp only [applyOp] at hs
    split at hs
    · rename_i hP
      split at hs
      · rename_i b hget
        split at hs
        · cases hr : removeChildAt σ.heap P i with
          | none => simp [hr] at hs
          | some g =>
            simp only [hr, Option.map_some', Option.some.injEq] at hs
            have hf := removeChildAt_fields σ.heap P i g hr
            obtain ⟨b', hget', hcount⟩ := removeChildAt_refCount_at σ.heap P i g hr
            rw [hget, Option.some.injEq] at hget'
            subst hget'
            obtain ⟨hnd, hmem⟩ := eraseIdx_mem_iff _ _ b (hi.nodup P hP.1) hget
            obtain ⟨hrel, hcons⟩ := consistent_removed σ P b g
              ((σ.heap P).mChildren.eraseIdx i.toNat) hi hP.1 (List.get?_mem hget)
              (fun x => (hf x).2) hmem hnd (fun x => (hf x).1) hcount
            rw [hrel] at hs
            subst hs
            exact hcons
        · cases hs
      · cases hs
    · cases hs

theorem applyOp_destroyed (σ σ' : World) (op : Op) (hd : σ.destroyed = [])
    (hop : op.isRemoval = false) (hs : applyOp σ op = some σ') : σ'.destroyed = [] := by
  cases op with
  | construct parent =>
    cases parent with
    | none =>
      simp only [applyOp, Option.some.injEq] at hs
      subst hs; exact hd
    | some p =>
      simp only [applyOp] at hs
      split at hs
      · simp only [Option.some.injEq] at hs
        subst hs; exact hd
      · cases hs
  | addChild Q w0 =>
    simp only [applyOp] at hs
    split at hs
    · simp only [Option.some.injEq] at hs
      subst hs; exact hd
    · cases hs
  | removeChild Q w => cases hop
  | removeChildAt Q i => cases hop

theorem run_consistent : ∀ (ops : List Op) (σ0 σ : World), Consistent σ0 →
    run σ0 ops = some σ → regularCalls σ0 ops = true → Consistent σ := by
  intro ops
  induction ops with
  | nil =>
    intro σ0 σ h0 hr _
    simp only [run, Option.some.injEq] at hr
    exact hr ▸ h0
  | cons op ops ih =>
    intro σ0 σ h0 hr hrem
    simp only [run] at hr
    cases hs : applyOp σ0 op with
    | none => simp [hs] at hr
    | some σ1 =>
      simp only [hs, Option.some_bind] at hr
      simp only [regularCalls, hs, Bool.and_eq_true] at hrem
      refine ih σ1 σ (applyOp_consistent σ0 σ1 op h0 ?_ ?_ hs) hr hrem.2
      · intro P w hop
        subst hop
        simpa using hrem.1
      · intro P w hop
        subst hop
        simpa using hrem.1

theorem run_destroyed : ∀ (ops : List Op) (σ0 σ : World), σ0.destroyed = [] →
    (∀ op ∈ ops, op.isRemoval = false) → run σ0 ops = some σ → σ.destroyed = [] := by
  intro ops
  induction ops with
  | nil =>
    intro σ0 σ h0 _ hr
    simp only [run, Option.some.injEq] at hr
    exact hr ▸ h0
  | cons op ops ih =>
    intro σ0 σ h0 hk hr
    simp only [run] at hr
    cases hs : applyOp σ0 op with
    | none => simp [hs] at hr
    | some σ1 =>
      simp only [hs, Option.some_bind] at hr
      exact ih σ1 σ (applyOp_destroyed σ0 σ1 op h0 (hk op (List.mem_cons_self _ _)) hs)
        (fun o ho => hk o (List.mem_cons_of_mem _ ho)) hr

theorem fresh_consistent (σ : World) (h0 : Fresh σ) : Consistent σ := by
  obtain ⟨hd, hall⟩ := h0
  refine ⟨?_, ?_, ?_, ?_, ?_⟩
  · intro P hP c hc
    rw [(hall P hP).2.2] at hc
    cases hc
  · intro P hP
    rw [(hall P hP).2.2]
    exact List.nodup_nil
  · intro w hw P hP
    rw [(hall w hw.1).2.1] at hP
    cases hP
  · intro w hw
    rw [(hall w hw.1).1, (hall w hw.1).2.1]
    rfl
  · intro w hw
    rw [hd] at hw
    cases hw

end nanogui
